import Mathlib

/-!
Verification of the guess-calculator-framework core against its
natural-language specification.

This file shallowly embeds the relevant C++ classes
(`MixedRadixNumber`, `PatternManager`, `Nonterminal`,
`SeenTerminalGroup`, `UnseenTerminalGroup`, `Structure`, the
terminal-file group scanner and the lookup-table client) as Lean
functions, and proves or refutes the frozen claims about them.

Modelling conventions:
* Byte strings (`std::string` values, which may carry the 0x01
  structure-break byte) are `List ℕ` of byte values.
* `double` probabilities are modelled by exact rationals `ℚ`;
  probabilities in the grammar files are round-trippable hex floats
  and the code only multiplies and compares them.
* GMP integers (`mpz_t`) are `ℤ` (or `ℕ` where the code only ever
  holds non-negative counts).
* `NULL` returns and process-terminating error paths are `Option`s.
-/

namespace GuessCalc

/-- Byte strings: a `std::string` as its list of byte values. -/
abbrev BStr := List ℕ

/-! ### MixedRadixNumber (mixed_radix_number.cpp)

The C++ object stores an array of `(digit, base)` pairs and walks it
from the last index (least-significant) towards index 0.  We model the
state as MSB-first lists `bases`, `digits` (index 0 of the C++ array is
the head), and implement the loops on the reversed (LSB-first) list of
`(digit, base)` pairs. -/

structure MixedRadixNumber where
  bases : List ℕ
  digits : List ℕ
deriving DecidableEq, Repr

namespace MixedRadixNumber

/-- The carry loop of `MixedRadixNumber::increment`, on the LSB-first
list of `(digit, base)` pairs: while the current digit is ≥ base - 1 it
is zeroed and the carry moves on; running off the end is overflow
(`none`); otherwise the current digit is bumped and the more
significant digits are kept. -/
def incLsb : List (ℕ × ℕ) → Option (List ℕ)
  | [] => none
  | (d, b) :: rest =>
    if b - 1 ≤ d then (incLsb rest).map (fun t => 0 :: t)
    else some ((d + 1) :: rest.map Prod.fst)

/-- `MixedRadixNumber::clear`: all digits to zero. -/
def clear (m : MixedRadixNumber) : MixedRadixNumber :=
  ⟨m.bases, m.digits.map fun _ => 0⟩

/-- `MixedRadixNumber::increment` (Knuth's Algorithm M step):
returns `none` exactly when the C++ method returns `false`. -/
def increment (m : MixedRadixNumber) : Option MixedRadixNumber :=
  (incLsb ((m.digits.zip m.bases).reverse)).map fun t => ⟨m.bases, t.reverse⟩

/-- The maxing loop of `MixedRadixNumber::intelligentSkip`, on the
LSB-first pair list: every digit up to and including the first non-zero
digit is set to base - 1, the more significant digits are kept. -/
def skipLsb : List (ℕ × ℕ) → List ℕ
  | [] => []
  | (d, b) :: rest =>
    (b - 1) :: (if d ≠ 0 then rest.map Prod.fst else skipLsb rest)

/-- `MixedRadixNumber::intelligentSkip`: max out the low digits up to
and including the first non-zero digit, then increment. -/
def intelligentSkip (m : MixedRadixNumber) : Option MixedRadixNumber :=
  increment ⟨m.bases, (skipLsb ((m.digits.zip m.bases).reverse)).reverse⟩

/-- `MixedRadixNumber::getPlace`. -/
def getPlace (m : MixedRadixNumber) (i : ℕ) : ℕ := m.digits.getD i 0

/-- `MixedRadixNumber::setPlace`: in-range digit update, `none` models
the `false` return. -/
def setPlace (m : MixedRadixNumber) (i v : ℕ) : Option MixedRadixNumber :=
  if i < m.digits.length ∧ v < m.bases.getD i 0 then
    some ⟨m.bases, m.digits.set i v⟩
  else none

/-- Carrying through a run of already-maximal low digits just zeroes
them and continues. -/
theorem incLsb_append_max (zs : List (ℕ × ℕ)) (h : ∀ p ∈ zs, p.2 - 1 ≤ p.1)
    (rest : List (ℕ × ℕ)) :
    incLsb (zs ++ rest) =
      (incLsb rest).map (fun t => List.replicate zs.length 0 ++ t) := by
  induction zs with
  | nil => cases h2 : incLsb rest <;> simp [h2]
  | cons p zs ih =>
    obtain ⟨d, b⟩ := p
    have hd : b - 1 ≤ d := h (d, b) (List.mem_cons_self _ _)
    have ih2 := ih (fun q hq => h q (List.mem_cons_of_mem _ hq))
    simp only [List.cons_append, incLsb, if_pos hd, ih2, Option.map_map]
    cases h2 : incLsb rest <;> simp [h2, ih2, List.replicate_succ]

/-- On a pair list whose head digit is maximal and non-zero, the maxing
loop of `intelligentSkip` is the identity. -/
theorem skipLsb_of_head_max (d b : ℕ) (rest : List (ℕ × ℕ))
    (hmax : d = b - 1) (hne : d ≠ 0) :
    skipLsb ((d, b) :: rest) = ((d, b) :: rest).map Prod.fst := by
  simp [skipLsb, hne, ← hmax]

end MixedRadixNumber

/-- Claim C8, counterexample.  The state `(2, 0)` with bases `(5, 1)`
has a maximal trailing suffix (`0 = 1 - 1`) and a non-maximal next
digit (`2 < 5 - 1`), yet `intelligentSkip` overflows (`none`) while a
single `increment` reaches `(3, 0)`: the skip does not advance the
counter by exactly one state.  The cause is a base-1 position whose
maximal digit is `0`, so the maxing loop runs past it and also maxes
the digit `2`. -/
theorem claim_C8_counterexample :
    (MixedRadixNumber.getPlace ⟨[5, 1], [2, 0]⟩ 1 =
        List.getD [5, 1] 1 0 - 1) ∧
      (MixedRadixNumber.getPlace ⟨[5, 1], [2, 0]⟩ 0 + 1 < List.getD [5, 1] 0 0) ∧
      MixedRadixNumber.increment ⟨[5, 1], [2, 0]⟩ = some ⟨[5, 1], [3, 0]⟩ ∧
      MixedRadixNumber.intelligentSkip ⟨[5, 1], [2, 0]⟩ ≠
        MixedRadixNumber.increment ⟨[5, 1], [2, 0]⟩ ∧
      MixedRadixNumber.intelligentSkip ⟨[5, 1], [2, 0]⟩ = none := by
  decide

/-- Claim C8 (amended: the trailing maximal suffix must be non-empty
and consist of positions with base ≥ 2, so that its maximal digits are
non-zero).  For every state whose digits are `pre ++ x :: suf` with
every digit of `suf` equal to its base minus 1 and that base at least
2, and `x` non-maximal (`x + 1 < bx`), `intelligentSkip` returns
exactly what a single `increment` call returns, namely the successor
state `pre ++ (x + 1) :: 0…0` (and in particular it returns `true`,
i.e. `some`). -/
theorem claim_C8 (pre preB suf sufB : List ℕ) (x bx : ℕ)
    (hpre : pre.length = preB.length) (hsuf : suf.length = sufB.length)
    (hne : suf ≠ [])
    (hmax : ∀ p ∈ suf.zip sufB, p.1 = p.2 - 1 ∧ 2 ≤ p.2)
    (hx : x + 1 < bx) :
    MixedRadixNumber.intelligentSkip ⟨preB ++ bx :: sufB, pre ++ x :: suf⟩ =
        MixedRadixNumber.increment ⟨preB ++ bx :: sufB, pre ++ x :: suf⟩ ∧
      MixedRadixNumber.increment ⟨preB ++ bx :: sufB, pre ++ x :: suf⟩ =
        some ⟨preB ++ bx :: sufB, pre ++ (x + 1) :: List.replicate suf.length 0⟩ := by
  have hzip : (pre ++ x :: suf).zip (preB ++ bx :: sufB) =
      pre.zip preB ++ (x, bx) :: suf.zip sufB := by
    rw [List.zip_append hpre, List.zip_cons_cons]
  have hrev : ((pre ++ x :: suf).zip (preB ++ bx :: sufB)).reverse =
      (suf.zip sufB).reverse ++ (x, bx) :: (pre.zip preB).reverse := by
    simp [hzip]
  have hSmax : ∀ p ∈ (suf.zip sufB).reverse, p.2 - 1 ≤ p.1 := by
    intro p hp
    exact le_of_eq (hmax p (List.mem_reverse.mp hp)).1.symm
  have hinc : MixedRadixNumber.increment ⟨preB ++ bx :: sufB, pre ++ x :: suf⟩ =
      some ⟨preB ++ bx :: sufB, pre ++ (x + 1) :: List.replicate suf.length 0⟩ := by
    rw [MixedRadixNumber.increment, hrev,
      MixedRadixNumber.incLsb_append_max _ hSmax]
    have hxlt : ¬ (bx - 1 ≤ x) := by omega
    simp only [MixedRadixNumber.incLsb, if_neg hxlt, Option.map_some, Option.map_map]
    have hmfst : (pre.zip preB).map Prod.fst = pre :=
      List.map_fst_zip _ _ (le_of_eq hpre)
    simp [List.map_reverse, hmfst, List.length_zip, hsuf.symm,
      List.reverse_replicate]
  constructor
  · rw [MixedRadixNumber.intelligentSkip, hrev]
    obtain ⟨q, S2, hS⟩ : ∃ q S2, (suf.zip sufB).reverse = q :: S2 := by
      have : suf.zip sufB ≠ [] := by
        cases suf with
        | nil => exact absurd rfl hne
        | cons a l =>
          cases sufB with
          | nil => simp at hsuf
          | cons b m => simp [List.zip_cons_cons]
      cases hc : (suf.zip sufB).reverse with
      | nil => exact absurd (List.reverse_eq_nil_iff.mp hc) this
      | cons q S2 => exact ⟨q, S2, rfl⟩
    have hq : q.1 = q.2 - 1 ∧ 2 ≤ q.2 := by
      apply hmax
      have : q ∈ (suf.zip sufB).reverse := by rw [hS]; exact List.mem_cons_self _ _
      exact List.mem_reverse.mp this
    have hqne : q.1 ≠ 0 := by omega
    rw [hS, List.cons_append,
      MixedRadixNumber.skipLsb_of_head_max q.1 q.2 (S2 ++ (x, bx) :: (pre.zip preB).reverse) hq.1 hqne]
    have hback : ((q.1, q.2) :: (S2 ++ (x, bx) :: (pre.zip preB).reverse)) =
        ((pre ++ x :: suf).zip (preB ++ bx :: sufB)).reverse := by
      rw [hrev, hS]; rfl
    rw [hback]
    have hfst : (((pre ++ x :: suf).zip (preB ++ bx :: sufB)).reverse.map Prod.fst).reverse =
        pre ++ x :: suf := by
      rw [← List.map_reverse, List.reverse_reverse]
      exact List.map_fst_zip _ _ (by simp [hpre, hsuf])
    rw [hfst]
  · exact hinc

/-- Witness for claim C8 at the concrete state `(0, 1)` with bases
`(2, 2)`: the skip equals a single increment and lands on `(1, 0)`. -/
theorem claim_C8_witness :
    (MixedRadixNumber.intelligentSkip ⟨[2, 2], [0, 1]⟩ =
        MixedRadixNumber.increment ⟨[2, 2], [0, 1]⟩) ∧
      MixedRadixNumber.increment ⟨[2, 2], [0, 1]⟩ = some ⟨[2, 2], [1, 0]⟩ :=
  claim_C8 [] [] [1] [2] 0 2 rfl rfl (by decide) (by decide) (by decide)

/-! ### Parse statuses (lookup_data.h) -/

/-- `kCanParse` bit flag. -/
def kCanParse : ℕ := 1

/-- `kBeyondCutoff` bit flag. -/
def kBeyondCutoff : ℕ := 2

/-- `kStructureNotFound` bit flag. -/
def kStructureNotFound : ℕ := 4

/-- `kTerminalNotFound` bit flag. -/
def kTerminalNotFound : ℕ := 8

/-- `kTerminalCollision` bit flag. -/
def kTerminalCollision : ℕ := 16

/-- `kTerminalCantBeGenerated` bit flag. -/
def kTerminalCantBeGenerated : ℕ := 32

/-- `kUnexpectedFailure` bit flag. -/
def kUnexpectedFailure : ℕ := 64

/-! ### Terminal-file parsing into terminal groups
(nonterminal.cpp `Nonterminal::initializeTerminalGroups`,
grammar_tools.cpp `grammartools::IsEndOfTerminalGroup`)

A terminals file is modelled as its list of already-parsed lines: each
line is either blank or carries `terminal<TAB>probability<TAB>source_ids`. -/

/-- One line of a terminals file. -/
inductive TFLine
  | blank
  | data (terminal : BStr) (probability : ℚ) (source_ids : BStr)
deriving DecidableEq, Repr

/-- Probability field of a line (junk 0 for a blank line). -/
def TFLine.probability : TFLine → ℚ
  | .blank => 0
  | .data _ p _ => p

/-- Source-ids field of a line (junk for a blank line). -/
def TFLine.sourceIds : TFLine → BStr
  | .blank => []
  | .data _ _ s => s

/-- A constructed terminal group, as produced by
`Nonterminal::initializeTerminalGroups`: either a seen group (the run
of terminal lines that back it, with the shared probability) or an
unseen group (whose generator mask is the creating line's `source_ids`
field). -/
inductive TGSpec
  | seen (terminals : List BStr) (probability : ℚ)
  | unseen (mask : BStr) (probability : ℚ)
deriving DecidableEq, Repr

/-- `grammartools::IsEndOfTerminalGroup`, given the probability of the
current (non-blank) line and the lines after it: the current line ends
a group iff there is no next line, the next line is blank, or the next
line's probability differs. -/
def isEndOfTerminalGroup (p : ℚ) : List TFLine → Bool
  | [] => true
  | .blank :: _ => true
  | .data _ p2 _ :: _ => decide (p ≠ p2)

/-- The scanning loop of `Nonterminal::initializeTerminalGroups`.
State: `inSeen` (`in_seen_groups`: cleared at the first blank line) and
`acc`, the data lines accumulated for the group currently being built
(the byte range from `group_start`, together with
`current_group_size`).  A line ending a group emits a seen group (when
still before the blank line) or an unseen group whose mask is that
line's `source_ids` field. -/
def itgLoop : List TFLine → Bool → List BStr → List TGSpec
  | [], _, _ => []
  | .blank :: rest, _, acc => itgLoop rest false acc
  | .data t p sids :: rest, inSeen, acc =>
    if isEndOfTerminalGroup p rest then
      (if inSeen then TGSpec.seen (acc ++ [t]) p else TGSpec.unseen sids p) ::
        itgLoop rest inSeen []
    else itgLoop rest inSeen (acc ++ [t])

/-- `Nonterminal::initializeTerminalGroups` on a parsed terminals
file. -/
def initializeTerminalGroups (lines : List TFLine) : List TGSpec :=
  itgLoop lines true []

/-- The generator masks of the unseen groups, in construction order. -/
def unseenMasks (gs : List TGSpec) : List BStr :=
  gs.filterMap fun g =>
    match g with
    | .unseen m _ => some m
    | _ => none

@[simp]
theorem unseenMasks_nil : unseenMasks [] = [] := rfl

@[simp]
theorem unseenMasks_cons_seen (ts : List BStr) (p : ℚ) (gs : List TGSpec) :
    unseenMasks (TGSpec.seen ts p :: gs) = unseenMasks gs := by
  simp [unseenMasks, List.filterMap_cons]

@[simp]
theorem unseenMasks_cons_unseen (m : BStr) (p : ℚ) (gs : List TGSpec) :
    unseenMasks (TGSpec.unseen m p :: gs) = m :: unseenMasks gs := by
  simp [unseenMasks, List.filterMap_cons]

/-- The `source_ids` fields of the lines of the descriptor section at
which `IsEndOfTerminalGroup` holds (no next line, or next probability
differs): these are the lines that create unseen groups. -/
def groupEndMasks : List TFLine → List BStr
  | [] => []
  | .blank :: rest => groupEndMasks rest
  | .data _ p s :: rest =>
    (if isEndOfTerminalGroup p rest then [s] else []) ++ groupEndMasks rest

/-- Once in the unseen section (`inSeen = false`), the accumulated
seen-group lines are never read. -/
theorem itgLoop_false_acc (ds : List TFLine) :
    ∀ acc1 acc2, itgLoop ds false acc1 = itgLoop ds false acc2 := by
  induction ds with
  | nil => intro _ _; rfl
  | cons l rest ih =>
    intro acc1 acc2
    cases l with
    | blank => simpa [itgLoop] using ih acc1 acc2
    | data t p sids =>
      by_cases hend : isEndOfTerminalGroup p rest <;>
        simp [itgLoop, hend, ih (acc1 ++ [t]) (acc2 ++ [t])]

/-- In the unseen section, the loop creates exactly one unseen group
per group-ending line, with that line's `source_ids` as the mask. -/
theorem unseenMasks_itgLoop_false (ds : List TFLine) :
    ∀ acc, unseenMasks (itgLoop ds false acc) = groupEndMasks ds := by
  induction ds with
  | nil => intro _; rfl
  | cons l rest ih =>
    intro acc
    cases l with
    | blank => simpa [itgLoop, groupEndMasks] using ih acc
    | data t p sids =>
      by_cases hend : isEndOfTerminalGroup p rest <;>
        simp [itgLoop, groupEndMasks, hend, ih]

/-- Walking the seen section (before the blank line) emits only seen
groups, so the unseen groups come entirely from the descriptor
section. -/
theorem unseenMasks_itgLoop_seen (sl : List TFLine) (hs : TFLine.blank ∉ sl)
    (ds : List TFLine) :
    ∀ acc, unseenMasks (itgLoop (sl ++ TFLine.blank :: ds) true acc) =
      unseenMasks (itgLoop ds false []) := by
  induction sl with
  | nil =>
    intro acc
    simp only [List.nil_append, itgLoop]
    rw [itgLoop_false_acc ds acc []]
  | cons l rest ih =>
    intro acc
    have hl : l ≠ TFLine.blank := fun h => hs (h ▸ List.mem_cons_self _ _)
    have hrest : TFLine.blank ∉ rest := fun h => hs (List.mem_cons_of_mem _ h)
    cases l with
    | blank => exact absurd rfl hl
    | data t p sids =>
      by_cases hend : isEndOfTerminalGroup p (rest ++ TFLine.blank :: ds) <;>
        simp [itgLoop, hend, ih hrest]

/-- Claim C4, counterexample.  A terminals file with one seen line, the
blank separator, and two descriptor lines that share a probability
creates a single unseen group (masked by the second line's
`source_ids`), not one per descriptor line: group boundaries are
probability changes even after the blank line. -/
theorem claim_C4_counterexample :
    initializeTerminalGroups
        [TFLine.data [97] (1/2) [115], TFLine.blank,
         TFLine.data [117] (1/4) [76, 76], TFLine.data [118] (1/4) [68, 68]] =
      [TGSpec.seen [[97]] (1/2), TGSpec.unseen [68, 68] (1/4)] ∧
    (unseenMasks (initializeTerminalGroups
        [TFLine.data [97] (1/2) [115], TFLine.blank,
         TFLine.data [117] (1/4) [76, 76], TFLine.data [118] (1/4) [68, 68]])).length
      = 1 := by
  have h : initializeTerminalGroups
      [TFLine.data [97] (1/2) [115], TFLine.blank,
       TFLine.data [117] (1/4) [76, 76], TFLine.data [118] (1/4) [68, 68]] =
      [TGSpec.seen [[97]] (1/2), TGSpec.unseen [68, 68] (1/4)] := by
    simp only [initializeTerminalGroups, itgLoop, isEndOfTerminalGroup]
    norm_num
  refine ⟨h, ?_⟩
  rw [h]
  rfl

/-- Claim C4 (amended: group boundaries in the descriptor section are
probability changes, exactly as in the seen section).  For a terminals
file `seen ++ blank ++ descriptors` with no other blank lines, exactly
one unseen terminal group is created per descriptor line at which a
group ends (last line, or the following descriptor line has a
different probability), using that line's `source_ids` field as the
generator mask.  In particular, when adjacent descriptor lines all
carry distinct probabilities, a file with n descriptor lines after the
blank line yields n unseen groups, one per descriptor line. -/
theorem claim_C4 (sl ds : List TFLine) (hs : TFLine.blank ∉ sl)
    (hd : TFLine.blank ∉ ds) :
    unseenMasks (initializeTerminalGroups (sl ++ TFLine.blank :: ds)) =
        groupEndMasks ds ∧
      (List.Chain' (fun l1 l2 => l1.probability ≠ l2.probability) ds →
        unseenMasks (initializeTerminalGroups (sl ++ TFLine.blank :: ds)) =
          ds.map TFLine.sourceIds) := by
  have hmain : unseenMasks (initializeTerminalGroups (sl ++ TFLine.blank :: ds)) =
      groupEndMasks ds := by
    rw [initializeTerminalGroups, unseenMasks_itgLoop_seen sl hs ds,
      unseenMasks_itgLoop_false]
  refine ⟨hmain, fun hchain => ?_⟩
  rw [hmain]
  clear hmain
  induction ds with
  | nil => rfl
  | cons l rest ih =>
    have hl : l ≠ TFLine.blank := fun h => hd (h ▸ List.mem_cons_self _ _)
    have hrest : TFLine.blank ∉ rest := fun h => hd (List.mem_cons_of_mem _ h)
    cases l with
    | blank => exact absurd rfl hl
    | data t p sids =>
      have hend : isEndOfTerminalGroup p rest = true := by
        cases rest with
        | nil => rfl
        | cons l2 r2 =>
          cases l2 with
          | blank => exact absurd (List.mem_cons_self _ _) hrest
          | data t2 p2 s2 =>
            have := List.Chain'.rel_head hchain
            simp only [TFLine.probability] at this
            simp [isEndOfTerminalGroup, this]
      simp [groupEndMasks, hend, TFLine.sourceIds,
        ih hrest (List.Chain'.tail hchain)]

/-- Witness for claim C4: one seen line, then two descriptor lines
with distinct probabilities yield two unseen groups with the
descriptor lines' `source_ids` as masks. -/
theorem claim_C4_witness :
    unseenMasks (initializeTerminalGroups
        [TFLine.data [97] (1/2) [115], TFLine.blank,
         TFLine.data [117] (1/4) [76, 76], TFLine.data [118] (1/8) [68, 68]]) =
      [[76, 76], [68, 68]] := by
  have h := claim_C4 [TFLine.data [97] (1/2) [115]]
    [TFLine.data [117] (1/4) [76, 76], TFLine.data [118] (1/8) [68, 68]]
    (by simp) (by simp)
  have hchain : List.Chain' (fun l1 l2 => l1.probability ≠ l2.probability)
      [TFLine.data [117] (1/4) [76, 76], TFLine.data [118] (1/8) [68, 68]] := by
    refine List.chain'_cons.mpr ⟨?_, List.chain'_singleton _⟩
    simp only [TFLine.probability]
    norm_num
  exact (h.2 hchain).trans (by rfl)

/-! ### Lookup-table client (lookup_tools.cpp `lookuptools::TableLookup`)

The lookup table is modelled as its list of parsed data lines
`probability<TAB>guessNumber<TAB>patternIdentifier`, in file order and
without the final `T`otal-count line; running off the end of the list
models reaching the total line (the `'T'` peek guard). -/

/-- One data line of a lookup table.  The guess number is kept as the
raw string the file carries, because the code parses it with
`mpz_set_str` only on a match. -/
structure TableLine where
  prob : ℚ
  guessNumber : BStr
  pattern : BStr
deriving DecidableEq, Repr

/-- One decimal digit byte. -/
def decDigit (d : ℕ) : Option ℕ :=
  if 48 ≤ d ∧ d ≤ 57 then some (d - 48) else none

/-- Accumulating base-10 parse. -/
def parseDecCore : BStr → ℕ → Option ℕ
  | [], acc => some acc
  | d :: rest, acc =>
    match decDigit d with
    | none => none
    | some v => parseDecCore rest (10 * acc + v)

/-- `mpz_set_str(…, s, 10)` on a non-negative decimal string: `none`
models the failure return (value undefined) on a string that is not a
base-10 number. -/
def parseDec : BStr → Option ℤ
  | [] => none
  | d :: rest => (parseDecCore (d :: rest) 0).map fun n => (n : ℤ)

/-- The linear-scan loop of `lookuptools::TableLookup`, entered with
the file positioned on the first line whose probability equals the
key.  Each iteration reads a line and tests the pattern key against
its pattern field; the loop leaves when the just-read probability
differs from the key or the total line is reached (`[]`).  On a match
it returns the matched line together with the following line, if that
is a data line. -/
def tableLookupScan (key : ℚ) (pk : BStr) :
    List TableLine → Option (TableLine × Option TableLine)
  | [] => none
  | l :: rest =>
    if pk = l.pattern then some (l, rest.head?)
    else if l.prob = key then tableLookupScan key pk rest
    else none

/-- Result of a table lookup: the parse status, the matched line's
guess number (`lookup_data->index`) and the following line's guess
number (`lookup_data->next_index`).  Both are initialized to -1; a
`none` models an `mpz_set_str` failure leaving the value undefined. -/
structure TableLookupResult where
  parse_status : ℕ
  index : Option ℤ
  next_index : Option ℤ
deriving DecidableEq, Repr

/-- `lookuptools::TableLookup`.  `FindLastProbability` yields the
probability of the last data line; `BinarySearchLookupTable` (an
external collaborator specified at its interface) positions the file
at the first line whose probability equals the key, and fails when no
line matches.  The scan then runs from that position.

On a pattern match the code executes
`mpz_set_str(lookup_data->next_index, next_pattern.c_str(), 10)`:
it parses the *pattern identifier* field of the following line, not
its guess-number field (`next_guess_number`, which it read and then
ignores). -/
def TableLookup (table : List TableLine) (probability : ℚ) (pk : BStr) :
    TableLookupResult :=
  let lowest := (table.getLast?).elim 0 (fun l => l.prob)
  if probability < lowest then ⟨kBeyondCutoff, some (-1), some (-1)⟩
  else
    match table.dropWhile (fun l => decide (l.prob ≠ probability)) with
    | [] => ⟨kUnexpectedFailure, some (-1), some (-1)⟩
    | l :: rest =>
      match tableLookupScan probability pk (l :: rest) with
      | none => ⟨kUnexpectedFailure, some (-1), some (-1)⟩
      | some (m, onext) =>
        ⟨kCanParse, parseDec m.guessNumber,
          match onext with
          | none => some (-1)
          | some nl => parseDec nl.pattern⟩

/-- Claim C9: the scan locates the pattern key among the
matching-probability lines and returns the matched line's guess number
as `index`, but `next_index` is set by parsing the *following line's
pattern-identifier field* instead of its guess-number field
(`lookup_tools.cpp` line 455 passes `next_pattern` instead of
`next_guess_number` to `mpz_set_str`), so the claimed "following
line's guess number" is not returned.  On the table
`(1/2, "5", "aa"), (1/2, "7", "bb"), (1/4, "9", "cc")` and key
`(1/2, "aa")`, the following line's guess number is 7, but the result
carries `parseDec "bb"` (a failed parse), not 7. -/
theorem claim_C9 :
    TableLookup
        [⟨1/2, [53], [97, 97]⟩, ⟨1/2, [55], [98, 98]⟩, ⟨1/4, [57], [99, 99]⟩]
        (1/2) [97, 97] =
      ⟨kCanParse, some 5, parseDec [98, 98]⟩ ∧
    parseDec [55] = some 7 ∧
    parseDec [98, 98] = none ∧
    (TableLookup
        [⟨1/2, [53], [97, 97]⟩, ⟨1/2, [55], [98, 98]⟩, ⟨1/4, [57], [99, 99]⟩]
        (1/2) [97, 97]).next_index ≠ some 7 := by
  have h : TableLookup
      [⟨1/2, [53], [97, 97]⟩, ⟨1/2, [55], [98, 98]⟩, ⟨1/4, [57], [99, 99]⟩]
      (1/2) [97, 97] =
      ⟨kCanParse, some 5, parseDec [98, 98]⟩ := by
    simp only [TableLookup, List.getLast?, List.dropWhile, tableLookupScan,
      List.head?, Option.elim]
    norm_num [parseDec, parseDecCore, decDigit]
  refine ⟨h, by decide, by decide, ?_⟩
  rw [h]
  decide

/-! ### Unseen terminal groups (unseen_terminal_group.cpp)

The generator mask is a string over `{L, D, S}` (any other character
makes the constructor die, so the model uses an inductive type).  The
group also carries the nonterminal's output representation (uppercase
matching) and the parsed terminal fields of the seen section of its
nonterminal's file. -/

/-- A generator-mask character. -/
inductive MChar
  | L
  | D
  | S
deriving DecidableEq, Repr

/-- `UnseenTerminalGroup::kGeneratorSymbols`, as byte values. -/
def kGeneratorSymbols : BStr :=
  [96, 126, 33, 64, 35, 36, 37, 94, 38, 42, 40, 41, 45, 95, 61, 43,
   91, 123, 93, 125, 92, 124, 59, 58, 39, 34, 44, 60, 46, 62, 47, 63, 32]

/-- Number of characters a mask position produces
(`initTotalTerminals`). -/
def charBase : MChar → ℕ
  | .L => 26
  | .D => 10
  | .S => kGeneratorSymbols.length

/-- `l_char_to_int_`: lowercase letters to 0..25, -1 (`none`)
otherwise. -/
def lCharToInt (c : ℕ) : Option ℕ :=
  if 97 ≤ c ∧ c ≤ 122 then some (c - 97) else none

/-- `d_char_to_int_`: digits to 0..9. -/
def dCharToInt (c : ℕ) : Option ℕ :=
  if 48 ≤ c ∧ c ≤ 57 then some (c - 48) else none

/-- The table-filling loop for `s_char_to_int_`: the index of the
byte in `kGeneratorSymbols`. -/
def sIndexAux (c : ℕ) : BStr → ℕ → Option ℕ
  | [], _ => none
  | b :: rest, i => if b = c then some i else sIndexAux c rest (i + 1)

/-- `s_char_to_int_`. -/
def sCharToInt (c : ℕ) : Option ℕ := sIndexAux c kGeneratorSymbols 0

/-- Character-to-index table selected by the mask character. -/
def charToInt : MChar → ℕ → Option ℕ
  | .L, c => lCharToInt c
  | .D, c => dCharToInt c
  | .S, c => sCharToInt c

/-- `l_int_to_char_` (0 outside the filled range, as in the C table). -/
def lIntToChar (v : ℕ) : ℕ := if v < 26 then 97 + v else 0

/-- `d_int_to_char_`. -/
def dIntToChar (v : ℕ) : ℕ := if v < 10 then 48 + v else 0

/-- Index-to-character table selected by the mask character
(`kGeneratorSymbols[character_value]` for `S`). -/
def intToChar : MChar → ℕ → ℕ
  | .L, v => lIntToChar v
  | .D, v => dIntToChar v
  | .S, v => kGeneratorSymbols.getD v 0

/-- `UnseenTerminalGroup::canGenerateTerminal`: same length as the
mask and every character in its position's table. -/
def canGenerateTerminal (mask : List MChar) (t : BStr) : Bool :=
  t.length = mask.length &&
    (mask.zip t).all fun p => (charToInt p.1 p.2).isSome

/-- One step of the `terminalIndex` loop:
`result = result * character_base + character_index`, failing
(`exit`) on a character outside the table. -/
def tiStep (r : ℕ) (p : MChar × ℕ) : Option ℕ :=
  (charToInt p.1 p.2).map fun v => r * charBase p.1 + v

/-- `UnseenTerminalGroup::terminalIndex` (without the optional
`region_end` short-circuit, which its callers here pass as NULL): the
loop runs from the last mask position down to position 0, so position
0 is the least significant digit. -/
def terminalIndex (mask : List MChar) (t : BStr) : Option ℕ :=
  ((mask.zip t).reverse).foldlM tiStep 0

/-- `terminalIndex` with the junk value 0 on the process-exit path;
used only on mask-generatable strings, where the index exists. -/
def terminalIndexD (mask : List MChar) (t : BStr) : ℕ :=
  (terminalIndex mask t).getD 0

/-- `matchOutRepresentation` (terminal_group.h): uppercase the
positions where the output representation carries `'U'` (85). -/
def matchOutRepresentation (outRep : BStr) (t : BStr) : BStr :=
  t.mapIdx fun i c =>
    if outRep.getD i 0 = 85 then (if 97 ≤ c ∧ c ≤ 122 then c - 32 else c) else c

/-- The character-building loop of
`UnseenTerminalGroup::generateTerminal`: position 0 takes
`index % base`, then the index is divided down — the loop direction
opposite to `terminalIndex`, making position 0 the least significant
digit on this side too. -/
def generateTerminalRaw : List MChar → ℕ → BStr
  | [], _ => []
  | mc :: rest, i => intToChar mc (i % charBase mc) :: generateTerminalRaw rest (i / charBase mc)

/-- The data of an `UnseenTerminalGroup`: generator mask, the
nonterminal's output representation, the parsed terminal fields of the
seen section of the nonterminal's terminals file, and the total
probability mass of the unseen bucket. -/
structure UnseenTerminalGroup where
  mask : List MChar
  outRep : BStr
  seenData : List BStr
  mass : ℚ
deriving DecidableEq, Repr

/-- `UnseenTerminalGroup::generateTerminal`, including the uppercase
matching applied when the output representation needs it
(`out_matching_needed_`). -/
def UnseenTerminalGroup.generateTerminal (g : UnseenTerminalGroup) (i : ℕ) : BStr :=
  let raw := generateTerminalRaw g.mask i
  if 85 ∈ g.outRep then matchOutRepresentation g.outRep raw else raw

/-- Total size of the mask's generation space
(`initTotalTerminals`). -/
def spaceSize (mask : List MChar) : ℕ := (mask.map charBase).prod

/-- `terminals_size_` of an unseen group: the space size minus the
seen terminals the mask can also generate
(`processSeenTerminals`). -/
def UnseenTerminalGroup.unseenCount (g : UnseenTerminalGroup) : ℕ :=
  spaceSize g.mask - g.seenData.countP fun s => canGenerateTerminal g.mask s

/-- Per-terminal probability of an unseen group:
`total_probability_mass_ / terminals_size_`. -/
def UnseenTerminalGroup.probability (g : UnseenTerminalGroup) : ℚ :=
  g.mass / (g.unseenCount : ℚ)

/-- Result of a terminal-group lookup (source-id sets are not
modelled; no claim mentions them). -/
structure LookupData where
  parse_status : ℕ
  probability : ℚ
  index : ℤ
deriving DecidableEq, Repr

/-- A `LookupData` on a path where the C++ process calls
`exit(EXIT_FAILURE)`. -/
def exitFailure : LookupData := ⟨kUnexpectedFailure, -1, -1⟩

/-- The seen-terminal scan of `UnseenTerminalGroup::lookup`: count the
mask-generatable seen terminals with strictly smaller index
(`lower_count`), report an exact index clash as a collision (the
unequal-string case there dies), and otherwise subtract. -/
def UnseenTerminalGroup.lookupScan (g : UnseenTerminalGroup) (t : BStr) (ti : ℕ) :
    List BStr → ℕ → LookupData
  | [], lower => ⟨kCanParse, g.probability, (ti : ℤ) - (lower : ℤ)⟩
  | s :: rest, lower =>
    if canGenerateTerminal g.mask s then
      match terminalIndex g.mask s with
      | none => exitFailure
      | some si =>
        if si < ti then g.lookupScan t ti rest (lower + 1)
        else if si = ti then
          if t ≠ s then exitFailure
          else ⟨kTerminalNotFound ||| kTerminalCollision, -1, -1⟩
        else g.lookupScan t ti rest lower
    else g.lookupScan t ti rest lower

/-- `UnseenTerminalGroup::lookup`. -/
def UnseenTerminalGroup.lookup (g : UnseenTerminalGroup) (t : BStr) : LookupData :=
  if canGenerateTerminal g.mask t then
    match terminalIndex g.mask t with
    | none => exitFailure
    | some ti => g.lookupScan t ti g.seenData 0
  else ⟨kTerminalNotFound ||| kTerminalCantBeGenerated, -1, -1⟩

/-- Unfolding of the `terminalIndex` loop at the first position: the
index of `c :: t` is `v + base * (index of t)` — position 0 is the
least significant digit. -/
theorem terminalIndex_cons (mc : MChar) (c : ℕ) (mask : List MChar) (t : BStr) :
    terminalIndex (mc :: mask) (c :: t) =
      (terminalIndex mask t).bind fun r =>
        (charToInt mc c).map fun v => r * charBase mc + v := by
  have h1 : terminalIndex (mc :: mask) (c :: t) =
      (terminalIndex mask t) >>= fun r => List.foldlM tiStep r [(mc, c)] := by
    unfold terminalIndex
    rw [List.zip_cons_cons, List.reverse_cons, List.foldlM_append]
  rw [h1]
  cases terminalIndex mask t with
  | none => rfl
  | some r =>
    simp only [Option.some_bind, List.foldlM, tiStep]
    cases charToInt mc c <;> rfl

/-- The table-filling loop finds the byte at the returned index. -/
theorem sIndexAux_some (c : ℕ) (l : BStr) :
    ∀ i v, sIndexAux c l i = some v →
      i ≤ v ∧ v - i < l.length ∧ l.getD (v - i) 0 = c := by
  induction l with
  | nil => intro i v h; simp [sIndexAux] at h
  | cons b rest ih =>
    intro i v h
    rw [sIndexAux] at h
    by_cases hb : b = c
    · rw [if_pos hb] at h
      obtain rfl : i = v := by simpa using h
      simpa using hb
    · rw [if_neg hb] at h
      obtain ⟨h1, h2, h3⟩ := ih (i + 1) v h
      refine ⟨by omega, by simp; omega, ?_⟩
      have hvi : v - i = (v - (i + 1)) + 1 := by omega
      rw [hvi]
      simpa using h3

/-- A table hit is always below the position's base. -/
theorem charToInt_lt (mc : MChar) (c v : ℕ) (h : charToInt mc c = some v) :
    v < charBase mc := by
  cases mc with
  | L =>
    simp only [charToInt, lCharToInt] at h
    split at h
    · rename_i hc
      obtain rfl : c - 97 = v := by simpa using h
      simp only [charBase]
      omega
    · simp at h
  | D =>
    simp only [charToInt, dCharToInt] at h
    split at h
    · rename_i hc
      obtain rfl : c - 48 = v := by simpa using h
      simp only [charBase]
      omega
    · simp at h
  | S =>
    simp only [charToInt, sCharToInt] at h
    have := sIndexAux_some c kGeneratorSymbols 0 v h
    simpa [charBase] using this.2.1

/-- The index-to-character table inverts the character-to-index
table. -/
theorem intToChar_charToInt (mc : MChar) (c v : ℕ) (h : charToInt mc c = some v) :
    intToChar mc v = c := by
  cases mc with
  | L =>
    simp only [charToInt, lCharToInt] at h
    split at h
    · rename_i hc
      obtain rfl : c - 97 = v := by simpa using h
      simp only [intToChar, lIntToChar]
      rw [if_pos (by omega)]
      omega
    · simp at h
  | D =>
    simp only [charToInt, dCharToInt] at h
    split at h
    · rename_i hc
      obtain rfl : c - 48 = v := by simpa using h
      simp only [intToChar, dIntToChar]
      rw [if_pos (by omega)]
      omega
    · simp at h
  | S =>
    simp only [charToInt, sCharToInt] at h
    have h2 := sIndexAux_some c kGeneratorSymbols 0 v h
    simpa [intToChar] using h2.2.2

/-- On a mask-generatable terminal the index computation succeeds and
lands inside the generation space. -/
theorem terminalIndex_of_canGenerate (mask : List MChar) :
    ∀ t : BStr, canGenerateTerminal mask t = true →
      ∃ n, terminalIndex mask t = some n ∧ n < spaceSize mask := by
  induction mask with
  | nil =>
    intro t h
    simp [canGenerateTerminal] at h
    subst h
    exact ⟨0, rfl, by simp [spaceSize]⟩
  | cons mc mask ih =>
    intro t h
    simp only [canGenerateTerminal, Bool.and_eq_true, decide_eq_true_eq,
      List.all_eq_true] at h
    obtain ⟨hlen, hall⟩ := h
    cases t with
    | nil => simp at hlen
    | cons c t2 =>
      have hhead : (charToInt mc c).isSome := hall (mc, c) (by simp [List.zip_cons_cons])
      obtain ⟨v, hv⟩ := Option.isSome_iff_exists.mp hhead
      have htail : canGenerateTerminal mask t2 = true := by
        simp only [canGenerateTerminal, Bool.and_eq_true, decide_eq_true_eq,
          List.all_eq_true]
        exact ⟨by simpa using hlen, fun p hp => hall p (by simp [List.zip_cons_cons, hp])⟩
      obtain ⟨r, hr, hrlt⟩ := ih t2 htail
      refine ⟨r * charBase mc + v, ?_, ?_⟩
      · rw [terminalIndex_cons, hr, hv]; rfl
      · have hvb := charToInt_lt mc c v hv
        have : r * charBase mc + v < (r + 1) * charBase mc := by
          rw [add_mul, one_mul]; omega
        calc r * charBase mc + v < (r + 1) * charBase mc := this
          _ ≤ spaceSize mask * charBase mc :=
            Nat.mul_le_mul_right _ (by omega)
          _ = spaceSize (mc :: mask) := by
            simp [spaceSize, Nat.mul_comm]

/-- Round trip on the raw (pre-uppercasing) characters:
`generateTerminal`'s digit-extraction loop inverts `terminalIndex`'s
digit-accumulation loop, both treating position 0 as the least
significant digit. -/
theorem generateTerminalRaw_terminalIndex (mask : List MChar) :
    ∀ (t : BStr) (n : ℕ), canGenerateTerminal mask t = true →
      terminalIndex mask t = some n → generateTerminalRaw mask n = t := by
  induction mask with
  | nil =>
    intro t n h _
    simp [canGenerateTerminal] at h
    subst h
    rfl
  | cons mc mask ih =>
    intro t n h hn
    simp only [canGenerateTerminal, Bool.and_eq_true, decide_eq_true_eq,
      List.all_eq_true] at h
    obtain ⟨hlen, hall⟩ := h
    cases t with
    | nil => simp at hlen
    | cons c t2 =>
      have hhead : (charToInt mc c).isSome := hall (mc, c) (by simp [List.zip_cons_cons])
      obtain ⟨v, hv⟩ := Option.isSome_iff_exists.mp hhead
      have htail : canGenerateTerminal mask t2 = true := by
        simp only [canGenerateTerminal, Bool.and_eq_true, decide_eq_true_eq,
          List.all_eq_true]
        exact ⟨by simpa using hlen, fun p hp => hall p (by simp [List.zip_cons_cons, hp])⟩
      rw [terminalIndex_cons] at hn
      obtain ⟨r, hr⟩ : ∃ r, terminalIndex mask t2 = some r := by
        cases hc : terminalIndex mask t2 with
        | none => rw [hc] at hn; simp at hn
        | some r => exact ⟨r, rfl⟩
      rw [hr, hv] at hn
      simp only [Option.bind, Option.map_some] at hn
      obtain rfl : r * charBase mc + v = n := by simpa using hn
      have hvb := charToInt_lt mc c v hv
      have hb : 0 < charBase mc := by cases mc <;> simp [charBase, kGeneratorSymbols]
      have hmod : (r * charBase mc + v) % charBase mc = v := by
        rw [Nat.mul_comm r (charBase mc), Nat.mul_add_mod]
        exact Nat.mod_eq_of_lt hvb
      have hdiv : (r * charBase mc + v) / charBase mc = r := by
        rw [Nat.mul_comm r, Nat.mul_add_div hb]
        simp [Nat.div_eq_of_lt hvb]
      rw [generateTerminalRaw, hmod, hdiv, intToChar_charToInt mc c v hv,
        ih t2 r htail hr]

/-- Indexes are injective on mask-generatable terminals: an equal
index means an equal string. -/
theorem terminalIndex_inj (mask : List MChar) (t1 t2 : BStr) (n : ℕ)
    (h1 : canGenerateTerminal mask t1 = true)
    (h2 : canGenerateTerminal mask t2 = true)
    (e1 : terminalIndex mask t1 = some n) (e2 : terminalIndex mask t2 = some n) :
    t1 = t2 := by
  rw [← generateTerminalRaw_terminalIndex mask t1 n h1 e1,
    ← generateTerminalRaw_terminalIndex mask t2 n h2 e2]

/-- Claim C5, counterexample.  For an unseen group whose output
representation carries a `'U'` (mask `L`, representation `U`), the
round trip fails: the group's own first member is `"A"`
(`generateTerminal 0 = "A"` after uppercase matching), but
`terminalIndex "A"` hits a -1 table entry (the process exits, `none`),
and for the generatable lowercase `"a"` the composition returns
`"A" ≠ "a"`. -/
theorem claim_C5_counterexample :
    UnseenTerminalGroup.generateTerminal ⟨[MChar.L], [85], [], 1⟩ 0 = [65] ∧
      terminalIndex [MChar.L] [65] = none ∧
      canGenerateTerminal [MChar.L] [97] = true ∧
      terminalIndex [MChar.L] [97] = some 0 ∧
      UnseenTerminalGroup.generateTerminal ⟨[MChar.L], [85], [], 1⟩ 0 ≠ [97] := by
  refine ⟨by decide, by decide, by decide, by decide, by decide⟩

/-- Claim C5 (amended: restricted to unseen groups whose output
representation contains no `'U'`, so no uppercase matching is applied
on output).  For every such group and every terminal t the generator
mask can produce, `generateTerminal (terminalIndex t) = t`; in
particular `terminalIndex` and `generateTerminal` agree that position
0 is the least significant digit of the lexicographic index (the two
loops run in opposite directions over the mask). -/
theorem claim_C5 (g : UnseenTerminalGroup) (hU : 85 ∉ g.outRep) (t : BStr)
    (h : canGenerateTerminal g.mask t = true) :
    ∃ n, terminalIndex g.mask t = some n ∧ g.generateTerminal n = t := by
  obtain ⟨n, hn, _⟩ := terminalIndex_of_canGenerate g.mask t h
  refine ⟨n, hn, ?_⟩
  unfold UnseenTerminalGroup.generateTerminal
  rw [if_neg hU]
  exact generateTerminalRaw_terminalIndex g.mask t n h hn

/-- Witness for claim C5: mask `LD`, representation `LD`, terminal
`"b5"`; its index is 131 = 1 + 26·5 and generation returns `"b5"`. -/
theorem claim_C5_witness :
    canGenerateTerminal [MChar.L, MChar.D] [98, 53] = true ∧
      ∃ n, terminalIndex [MChar.L, MChar.D] [98, 53] = some n ∧
        UnseenTerminalGroup.generateTerminal
          ⟨[MChar.L, MChar.D], [76, 68], [], 1⟩ n = [98, 53] :=
  ⟨by decide,
    claim_C5 ⟨[MChar.L, MChar.D], [76, 68], [], 1⟩ (by decide) [98, 53] (by decide)⟩

/-- The seen-terminal scan of `UnseenTerminalGroup::lookup` on a list
not containing the looked-up terminal: `CanParse`, with the index
decreased by the number of mask-generatable entries of strictly
smaller index. -/
theorem lookupScan_not_mem (g : UnseenTerminalGroup) (t : BStr) (ti : ℕ)
    (hcan : canGenerateTerminal g.mask t = true)
    (hti : terminalIndex g.mask t = some ti) :
    ∀ (l : List BStr) (lower : ℕ), t ∉ l →
      g.lookupScan t ti l lower =
        ⟨kCanParse, g.probability,
          (ti : ℤ) - ((lower : ℤ) +
            (l.countP fun s => canGenerateTerminal g.mask s &&
              decide (terminalIndexD g.mask s < ti)))⟩ := by
  intro l
  induction l with
  | nil =>
    intro lower _
    simp [UnseenTerminalGroup.lookupScan]
  | cons s rest ih =>
    intro lower hmem
    have hs : t ≠ s := fun h => hmem (h ▸ List.mem_cons_self _ _)
    have hrest : t ∉ rest := fun h => hmem (List.mem_cons_of_mem _ h)
    rw [UnseenTerminalGroup.lookupScan]
    by_cases hcs : canGenerateTerminal g.mask s
    · obtain ⟨si, hsi, _⟩ := terminalIndex_of_canGenerate g.mask s hcs
      rw [if_pos hcs, hsi]
      dsimp only
      have hne : si ≠ ti := fun h =>
        hs (terminalIndex_inj g.mask t s ti hcan hcs hti (h ▸ hsi))
      have hD : terminalIndexD g.mask s = si := by
        simp [terminalIndexD, hsi]
      by_cases hlt : si < ti
      · rw [if_pos hlt, ih (lower + 1) hrest]
        simp only [List.countP_cons, hcs, hD, hlt]
        norm_num
        ring
      · rw [if_neg hlt, if_neg hne, ih lower hrest]
        simp only [List.countP_cons, hcs, hD, hlt]
        norm_num
    · rw [if_neg hcs, ih lower hrest]
      simp only [List.countP_cons, hcs]
      norm_num

/-- The seen-terminal scan on a list containing the looked-up terminal
reports the collision. -/
theorem lookupScan_mem (g : UnseenTerminalGroup) (t : BStr) (ti : ℕ)
    (hcan : canGenerateTerminal g.mask t = true)
    (hti : terminalIndex g.mask t = some ti) :
    ∀ (l : List BStr) (lower : ℕ), t ∈ l →
      g.lookupScan t ti l lower =
        ⟨kTerminalNotFound ||| kTerminalCollision, -1, -1⟩ := by
  intro l
  induction l with
  | nil => intro lower h; simp at h
  | cons s rest ih =>
    intro lower hmem
    rw [UnseenTerminalGroup.lookupScan]
    by_cases hts : t = s
    · subst hts
      rw [if_pos hcan, hti]
      dsimp only
      rw [if_neg (by omega), if_pos rfl, if_neg (by simp)]
    · have hrest : t ∈ rest := by
        cases List.mem_cons.mp hmem with
        | inl h => exact absurd h hts
        | inr h => exact h
      by_cases hcs : canGenerateTerminal g.mask s
      · obtain ⟨si, hsi, _⟩ := terminalIndex_of_canGenerate g.mask s hcs
        rw [if_pos hcs, hsi]
        dsimp only
        have hne : si ≠ ti := fun h =>
          hts (terminalIndex_inj g.mask t s ti hcan hcs hti (h ▸ hsi))
        by_cases hlt : si < ti
        · rw [if_pos hlt]; exact ih (lower + 1) hrest
        · rw [if_neg hlt, if_neg hne]; exact ih lower hrest
      · rw [if_neg hcs]; exact ih lower hrest

/-- Claim C6: `UnseenTerminalGroup::lookup` returns
`TerminalNotFound|TerminalCantBeGenerated` when the mask cannot
produce t; `TerminalNotFound|TerminalCollision` when t coincides with
a (necessarily mask-generatable) seen terminal; and otherwise
`CanParse` with index = t's lexicographic index minus the number of
mask-generatable seen terminals of strictly smaller index. -/
theorem claim_C6 (g : UnseenTerminalGroup) (t : BStr) :
    (canGenerateTerminal g.mask t = false →
      g.lookup t = ⟨kTerminalNotFound ||| kTerminalCantBeGenerated, -1, -1⟩) ∧
    (canGenerateTerminal g.mask t = true → t ∈ g.seenData →
      g.lookup t = ⟨kTerminalNotFound ||| kTerminalCollision, -1, -1⟩) ∧
    (canGenerateTerminal g.mask t = true → t ∉ g.seenData →
      g.lookup t = ⟨kCanParse, g.probability,
        (terminalIndexD g.mask t : ℤ) -
          (g.seenData.countP fun s => canGenerateTerminal g.mask s &&
            decide (terminalIndexD g.mask s < terminalIndexD g.mask t))⟩) := by
  refine ⟨fun hf => ?_, fun hc hmem => ?_, fun hc hmem => ?_⟩
  · rw [UnseenTerminalGroup.lookup, if_neg (by simp [hf])]
  · obtain ⟨ti, hti, _⟩ := terminalIndex_of_canGenerate g.mask t hc
    rw [UnseenTerminalGroup.lookup, if_pos hc, hti]
    exact lookupScan_mem g t ti hc hti g.seenData 0 hmem
  · obtain ⟨ti, hti, _⟩ := terminalIndex_of_canGenerate g.mask t hc
    have hD : terminalIndexD g.mask t = ti := by simp [terminalIndexD, hti]
    rw [UnseenTerminalGroup.lookup, if_pos hc, hti]
    dsimp only
    rw [lookupScan_not_mem g t ti hc hti g.seenData 0 hmem, hD]
    norm_num

/-- Witness for claim C6 on mask `L` with seen terminals
`{"b", "d"}`: `"c"` parses at index 1 (lexicographic index 2 minus the
one smaller seen terminal `"b"`), `"b"` collides, `"A"` cannot be
generated. -/
theorem claim_C6_witness :
    UnseenTerminalGroup.lookup ⟨[MChar.L], [76], [[98], [100]], 1⟩ [99] =
        ⟨kCanParse,
          UnseenTerminalGroup.probability ⟨[MChar.L], [76], [[98], [100]], 1⟩, 1⟩ ∧
      UnseenTerminalGroup.lookup ⟨[MChar.L], [76], [[98], [100]], 1⟩ [98] =
        ⟨kTerminalNotFound ||| kTerminalCollision, -1, -1⟩ ∧
      UnseenTerminalGroup.lookup ⟨[MChar.L], [76], [[98], [100]], 1⟩ [65] =
        ⟨kTerminalNotFound ||| kTerminalCantBeGenerated, -1, -1⟩ := by
  refine ⟨?_, ?_, ?_⟩
  · have h := (claim_C6 ⟨[MChar.L], [76], [[98], [100]], 1⟩ [99]).2.2
      (by decide) (by decide)
    rw [h]
    congr 1
  · exact (claim_C6 ⟨[MChar.L], [76], [[98], [100]], 1⟩ [98]).2.1
      (by decide) (by decide)
  · exact (claim_C6 ⟨[MChar.L], [76], [[98], [100]], 1⟩ [65]).1 (by decide)

/-! ### Nonterminals (nonterminal.cpp, seen_terminal_group.cpp)

A nonterminal owns its ordered list of terminal groups.  A seen group
is the list of (downcased) terminals of its file slice together with
the shared group probability; an unseen group is as above. -/

/-- A terminal group of a nonterminal. -/
inductive TGroup
  | seen (terminals : List BStr) (probability : ℚ)
  | unseen (g : UnseenTerminalGroup)
deriving DecidableEq, Repr

/-- `TerminalGroup::countStrings` (`terminals_size_`). -/
def TGroup.countStrings : TGroup → ℕ
  | .seen ts _ => ts.length
  | .unseen g => g.unseenCount

/-- `TerminalGroup::getProbability`. -/
def TGroup.probability : TGroup → ℚ
  | .seen _ p => p
  | .unseen g => g.probability

/-- The linear scan of `SeenTerminalGroup::lookup`: index of the first
line whose terminal equals the input. -/
def seenScan (t : BStr) : List BStr → ℕ → Option ℕ
  | [], _ => none
  | s :: rest, i => if s = t then some i else seenScan t rest (i + 1)

/-- `TerminalGroup::lookup` for both variants
(`SeenTerminalGroup::lookup` is the linear scan; the per-line
probability always equals the group probability in this model, so its
mismatch-exit path does not arise). -/
def TGroup.lookup : TGroup → BStr → LookupData
  | .seen ts p, t =>
    match seenScan t ts 0 with
    | some i => ⟨kCanParse, p, (i : ℤ)⟩
    | none => ⟨kTerminalNotFound, -1, -1⟩
  | .unseen g, t => g.lookup t

/-- The first free index of an unseen group: the smallest index in the
generation space not taken by a mask-generatable seen terminal (the
result of the region sweep in `processSeenTerminals`; junk 0 when the
space is exhausted, where the constructor dies). -/
def UnseenTerminalGroup.firstFreeIndex (g : UnseenTerminalGroup) : ℕ :=
  (((List.range (spaceSize g.mask)).filter fun i =>
    !(g.seenData.any fun s => canGenerateTerminal g.mask s &&
      decide (terminalIndexD g.mask s = i))).headD 0)

/-- `UnseenTerminalGroup::getFirstString`: the terminal generated at
the first free index (uppercase matching included, as in
`processSeenTerminals`). -/
def UnseenTerminalGroup.firstString (g : UnseenTerminalGroup) : BStr :=
  g.generateTerminal g.firstFreeIndex

/-- A nonterminal: its representation and its ordered terminal
groups. -/
structure Nonterminal where
  representation : BStr
  groups : List TGroup
deriving DecidableEq, Repr

/-- `Nonterminal::countTerminalGroups`. -/
def Nonterminal.countTerminalGroups (nt : Nonterminal) : ℕ := nt.groups.length

/-- `Nonterminal::countStringsOfGroup` (out-of-range dies; junk
group). -/
def Nonterminal.countStringsOfGroup (nt : Nonterminal) (i : ℕ) : ℕ :=
  (nt.groups.getD i (TGroup.seen [] 0)).countStrings

/-- `Nonterminal::getProbabilityOfGroup`. -/
def Nonterminal.getProbabilityOfGroup (nt : Nonterminal) (i : ℕ) : ℚ :=
  (nt.groups.getD i (TGroup.seen [] 0)).probability

/-- `Nonterminal::countStrings`: sum over the groups. -/
def Nonterminal.countStrings (nt : Nonterminal) : ℕ :=
  (nt.groups.map TGroup.countStrings).sum

/-- `SeenTerminalGroup::getFirstString` / `Nonterminal::
getFirstStringOfGroup`: the group's first terminal with uppercase
matching against the nonterminal's representation. -/
def Nonterminal.getFirstStringOfGroup (nt : Nonterminal) (i : ℕ) : BStr :=
  match nt.groups.getD i (TGroup.seen [] 0) with
  | .seen ts _ =>
    if 85 ∈ nt.representation then
      matchOutRepresentation nt.representation (ts.headD [])
    else ts.headD []
  | .unseen g => g.firstString

/-- The USLD classification of one input byte
(`Nonterminal::lookup`): `none` models the `return NULL` on the 0x01
structure-break byte. -/
def usldByte (c : ℕ) : Option ℕ :=
  if 97 ≤ c ∧ c ≤ 122 then some 76
  else if 65 ≤ c ∧ c ≤ 90 then some 85
  else if 48 ≤ c ∧ c ≤ 57 then some 68
  else if c = 1 then none
  else some 83

/-- The classification loop over the input string: `NULL` (`none`)
as soon as a 0x01 byte is hit. -/
def usldString : BStr → Option BStr
  | [] => some []
  | c :: rest => (usldByte c).bind fun r => (usldString rest).map fun rs => r :: rs

/-- ASCII `tolower`. -/
def toLowerByte (c : ℕ) : ℕ := if 65 ≤ c ∧ c ≤ 90 then c + 32 else c

/-- Result of `Nonterminal::lookup`
(`TerminalLookupData`; `terminal_group_index` is uninitialized on the
failure paths, modelled as 0). -/
structure TerminalLookupData where
  parse_status : ℕ
  probability : ℚ
  index : ℤ
  terminal_group_index : ℕ
deriving DecidableEq, Repr

/-- The group scan of `Nonterminal::lookup`: the first group whose
lookup can parse wins, and contributes its index within the group
list. -/
def ntGroupScan (dt : BStr) : List TGroup → ℕ → TerminalLookupData
  | [], _ => ⟨kTerminalNotFound ||| kTerminalCantBeGenerated, -1, -1, 0⟩
  | gr :: rest, i =>
    let ld := gr.lookup dt
    if ld.parse_status &&& kCanParse ≠ 0 then
      ⟨kCanParse, ld.probability, ld.index, i⟩
    else ntGroupScan dt rest (i + 1)

/-- `Nonterminal::lookup`: classify the input bytes (`NULL` on a 0x01
byte), then require an exact representation match, then scan the
groups with the downcased input. -/
def Nonterminal.lookup (nt : Nonterminal) (t : BStr) : Option TerminalLookupData :=
  match usldString t with
  | none => none
  | some rep =>
    if rep ≠ nt.representation then some ⟨kTerminalNotFound, -1, -1, 0⟩
    else some (ntGroupScan (t.map toLowerByte) nt.groups 0)

/-! ### PatternManager (pattern_manager.cpp)

The pattern state is the digit list of the mixed-radix pattern counter
(MSB-first, aligned with the nonterminal sequence).  Group ids are
assigned to the representation's nonterminal symbols in first-seen
order starting from 1 (`InitGroupIDsAndCounts`). -/

/-- Lookup in the seen-nonterminals map of `InitGroupIDsAndCounts`. -/
def amLookup (t : BStr) : List (BStr × ℕ) → Option ℕ
  | [] => none
  | (s, g) :: rest => if s = t then some g else amLookup t rest

/-- The group-id assignment loop of `InitGroupIDsAndCounts`. -/
def assignGidsAux : List BStr → List (BStr × ℕ) → ℕ → List ℕ
  | [], _, _ => []
  | t :: ts, seenMap, next =>
    match amLookup t seenMap with
    | some g => g :: assignGidsAux ts seenMap next
    | none => next :: assignGidsAux ts ((t, next) :: seenMap) (next + 1)

/-- Group ids of a token list (the representation split at the break
character). -/
def assignGids (toks : List BStr) : List ℕ := assignGidsAux toks [] 1

/-- `has_repeats_`. -/
def hasRepeats (gids : List ℕ) : Bool := gids.any fun g => 1 < gids.count g

/-- The digits of one group id, in position order (the pattern digits
seen by the loops that skip other group ids). -/
def wordOf (g : ℕ) (gids digits : List ℕ) : List ℕ :=
  (gids.zip digits).filterMap fun p => if p.1 = g then some p.2 else none

/-- The repeated group ids in ascending order (iteration order of the
`std::map` returned by `getCountsWithinRepeatingGroups`). -/
def repeatedGids (gids : List ℕ) : List ℕ :=
  List.insertionSort (· ≤ ·) (gids.dedup.filter fun g => 1 < gids.count g)

/-- `getPermutationsOfGroup`: multiset permutation count
`n! / m₁!…mₜ!` of a digit multiset. -/
def numPerms (s : Multiset ℕ) : ℕ :=
  Nat.factorial (Multiset.card s) / ∏ d in s.toFinset, Nat.factorial (s.count d)

/-- `PatternManager::countPermutations`: the product over repeated
groups of their multiset permutation counts. -/
def countPermutations (gids digits : List ℕ) : ℕ :=
  if ¬ hasRepeats gids then 1
  else ((repeatedGids gids).map fun g => numPerms (wordOf g gids digits : Multiset ℕ)).prod

/-- The per-group loop of `getPermutationRank` ("the magic formula").
The counts map (`it->second`, digits to remaining multiplicities) is
carried as the multiset `s` of remaining digits; `curSize` is
`current_size` and `curPerms` is `current_perms`.  The loop leaves
early once `current_perms ≤ 1`. -/
def groupRankLoop : List ℕ → Multiset ℕ → ℕ → ℕ → ℕ → ℕ
  | [], _, _, rank, _ => rank
  | d :: rest, s, curPerms, rank, curSize =>
    if curPerms ≤ 1 then rank
    else
      groupRankLoop rest (s.erase d) (curPerms * s.count d / curSize)
        (rank + curPerms * (∑ e in s.toFinset.filter (· < d), s.count e) / curSize)
        (curSize - 1)

/-- Permutation rank of one repeated group's digit word. -/
def groupRank (w : List ℕ) : ℕ :=
  groupRankLoop w (↑w) (numPerms (↑w)) 0 w.length

/-- `PatternManager::getPermutationRank`: per-group ranks combined in
a mixed radix whose bases are the per-group permutation counts,
iterating groups in ascending id order. -/
def permutationRank (gids digits : List ℕ) : ℕ :=
  if ¬ hasRepeats gids then 0
  else
    (repeatedGids gids).foldl
      (fun acc g =>
        acc * numPerms (wordOf g gids digits : Multiset ℕ) + groupRank (wordOf g gids digits))
      0

/-- The scan of `checkFirstPermutation`: walk the positions, and for
each repeated group id compare the digit with the last digit seen for
that id (`group_digits`, carried as a map). -/
def checkFPAux (gids : List ℕ) : List (ℕ × ℕ) → (ℕ → Option ℕ) → Bool
  | [], _ => true
  | (g, d) :: rest, lastMap =>
    if 1 < gids.count g then
      match lastMap g with
      | some prev =>
        if d < prev then false
        else checkFPAux gids rest fun x => if x = g then some d else lastMap x
      | none => checkFPAux gids rest fun x => if x = g then some d else lastMap x
    else checkFPAux gids rest lastMap

/-- `PatternManager::checkFirstPermutation` on a digit list. -/
def checkFirstPermutation (gids digits : List ℕ) : Bool :=
  checkFPAux gids (gids.zip digits) fun _ => none

/-- `PatternManager::isFirstPermutation`. -/
def isFirstPermutation (gids digits : List ℕ) : Bool :=
  if ¬ hasRepeats gids then true else checkFirstPermutation gids digits

/-- The second pass of `canonicalizePattern`: refill the positions
left-to-right, each position taking the next (smallest remaining)
value of its group id's sorted digits. -/
def placeWords : List ℕ → (ℕ → List ℕ) → List ℕ
  | [], _ => []
  | g :: gs, f =>
    (f g).headD 0 :: placeWords gs fun x => if x = g then (f g).tail else f x

/-- `PatternManager::canonicalizePattern`: identity on a first
permutation; otherwise sort each group id's digits ascending (the
min-heaps) and refill the positions. -/
def canonicalizePattern (gids digits : List ℕ) : List ℕ :=
  if isFirstPermutation gids digits then digits
  else placeWords gids fun g => List.insertionSort (· ≤ ·) (wordOf g gids digits)

/-- The pattern-manager state for a structure: the nonterminal
sequence, the structure's base probability, and the group ids of the
nonterminal symbols. -/
structure PatternManager where
  nonterminals : List Nonterminal
  base_probability : ℚ
  group_ids : List ℕ
deriving Repr

/-- `PatternManager::getPatternProbability` at a digit list: base
probability times the product of the selected groups'
probabilities. -/
def PatternManager.patternProbability (pm : PatternManager) (digits : List ℕ) : ℚ :=
  pm.base_probability *
    ((pm.nonterminals.zip digits).map fun p => p.1.getProbabilityOfGroup p.2).prod

/-- `PatternManager::countStrings` at a digit list: the product of the
selected groups' string counts. -/
def PatternManager.countStrings (pm : PatternManager) (digits : List ℕ) : ℕ :=
  ((pm.nonterminals.zip digits).map fun p => p.1.countStringsOfGroup p.2).prod

/-- `PatternManager::getFirstStringOfPattern` at a digit list: the
selected groups' first strings joined by the 0x01 break byte. -/
def PatternManager.firstStringOfPattern (pm : PatternManager) (digits : List ℕ) : BStr :=
  List.intercalate [1]
    ((pm.nonterminals.zip digits).map fun p => p.1.getFirstStringOfGroup p.2)

/-- `PatternManager::getCanonicalizedPatternProbability`. -/
def PatternManager.canonicalizedPatternProbability (pm : PatternManager)
    (digits : List ℕ) : ℚ :=
  pm.patternProbability (canonicalizePattern pm.group_ids digits)

/-- `PatternManager::getCanonicalizedFirstStringOfPattern`. -/
def PatternManager.canonicalizedFirstStringOfPattern (pm : PatternManager)
    (digits : List ℕ) : BStr :=
  pm.firstStringOfPattern (canonicalizePattern pm.group_ids digits)

/-- The gathering loop of step 1 of `lookupAndSetPattern`: one
`Nonterminal::lookup` per position, a `NULL` anywhere poisoning the
whole (the loop dereferences every result). -/
def gatherLookups (f : Nonterminal × BStr → Option TerminalLookupData) :
    List (Nonterminal × BStr) → Option (List TerminalLookupData)
  | [] => some []
  | p :: rest => (f p).bind fun ld => (gatherLookups f rest).map fun tls => ld :: tls

/-- Result of `PatternManager::lookupAndSetPattern` (source-id sets
are not modelled). -/
structure PMLookupData where
  parse_status : ℕ
  probability : ℚ
  index : ℤ
  first_string_of_pattern : BStr
deriving DecidableEq, Repr

/-- `PatternManager::lookupAndSetPattern`.  Step 1 gathers the
per-position nonterminal lookups (dereferenced unconditionally, so a
`NULL` from `Nonterminal::lookup` propagates as `none` — see claim
C10).  Step 2 surfaces the first non-parseable status.  Step 3 sets
the pattern counter from the `terminal_group_index` fields
(`setPlace` failure is `kUnexpectedFailure`).  Steps 4-7 compute
`rank_in_pattern` as a mixed-radix number over the per-position group
string counts (position 0 most significant), `strings_in_pattern`,
`permutation_rank`, and the final index
`permutation_rank * strings_in_pattern + rank_in_pattern`.  Step 8
fills the canonicalized probability and first string. -/
def PatternManager.lookupAndSetPattern (pm : PatternManager) (terminals : List BStr) :
    Option PMLookupData :=
  match gatherLookups (fun p => p.1.lookup p.2) (pm.nonterminals.zip terminals) with
  | none => none
  | some tls =>
    match tls.find? (fun ld => ld.parse_status &&& kCanParse = 0) with
    | some bad => some ⟨bad.parse_status, -1, -1, []⟩
    | none =>
      if (pm.nonterminals.zip tls).all
          (fun p => p.2.terminal_group_index < p.1.countTerminalGroups) then
        let digits := tls.map fun ld => ld.terminal_group_index
        let rank_in_pattern : ℤ :=
          (pm.nonterminals.zip tls).foldl
            (fun r p =>
              r * (p.1.countStringsOfGroup p.2.terminal_group_index : ℤ) + p.2.index) 0
        some ⟨kCanParse, pm.canonicalizedPatternProbability digits,
          (permutationRank pm.group_ids digits : ℤ) * (pm.countStrings digits : ℤ) +
            rank_in_pattern,
          pm.canonicalizedFirstStringOfPattern digits⟩
      else some ⟨kUnexpectedFailure, -1, -1, []⟩

/-! ### Structure (structure.cpp) -/

/-- A structure: representation, base probability, source ids and its
nonterminal sequence.  Positions with the same nonterminal symbol
reference the same `Nonterminal` (the collection's dedup cache), so
each nonterminal's representation is its token of the structure
representation. -/
structure StructureM where
  probability : ℚ
  source_ids : BStr
  nonterminals : List Nonterminal
deriving Repr

/-- The structure's pattern manager: `PatternManager::Init` ties the
nonterminal sequence to group ids assigned over the representation's
tokens — which are the nonterminals' representations. -/
def StructureM.patternManager (S : StructureM) : PatternManager :=
  ⟨S.nonterminals, S.probability,
    assignGids (S.nonterminals.map fun nt => nt.representation)⟩

/-- `Structure::countStrings`: the product over the nonterminals of
their total string counts. -/
def StructureM.countStrings (S : StructureM) : ℕ :=
  (S.nonterminals.map Nonterminal.countStrings).prod

/-- `grammartools::StripBreakCharacterFromTerminal`: drop every 0x01
byte. -/
def stripBreakCharacterFromTerminal (s : BStr) : BStr :=
  s.filter fun c => decide (c ≠ 1)

/-- `Structure::convertStringToStructureRepresentation` on one byte
(0x01 becomes the break character `'E'`). -/
def structRepByte (c : ℕ) : ℕ :=
  if 97 ≤ c ∧ c ≤ 122 then 76
  else if 65 ≤ c ∧ c ≤ 90 then 85
  else if 48 ≤ c ∧ c ≤ 57 then 68
  else if c = 1 then 69
  else 83

/-- `Structure::convertStringToStructureRepresentation`. -/
def convertStringToStructureRepresentation (s : BStr) : BStr :=
  s.map structRepByte

/-- The slicing loop of `Structure::lookup`: consume the input
representation nonterminal by nonterminal, extracting the matching
substring of the input for each; fail (`kStructureNotFound`) on a
class mismatch, on running out of input, or on leftover input. -/
def sliceLoop : List Nonterminal → BStr → BStr → Option (List BStr)
  | [], restRep, _ => if restRep = [] then some [] else none
  | nt :: rest, restRep, restInput =>
    if restRep.take nt.representation.length = nt.representation ∧
        nt.representation.length ≤ restRep.length then
      (sliceLoop rest (restRep.drop nt.representation.length)
        (restInput.drop nt.representation.length)).map
        fun slices => restInput.take nt.representation.length :: slices
    else none

/-- `Structure::lookup`: strip the break bytes, slice the input along
the nonterminals by character class, and delegate to
`PatternManager::lookupAndSetPattern`.  A `none` models the
dereference of a `NULL` terminal lookup (see claim C10). -/
def StructureM.lookup (S : StructureM) (inputstring : BStr) : Option PMLookupData :=
  let unbroken := stripBreakCharacterFromTerminal inputstring
  let rep := convertStringToStructureRepresentation unbroken
  match sliceLoop S.nonterminals rep unbroken with
  | none => some ⟨kStructureNotFound, -1, -1, []⟩
  | some terminals => S.patternManager.lookupAndSetPattern terminals

/-! ### Claims C10 and C1 -/

/-- A byte other than 0x01 always classifies. -/
theorem usldByte_isSome (c : ℕ) (h : c ≠ 1) : ∃ r, usldByte c = some r := by
  unfold usldByte
  by_cases h1 : 97 ≤ c ∧ c ≤ 122
  · exact ⟨_, if_pos h1⟩
  · rw [if_neg h1]
    by_cases h2 : 65 ≤ c ∧ c ≤ 90
    · exact ⟨_, if_pos h2⟩
    · rw [if_neg h2]
      by_cases h3 : 48 ≤ c ∧ c ≤ 57
      · exact ⟨_, if_pos h3⟩
      · rw [if_neg h3, if_neg h]
        exact ⟨_, rfl⟩

/-- Classifying a string containing the 0x01 byte fails
(`Nonterminal::lookup` returns `NULL`). -/
theorem mapM_usldByte_of_break : ∀ t : BStr, 1 ∈ t → usldString t = none := by
  intro t
  induction t with
  | nil => intro h; simp at h
  | cons c rest ih =>
    intro h
    rw [usldString]
    rcases List.mem_cons.mp h with h1 | h1
    · have : usldByte c = none := by rw [← h1]; rfl
      simp [this]
    · cases hc : usldByte c with
      | none => simp
      | some r => simp [hc, ih h1]

/-- Classifying a break-free string succeeds. -/
theorem mapM_usldByte_of_no_break : ∀ t : BStr, 1 ∉ t → ∃ rep, usldString t = some rep := by
  intro t
  induction t with
  | nil => intro _; exact ⟨[], rfl⟩
  | cons c rest ih =>
    intro h
    have hc : c ≠ 1 := fun he => h (he ▸ List.mem_cons_self _ _)
    obtain ⟨r, hr⟩ := usldByte_isSome c hc
    obtain ⟨rep, hrep⟩ := ih fun hm => h (List.mem_cons_of_mem _ hm)
    exact ⟨r :: rep, by rw [usldString]; simp [hr, hrep]⟩

/-- `Nonterminal::lookup` on a break-free input never returns
`NULL`. -/
theorem Nonterminal.lookup_isSome (nt : Nonterminal) (t : BStr) (h : 1 ∉ t) :
    ∃ ld, nt.lookup t = some ld := by
  obtain ⟨rep, hrep⟩ := mapM_usldByte_of_no_break t h
  unfold Nonterminal.lookup
  rw [hrep]
  dsimp only
  by_cases he : rep ≠ nt.representation
  · exact ⟨_, by rw [if_pos he]⟩
  · exact ⟨_, by rw [if_neg he]⟩

/-- The slices produced by `Structure::lookup` are substrings of the
stripped input, hence break-free. -/
theorem sliceLoop_no_break : ∀ (nts : List Nonterminal) (rep input : BStr)
    (slices : List BStr), 1 ∉ input → sliceLoop nts rep input = some slices →
    ∀ s ∈ slices, 1 ∉ s := by
  intro nts
  induction nts with
  | nil =>
    intro rep input slices _ hs
    unfold sliceLoop at hs
    split at hs
    · obtain rfl : ([] : List BStr) = slices := by simpa using hs
      intro s h
      simp at h
    · simp at hs
  | cons nt rest ih =>
    intro rep input slices hin hs
    unfold sliceLoop at hs
    split at hs
    · cases hrec : sliceLoop rest (rep.drop nt.representation.length)
          (input.drop nt.representation.length) with
      | none => rw [hrec] at hs; simp at hs
      | some tail =>
        rw [hrec] at hs
        obtain rfl : input.take nt.representation.length :: tail = slices := by
          simpa using hs
        intro s hmem
        rcases List.mem_cons.mp hmem with h1 | h1
        · subst h1
          intro hb
          exact hin (List.take_subset _ _ hb)
        · exact ih _ _ tail (fun hb => hin (List.drop_subset _ _ hb)) hrec s h1
    · simp at hs

/-- If every per-position lookup succeeds, the gathering loop
succeeds. -/
theorem gatherLookups_isSome (f : Nonterminal × BStr → Option TerminalLookupData) :
    ∀ l : List (Nonterminal × BStr), (∀ p ∈ l, ∃ ld, f p = some ld) →
      ∃ tls, gatherLookups f l = some tls := by
  intro l
  induction l with
  | nil => intro _; exact ⟨[], rfl⟩
  | cons p rest ih =>
    intro h
    obtain ⟨ld, hld⟩ := h p (List.mem_cons_self _ _)
    obtain ⟨tls, htls⟩ := ih fun q hq => h q (List.mem_cons_of_mem _ hq)
    exact ⟨ld :: tls, by rw [gatherLookups, hld, htls]; rfl⟩

/-- `lookupAndSetPattern` on break-free terminals cannot hit the
`NULL` dereference. -/
theorem lookupAndSetPattern_isSome (pm : PatternManager) (terminals : List BStr)
    (h : ∀ t ∈ terminals, 1 ∉ t) :
    ∃ r, pm.lookupAndSetPattern terminals = some r := by
  obtain ⟨tls, htls⟩ := gatherLookups_isSome (fun p => p.1.lookup p.2)
    (pm.nonterminals.zip terminals)
    (fun p hp => p.1.lookup_isSome p.2 (h p.2 (List.of_mem_zip hp).2))
  unfold PatternManager.lookupAndSetPattern
  rw [htls]
  dsimp only
  cases hf : tls.find? (fun ld => decide (ld.parse_status &&& kCanParse = 0)) with
  | some bad => exact ⟨_, rfl⟩
  | none =>
    dsimp only
    by_cases hall : ((pm.nonterminals.zip tls).all
        fun p => decide (p.2.terminal_group_index < p.1.countTerminalGroups)) = true
    · rw [if_pos hall]
      exact ⟨_, rfl⟩
    · rw [if_neg hall]
      exact ⟨_, rfl⟩

/-- Claim C10: `Nonterminal::lookup` returns a null pointer whenever
its input contains the 0x01 structure-break byte; and because
`Structure::lookup` strips every 0x01 byte before slicing the input
into per-nonterminal terminals, the null-return branch is unreachable
through `Structure::lookup`, so the per-terminal results dereferenced
by `PatternManager::lookupAndSetPattern` are always non-null
(`Structure::lookup` never returns the `none` that models that
dereference). -/
theorem claim_C10 (nt : Nonterminal) (t : BStr) (S : StructureM) (input : BStr) :
    (1 ∈ t → nt.lookup t = none) ∧ S.lookup input ≠ none := by
  constructor
  · intro h
    unfold Nonterminal.lookup
    rw [mapM_usldByte_of_break t h]
  · unfold StructureM.lookup
    dsimp only
    have hnb : 1 ∉ stripBreakCharacterFromTerminal input := by
      intro hmem
      have := List.of_mem_filter hmem
      simp at this
    cases hsl : sliceLoop S.nonterminals
        (convertStringToStructureRepresentation (stripBreakCharacterFromTerminal input))
        (stripBreakCharacterFromTerminal input) with
    | none => simp
    | some terminals =>
      have hslices := sliceLoop_no_break S.nonterminals _ _ terminals hnb hsl
      obtain ⟨r, hr⟩ := lookupAndSetPattern_isSome S.patternManager terminals
        (fun s hs hb => hslices s hs hb)
      simp [hr]

/-- A parsing group scan reports a group index within the group
list. -/
theorem ntGroupScan_lt (dt : BStr) : ∀ (grs : List TGroup) (i : ℕ),
    (ntGroupScan dt grs i).parse_status &&& kCanParse ≠ 0 →
    (ntGroupScan dt grs i).terminal_group_index < i + grs.length := by
  intro grs
  induction grs with
  | nil =>
    intro i h
    rw [ntGroupScan] at h
    exact absurd (by decide) h
  | cons gr rest ih =>
    intro i h
    rw [ntGroupScan] at h ⊢
    by_cases hp : (gr.lookup dt).parse_status &&& kCanParse ≠ 0
    · rw [if_pos hp] at h ⊢
      simp
    · rw [if_neg hp] at h ⊢
      have := ih (i + 1) h
      simpa [Nat.add_comm, Nat.add_assoc, Nat.add_left_comm] using this

/-- A parsing `Nonterminal::lookup` reports a terminal-group index
within the nonterminal's group count (so `setPlace` accepts it). -/
theorem Nonterminal.lookup_tgi_lt (nt : Nonterminal) (t : BStr)
    (ld : TerminalLookupData) (h : nt.lookup t = some ld)
    (hcp : ld.parse_status &&& kCanParse ≠ 0) :
    ld.terminal_group_index < nt.countTerminalGroups := by
  unfold Nonterminal.lookup at h
  cases hu : usldString t with
  | none => rw [hu] at h; simp at h
  | some rep =>
    rw [hu] at h
    dsimp only at h
    by_cases he : rep ≠ nt.representation
    · rw [if_pos he] at h
      obtain rfl := Option.some.inj h
      exact absurd (by decide : kTerminalNotFound &&& kCanParse = 0) hcp
    · rw [if_neg he] at h
      obtain rfl := Option.some.inj h
      simpa using ntGroupScan_lt (t.map toLowerByte) nt.groups 0 hcp

/-- The gathering loop, when every per-position lookup parses:
everything it returns parses and carries an in-range group index. -/
theorem gatherLookups_spec (f : Nonterminal × BStr → Option TerminalLookupData) :
    ∀ l : List (Nonterminal × BStr),
      (∀ p ∈ l, ∃ ld, f p = some ld ∧ ld.parse_status &&& kCanParse ≠ 0 ∧
        ld.terminal_group_index < p.1.countTerminalGroups) →
      ∃ tls, gatherLookups f l = some tls ∧ tls.length = l.length ∧
        (∀ ld ∈ tls, ld.parse_status &&& kCanParse ≠ 0) ∧
        ∀ q ∈ (l.map Prod.fst).zip tls,
          q.2.terminal_group_index < q.1.countTerminalGroups := by
  intro l
  induction l with
  | nil =>
    intro _
    exact ⟨[], rfl, rfl, fun ld h => absurd h (List.not_mem_nil ld), fun q h => by simp at h⟩
  | cons p rest ih =>
    intro h
    obtain ⟨ld, hld, hcp, hlt⟩ := h p (List.mem_cons_self _ _)
    obtain ⟨tls, htls, hl, hst, hzip⟩ := ih fun q hq => h q (List.mem_cons_of_mem _ hq)
    refine ⟨ld :: tls, by rw [gatherLookups, hld, htls]; rfl, by simpa using hl, ?_, ?_⟩
    · intro x hx
      rcases List.mem_cons.mp hx with h1 | h1
      · exact h1 ▸ hcp
      · exact hst x h1
    · intro q hq
      rw [List.map_cons, List.zip_cons_cons] at hq
      rcases List.mem_cons.mp hq with h1 | h1
      · rw [h1]
        exact hlt
      · exact hzip q h1

/-- Claim C1: when every per-position nonterminal lookup can parse,
`lookupAndSetPattern` succeeds and returns
`index = permutationRank * stringsInPattern + rankInPattern`, where
`rankInPattern` reads the per-position terminal indexes as a
mixed-radix number whose bases are the per-position terminal-group
string counts (position 0 most significant: the fold multiplies the
accumulated value by each next base), and `stringsInPattern` is the
product of the per-position string counts. -/
theorem claim_C1 (pm : PatternManager) (terminals : List BStr)
    (hlen : terminals.length = pm.nonterminals.length)
    (hok : ∀ p ∈ pm.nonterminals.zip terminals,
      ∃ ld, p.1.lookup p.2 = some ld ∧ ld.parse_status &&& kCanParse ≠ 0) :
    ∃ tls res,
      gatherLookups (fun p => p.1.lookup p.2) (pm.nonterminals.zip terminals) = some tls ∧
      pm.lookupAndSetPattern terminals = some res ∧
      res.parse_status = kCanParse ∧
      res.index =
        (permutationRank pm.group_ids (tls.map fun ld => ld.terminal_group_index) : ℤ) *
          (pm.countStrings (tls.map fun ld => ld.terminal_group_index) : ℤ) +
        (pm.nonterminals.zip tls).foldl
          (fun r p =>
            r * (p.1.countStringsOfGroup p.2.terminal_group_index : ℤ) + p.2.index) 0 := by
  have hok2 : ∀ p ∈ pm.nonterminals.zip terminals,
      ∃ ld, p.1.lookup p.2 = some ld ∧ ld.parse_status &&& kCanParse ≠ 0 ∧
        ld.terminal_group_index < p.1.countTerminalGroups := by
    intro p hp
    obtain ⟨ld, hld, hcp⟩ := hok p hp
    exact ⟨ld, hld, hcp, p.1.lookup_tgi_lt p.2 ld hld hcp⟩
  obtain ⟨tls, htls, hlen2, hstat, hzip⟩ :=
    gatherLookups_spec (fun p => p.1.lookup p.2) (pm.nonterminals.zip terminals) hok2
  have hfst : (pm.nonterminals.zip terminals).map Prod.fst = pm.nonterminals :=
    List.map_fst_zip _ _ (le_of_eq hlen.symm)
  rw [hfst] at hzip
  have hres : pm.lookupAndSetPattern terminals =
      some ⟨kCanParse,
        pm.canonicalizedPatternProbability (tls.map fun ld => ld.terminal_group_index),
        (permutationRank pm.group_ids (tls.map fun ld => ld.terminal_group_index) : ℤ) *
          (pm.countStrings (tls.map fun ld => ld.terminal_group_index) : ℤ) +
          (pm.nonterminals.zip tls).foldl
            (fun r p =>
              r * (p.1.countStringsOfGroup p.2.terminal_group_index : ℤ) + p.2.index) 0,
        pm.canonicalizedFirstStringOfPattern (tls.map fun ld => ld.terminal_group_index)⟩ := by
    unfold PatternManager.lookupAndSetPattern
    rw [htls]
    dsimp only
    have hfind : tls.find? (fun ld => decide (ld.parse_status &&& kCanParse = 0)) = none :=
      List.find?_eq_none.mpr fun x hx => by simpa using hstat x hx
    rw [hfind]
    dsimp only
    have hall : ((pm.nonterminals.zip tls).all
        fun p => decide (p.2.terminal_group_index < p.1.countTerminalGroups)) = true :=
      List.all_eq_true.mpr fun p hp => by simpa using hzip p hp
    rw [if_pos hall]
  exact ⟨tls, _, htls, hres, rfl, rfl⟩

/-- Witness for claim C1 on a one-nonterminal structure `L` with one
seen group `{a, b}` and terminal `"b"`: the lookup parses at in-group
index 1 and the final index is 0·2 + (0·2 + 1) = 1. -/
theorem claim_C1_witness :
    ∃ tls res,
      gatherLookups (fun p => p.1.lookup p.2)
          ((PatternManager.mk [⟨[76], [TGroup.seen [[97], [98]] 1]⟩] 1
            (assignGids [[76]])).nonterminals.zip [[98]]) = some tls ∧
      (PatternManager.mk [⟨[76], [TGroup.seen [[97], [98]] 1]⟩] 1
          (assignGids [[76]])).lookupAndSetPattern [[98]] = some res ∧
      res.parse_status = kCanParse ∧
      res.index =
        (permutationRank (PatternManager.mk [⟨[76], [TGroup.seen [[97], [98]] 1]⟩] 1
            (assignGids [[76]])).group_ids (tls.map fun ld => ld.terminal_group_index) : ℤ) *
          ((PatternManager.mk [⟨[76], [TGroup.seen [[97], [98]] 1]⟩] 1
            (assignGids [[76]])).countStrings (tls.map fun ld => ld.terminal_group_index) : ℤ) +
        ((PatternManager.mk [⟨[76], [TGroup.seen [[97], [98]] 1]⟩] 1
            (assignGids [[76]])).nonterminals.zip tls).foldl
          (fun r p =>
            r * (p.1.countStringsOfGroup p.2.terminal_group_index : ℤ) + p.2.index) 0 :=
  claim_C1 (PatternManager.mk [⟨[76], [TGroup.seen [[97], [98]] 1]⟩] 1
      (assignGids [[76]])) [[98]] (by decide)
    (fun p hp => by
      obtain rfl : p = (⟨[76], [TGroup.seen [[97], [98]] 1]⟩, [98]) := by
        simpa using hp
      exact ⟨⟨kCanParse, 1, 1, 0⟩, by decide, by decide⟩)

/-- Witness for claim C10 on a one-nonterminal structure: the lookup
of the string `[0x01]` is `NULL`, and a structure lookup of `"a"`
never hits the dereference. -/
theorem claim_C10_witness :
    Nonterminal.lookup ⟨[76], [TGroup.seen [[97]] 1]⟩ [1] = none ∧
      StructureM.lookup ⟨1, [], [⟨[76], [TGroup.seen [[97]] 1]⟩]⟩ [97] ≠ none :=
  ⟨(claim_C10 ⟨[76], [TGroup.seen [[97]] 1]⟩ [1]
      ⟨1, [], [⟨[76], [TGroup.seen [[97]] 1]⟩]⟩ [97]).1 (by decide),
    (claim_C10 ⟨[76], [TGroup.seen [[97]] 1]⟩ [1]
      ⟨1, [], [⟨[76], [TGroup.seen [[97]] 1]⟩]⟩ [97]).2⟩

/-! ### Multiset permutation counts (claim C2, part 1)

`numPerms` is the multinomial coefficient of the digit multiplicities;
the erase identity `numPerms (s - d) * |s| = numPerms s * count d`
underlies every division in `getPermutationRank`, and the recurrence
`Σ_d numPerms (s - d) = numPerms s` drives the ranking bound. -/

theorem numPerms_eq_multinomial (s : Multiset ℕ) :
    numPerms s = Nat.multinomial s.toFinset s.count := by
  unfold numPerms Nat.multinomial
  rw [Multiset.toFinset_sum_count_eq]

theorem numPerms_pos (s : Multiset ℕ) : 0 < numPerms s := by
  rw [numPerms_eq_multinomial]
  exact Nat.multinomial_pos _ _

theorem numPerms_spec (s : Multiset ℕ) :
    (∏ d in s.toFinset, Nat.factorial (s.count d)) * numPerms s =
      Nat.factorial (Multiset.card s) := by
  rw [numPerms_eq_multinomial]
  have h := Nat.multinomial_spec s.toFinset s.count
  rwa [Multiset.toFinset_sum_count_eq] at h

/-- The erase identity: removing one copy of `d` divides the
permutation count by `count d / card`. -/
theorem numPerms_erase (s : Multiset ℕ) (d : ℕ) (hd : d ∈ s) :
    numPerms (s.erase d) * Multiset.card s = numPerms s * s.count d := by
  have hc1 : 1 ≤ s.count d := Multiset.one_le_count_iff_mem.mpr hd
  have hdmem : d ∈ s.toFinset := Multiset.mem_toFinset.mpr hd
  have hcard : 0 < Multiset.card s := Multiset.card_pos.mpr (by
    intro h0
    rw [h0] at hd
    simp at hd)
  -- extend the erased product over the full support
  have hsub : (s.erase d).toFinset ⊆ s.toFinset := by
    intro x hx
    exact Multiset.mem_toFinset.mpr
      (Multiset.mem_of_mem_erase (Multiset.mem_toFinset.mp hx))
  have hP2 : (∏ e in (s.erase d).toFinset, Nat.factorial ((s.erase d).count e)) =
      ∏ e in s.toFinset, Nat.factorial ((s.erase d).count e) := by
    refine Finset.prod_subset hsub fun x _ hnx => ?_
    have : (s.erase d).count x = 0 :=
      Multiset.count_eq_zero.mpr fun hm => hnx (Multiset.mem_toFinset.mpr hm)
    rw [this]
    rfl
  -- compare the two full-support products factor by factor
  have key : (∏ e in s.toFinset, Nat.factorial (s.count e)) =
      (∏ e in s.toFinset, Nat.factorial ((s.erase d).count e)) * s.count d := by
    rw [← Finset.mul_prod_erase _ (fun e => Nat.factorial (s.count e)) hdmem,
      ← Finset.mul_prod_erase _ (fun e => Nat.factorial ((s.erase d).count e)) hdmem]
    have hrest : ∏ e in s.toFinset.erase d, Nat.factorial ((s.erase d).count e) =
        ∏ e in s.toFinset.erase d, Nat.factorial (s.count e) := by
      refine Finset.prod_congr rfl fun e he => ?_
      rw [Multiset.count_erase_of_ne (Finset.ne_of_mem_erase he)]
    rw [hrest, Multiset.count_erase_self]
    have hfac : Nat.factorial (s.count d) = s.count d * Nat.factorial (s.count d - 1) := by
      have : s.count d = (s.count d - 1) + 1 := by omega
      rw [this, Nat.factorial_succ]
      simp
    rw [hfac]
    ring
  -- cancel the shared product of factorials
  have h1 := numPerms_spec s
  have h2 := numPerms_spec (s.erase d)
  have hcerase : Multiset.card (s.erase d) = Multiset.card s - 1 :=
    Multiset.card_erase_of_mem hd
  have hfac2 : Nat.factorial (Multiset.card s) =
      Multiset.card s * Nat.factorial (Multiset.card s - 1) := by
    have : Multiset.card s = (Multiset.card s - 1) + 1 := by omega
    rw [this, Nat.factorial_succ]
    simp
  rw [key] at h1
  rw [hcerase, hP2] at h2
  have hPpos : 0 < ∏ e in s.toFinset, Nat.factorial ((s.erase d).count e) :=
    Finset.prod_pos fun e _ => Nat.factorial_pos _
  -- h1 : prod * count d * numPerms s = card !
  -- h2 : prod * numPerms (erase) = (card - 1)!
  have hmain : (∏ e in s.toFinset, Nat.factorial ((s.erase d).count e)) *
      (numPerms (s.erase d) * Multiset.card s) =
      (∏ e in s.toFinset, Nat.factorial ((s.erase d).count e)) *
      (numPerms s * s.count d) := by
    calc (∏ e in s.toFinset, Nat.factorial ((s.erase d).count e)) *
        (numPerms (s.erase d) * Multiset.card s)
        = ((∏ e in s.toFinset, Nat.factorial ((s.erase d).count e)) *
            numPerms (s.erase d)) * Multiset.card s := by ring
      _ = Nat.factorial (Multiset.card s - 1) * Multiset.card s := by rw [h2]
      _ = Nat.factorial (Multiset.card s) := by rw [hfac2]; ring
      _ = (∏ e in s.toFinset, Nat.factorial ((s.erase d).count e)) *
            s.count d * numPerms s := by rw [← h1]
      _ = (∏ e in s.toFinset, Nat.factorial ((s.erase d).count e)) *
            (numPerms s * s.count d) := by ring
  exact Nat.eq_of_mul_eq_mul_left hPpos hmain

/-- The multinomial recurrence: choosing the first element classifies
the arrangements. -/
theorem numPerms_sum_erase (s : Multiset ℕ) (hs : s ≠ 0) :
    ∑ d in s.toFinset, numPerms (s.erase d) = numPerms s := by
  have hcard : 0 < Multiset.card s := Multiset.card_pos.mpr hs
  refine Nat.eq_of_mul_eq_mul_right hcard ?_
  rw [Finset.sum_mul]
  calc ∑ d in s.toFinset, numPerms (s.erase d) * Multiset.card s
      = ∑ d in s.toFinset, numPerms s * s.count d :=
        Finset.sum_congr rfl fun d hd => numPerms_erase s d (Multiset.mem_toFinset.mp hd)
    _ = numPerms s * ∑ d in s.toFinset, s.count d := by rw [Finset.mul_sum]
    _ = numPerms s * Multiset.card s := by rw [Multiset.toFinset_sum_count_eq]

/-! ### Lexicographic multiset ranking (claim C2, part 2)

`lexRank w` is the number of arrangements of the multiset of `w` that
precede `w` lexicographically; the loop of `getPermutationRank`
computes exactly this. -/

/-- Rank of a word among the arrangements of its own multiset, in
lexicographic order: arrangements starting with a smaller digit, plus
the rank of the tail. -/
def lexRank : List ℕ → ℕ
  | [] => 0
  | d :: w =>
    (∑ e in ((d :: w : List ℕ) : Multiset ℕ).toFinset.filter (fun e => e < d),
      numPerms (((d :: w : List ℕ) : Multiset ℕ).erase e)) + lexRank w

theorem lexRank_lt_numPerms (w : List ℕ) : lexRank w < numPerms (↑w) := by
  induction w with
  | nil => simpa [lexRank] using numPerms_pos 0
  | cons d rest ih =>
    have hd : d ∈ ((d :: rest : List ℕ) : Multiset ℕ) := by simp
    have hse : ((d :: rest : List ℕ) : Multiset ℕ).erase d = (rest : Multiset ℕ) := by
      rw [← Multiset.cons_coe, Multiset.erase_cons_head]
    have hdnf : d ∉ ((d :: rest : List ℕ) : Multiset ℕ).toFinset.filter
        (fun e => e < d) := by
      simp
    have hsub : insert d (((d :: rest : List ℕ) : Multiset ℕ).toFinset.filter
        (fun e => e < d)) ⊆ ((d :: rest : List ℕ) : Multiset ℕ).toFinset := by
      intro e he
      rcases Finset.mem_insert.mp he with h1 | h1
      · rw [h1]
        exact Multiset.mem_toFinset.mpr hd
      · exact Finset.mem_of_mem_filter e h1
    calc lexRank (d :: rest)
        < (∑ e in ((d :: rest : List ℕ) : Multiset ℕ).toFinset.filter (fun e => e < d),
            numPerms (((d :: rest : List ℕ) : Multiset ℕ).erase e)) + numPerms (↑rest) := by
          rw [lexRank]
          exact Nat.add_lt_add_left ih _
      _ = ∑ e in insert d (((d :: rest : List ℕ) : Multiset ℕ).toFinset.filter
            (fun e => e < d)),
            numPerms (((d :: rest : List ℕ) : Multiset ℕ).erase e) := by
          rw [Finset.sum_insert hdnf, hse]
          ring
      _ ≤ ∑ e in ((d :: rest : List ℕ) : Multiset ℕ).toFinset,
            numPerms (((d :: rest : List ℕ) : Multiset ℕ).erase e) :=
          Finset.sum_le_sum_of_subset hsub
      _ = numPerms (↑(d :: rest)) :=
          numPerms_sum_erase _ (by simp)

/-- A non-decreasing word is the first arrangement of its multiset. -/
theorem lexRank_eq_zero_of_sorted (w : List ℕ) (h : List.Sorted (· ≤ ·) w) :
    lexRank w = 0 := by
  induction w with
  | nil => rfl
  | cons d rest ih =>
    rw [lexRank, ih h.of_cons]
    have hfilter : ((d :: rest : List ℕ) : Multiset ℕ).toFinset.filter
        (fun e => e < d) = ∅ := by
      refine Finset.filter_false_of_mem fun e he => ?_
      have hmem : e ∈ (d :: rest : List ℕ) := by
        simpa using Multiset.mem_toFinset.mp he
      rcases List.mem_cons.mp hmem with h1 | h1
      · omega
      · exact not_lt.mpr (List.rel_of_sorted_cons h e h1)
    rw [hfilter]
    simp

/-- The loop of `getPermutationRank` computes the lexicographic rank:
the invariant is that `s` is the multiset of the remaining digits,
`curPerms = numPerms s` and `curSize = card s`. -/
theorem groupRankLoop_eq (w : List ℕ) :
    ∀ r, groupRankLoop w (↑w) (numPerms (↑w)) r w.length = r + lexRank w := by
  induction w with
  | nil => intro r; simp [groupRankLoop, lexRank]
  | cons d rest ih =>
    intro r
    have hd : d ∈ ((d :: rest : List ℕ) : Multiset ℕ) := by simp
    have hse : ((d :: rest : List ℕ) : Multiset ℕ).erase d = (rest : Multiset ℕ) := by
      rw [← Multiset.cons_coe, Multiset.erase_cons_head]
    have hcard : Multiset.card ((d :: rest : List ℕ) : Multiset ℕ) = rest.length + 1 := by
      simp
    rw [groupRankLoop]
    by_cases hguard : numPerms ((d :: rest : List ℕ) : Multiset ℕ) ≤ 1
    · rw [if_pos hguard]
      have hlt := lexRank_lt_numPerms (d :: rest)
      omega
    · rw [if_neg hguard]
      have hlen : (d :: rest).length = rest.length + 1 := rfl
      have hcount : numPerms ((d :: rest : List ℕ) : Multiset ℕ) *
          Multiset.count d ((d :: rest : List ℕ) : Multiset ℕ) / (d :: rest).length =
          numPerms (↑rest) := by
        have h2 := numPerms_erase ((d :: rest : List ℕ) : Multiset ℕ) d hd
        rw [hcard, hse] at h2
        rw [hlen, ← h2]
        exact Nat.mul_div_cancel _ (by omega)
      have hweak : numPerms ((d :: rest : List ℕ) : Multiset ℕ) *
          (∑ e in ((d :: rest : List ℕ) : Multiset ℕ).toFinset.filter (fun e => e < d),
            Multiset.count e ((d :: rest : List ℕ) : Multiset ℕ)) / (d :: rest).length =
          ∑ e in ((d :: rest : List ℕ) : Multiset ℕ).toFinset.filter (fun e => e < d),
            numPerms (((d :: rest : List ℕ) : Multiset ℕ).erase e) := by
        have hmul : numPerms ((d :: rest : List ℕ) : Multiset ℕ) *
            (∑ e in ((d :: rest : List ℕ) : Multiset ℕ).toFinset.filter (fun e => e < d),
              Multiset.count e ((d :: rest : List ℕ) : Multiset ℕ)) =
            (∑ e in ((d :: rest : List ℕ) : Multiset ℕ).toFinset.filter (fun e => e < d),
              numPerms (((d :: rest : List ℕ) : Multiset ℕ).erase e)) *
              (d :: rest).length := by
          rw [Finset.mul_sum, Finset.sum_mul]
          refine Finset.sum_congr rfl fun e he => ?_
          have hes : e ∈ ((d :: rest : List ℕ) : Multiset ℕ) :=
            Multiset.mem_toFinset.mp (Finset.mem_of_mem_filter e he)
          have h2 := numPerms_erase ((d :: rest : List ℕ) : Multiset ℕ) e hes
          rw [hcard] at h2
          rw [hlen]
          exact h2.symm
        rw [hmul]
        exact Nat.mul_div_cancel _ (by rw [hlen]; omega)
      rw [hcount, hweak, hse]
      have hlen2 : (d :: rest).length - 1 = rest.length := rfl
      rw [hlen2, ih]
      rw [lexRank]
      ring

/-- `groupRank` is the lexicographic rank of the group's digit
word. -/
theorem groupRank_eq_lexRank (w : List ℕ) : groupRank w = lexRank w := by
  unfold groupRank
  rw [groupRankLoop_eq w 0]
  omega

/-! ### Unranking (claim C2, part 3)

The inverse of `lexRank` on an equivalence class: pick the first digit
by sweeping the distinct values in ascending order, subtracting the
arrangement count contributed by each smaller digit. -/

/-- Digit selection: subtract `numPerms (s.erase e)` for ascending
candidates `e` until the remaining rank fits. -/
def pickAux : List ℕ → Multiset ℕ → ℕ → Option (ℕ × ℕ)
  | [], _, _ => none
  | d :: ds, s, r =>
    if r < numPerms (s.erase d) then some (d, r)
    else pickAux ds s (r - numPerms (s.erase d))

/-- Unranking with explicit fuel (the multiset's size). -/
def unrankAux : ℕ → Multiset ℕ → ℕ → List ℕ
  | 0, _, _ => []
  | fuel + 1, s, r =>
    match pickAux (s.toFinset.sort (· ≤ ·)) s r with
    | none => []
    | some (d, r2) => d :: unrankAux fuel (s.erase d) r2

/-- The arrangement of the multiset `s` with lexicographic rank
`r`. -/
def unrank (s : Multiset ℕ) (r : ℕ) : List ℕ := unrankAux (Multiset.card s) s r

/-- Summing a mapped filter is summing an if-then-else. -/
theorem list_filter_map_sum (l : List ℕ) (p : ℕ → Bool) (f : ℕ → ℕ) :
    ((l.filter p).map f).sum = (l.map fun e => if p e then f e else 0).sum := by
  induction l with
  | nil => rfl
  | cons a l ih =>
    by_cases hp : p a <;> simp [List.filter_cons, hp, ih]

/-- Summing a function over a `Finset.sort` is the `Finset` sum. -/
theorem sort_map_sum (t : Finset ℕ) (g : ℕ → ℕ) :
    ((t.sort (· ≤ ·)).map g).sum = ∑ e in t, g e := by
  have h1 : ((t.sort (· ≤ ·) : List ℕ) : Multiset ℕ) = t.val := Finset.sort_eq _ _
  calc ((t.sort (· ≤ ·)).map g).sum
      = Multiset.sum (↑((t.sort (· ≤ ·)).map g)) := (Multiset.sum_coe _).symm
    _ = Multiset.sum (Multiset.map g ↑(t.sort (· ≤ ·))) := by rw [Multiset.map_coe]
    _ = Multiset.sum (Multiset.map g t.val) := by rw [h1]
    _ = ∑ e in t, g e := rfl

/-- Summing over the below-`d` part of a `Finset.sort` is the filtered
`Finset` sum. -/
theorem sort_filter_map_sum (t : Finset ℕ) (g : ℕ → ℕ) (d : ℕ) :
    (((t.sort (· ≤ ·)).filter fun e => decide (e < d)).map g).sum =
      ∑ e in t.filter (fun e => e < d), g e := by
  rw [list_filter_map_sum, sort_map_sum, Finset.sum_filter]
  simp

/-- Correctness of the digit picker at the rank contributed by the
digits below `d` plus a remainder fitting `d`'s block. -/
theorem pickAux_at (s : Multiset ℕ) (d r2 : ℕ) (hr : r2 < numPerms (s.erase d)) :
    ∀ l : List ℕ, List.Sorted (· ≤ ·) l → l.Nodup → d ∈ l →
      pickAux l s
        (((l.filter fun e => decide (e < d)).map fun e => numPerms (s.erase e)).sum + r2) =
        some (d, r2) := by
  intro l
  induction l with
  | nil => intro _ _ hd; simp at hd
  | cons e ls ih =>
    intro hsort hnodup hd
    by_cases he : e = d
    · subst he
      have hfilter : (e :: ls).filter (fun x => decide (x < e)) = [] := by
        rw [List.filter_eq_nil_iff]
        intro x hx
        rcases List.mem_cons.mp hx with h1 | h1
        · simp [h1]
        · simpa using not_lt.mpr (List.rel_of_sorted_cons hsort x h1)
      rw [hfilter]
      simp only [List.map_nil, List.sum_nil, Nat.zero_add]
      rw [pickAux, if_pos hr]
    · have hdls : d ∈ ls := by
        rcases List.mem_cons.mp hd with h1 | h1
        · exact absurd h1.symm he
        · exact h1
      have hed : e < d :=
        lt_of_le_of_ne (List.rel_of_sorted_cons hsort d hdls) fun h => he h
      have hfilter : (e :: ls).filter (fun x => decide (x < d)) =
          e :: ls.filter (fun x => decide (x < d)) := by
        rw [List.filter_cons]
        simp [hed]
      rw [hfilter]
      simp only [List.map_cons, List.sum_cons]
      rw [pickAux]
      have hge : ¬ (numPerms (s.erase e) +
          ((ls.filter fun x => decide (x < d)).map fun e => numPerms (s.erase e)).sum + r2 <
          numPerms (s.erase e)) := by omega
      rw [if_neg hge]
      have harith : numPerms (s.erase e) +
          ((ls.filter fun x => decide (x < d)).map fun e => numPerms (s.erase e)).sum + r2 -
          numPerms (s.erase e) =
          ((ls.filter fun x => decide (x < d)).map fun e => numPerms (s.erase e)).sum + r2 := by
        omega
      rw [harith]
      exact ih (List.sorted_cons.mp hsort).2 (List.nodup_cons.mp hnodup).2 hdls

/-- Completeness of the digit picker: any rank below the total number
of arrangements lands in some digit's block. -/
theorem pickAux_total (s : Multiset ℕ) :
    ∀ l : List ℕ, List.Sorted (· ≤ ·) l → l.Nodup →
      ∀ r : ℕ, r < ((l.map fun e => numPerms (s.erase e)).sum) →
      ∃ d r2, pickAux l s r = some (d, r2) ∧ d ∈ l ∧ r2 < numPerms (s.erase d) ∧
        r = ((l.filter fun e => decide (e < d)).map fun e => numPerms (s.erase e)).sum + r2 := by
  intro l
  induction l with
  | nil => intro _ _ r hr; simp at hr
  | cons e ls ih =>
    intro hsort hnodup r hr
    by_cases hcase : r < numPerms (s.erase e)
    · refine ⟨e, r, by rw [pickAux, if_pos hcase], List.mem_cons_self _ _, hcase, ?_⟩
      have hfilter : (e :: ls).filter (fun x => decide (x < e)) = [] := by
        rw [List.filter_eq_nil_iff]
        intro x hx
        rcases List.mem_cons.mp hx with h1 | h1
        · simp [h1]
        · simpa using not_lt.mpr (List.rel_of_sorted_cons hsort x h1)
      rw [hfilter]
      simp
    · simp only [List.map_cons, List.sum_cons] at hr
      obtain ⟨d, r2, hpick, hdl, hr2, hreq⟩ := ih (List.sorted_cons.mp hsort).2
        (List.nodup_cons.mp hnodup).2 (r - numPerms (s.erase e)) (by omega)
      have hed : e < d := by
        have hne : e ≠ d := fun h => (List.nodup_cons.mp hnodup).1 (h ▸ hdl)
        exact lt_of_le_of_ne (List.rel_of_sorted_cons hsort d hdl) hne
      refine ⟨d, r2, ?_, List.mem_cons_of_mem _ hdl, hr2, ?_⟩
      · rw [pickAux, if_neg hcase]
        exact hpick
      · have hfilter : (e :: ls).filter (fun x => decide (x < d)) =
            e :: ls.filter (fun x => decide (x < d)) := by
          rw [List.filter_cons]
          simp [hed]
        rw [hfilter]
        simp only [List.map_cons, List.sum_cons]
        omega

/-- Round trip 1: unranking the rank of a word recovers the word. -/
theorem unrankAux_lexRank : ∀ (fuel : ℕ) (w : List ℕ), w.length ≤ fuel →
    unrankAux fuel (↑w) (lexRank w) = w := by
  intro fuel
  induction fuel with
  | zero =>
    intro w hw
    obtain rfl : w = [] := List.length_eq_zero.mp (by omega)
    rfl
  | succ fuel ih =>
    intro w hw
    cases w with
    | nil =>
      rw [unrankAux]
      have : ((([] : List ℕ) : Multiset ℕ)).toFinset.sort (· ≤ ·) = [] := by
        simp
      rw [this]
      rfl
    | cons d rest =>
      have hd : d ∈ ((d :: rest : List ℕ) : Multiset ℕ) := by simp
      have hse : ((d :: rest : List ℕ) : Multiset ℕ).erase d = (rest : Multiset ℕ) := by
        rw [← Multiset.cons_coe, Multiset.erase_cons_head]
      have hr2 : lexRank rest < numPerms (((d :: rest : List ℕ) : Multiset ℕ).erase d) := by
        rw [hse]
        exact lexRank_lt_numPerms rest
      have hpick : pickAux (((d :: rest : List ℕ) : Multiset ℕ).toFinset.sort (· ≤ ·))
          ((d :: rest : List ℕ) : Multiset ℕ) (lexRank (d :: rest)) =
          some (d, lexRank rest) := by
        have h1 := pickAux_at ((d :: rest : List ℕ) : Multiset ℕ) d (lexRank rest) hr2
          (((d :: rest : List ℕ) : Multiset ℕ).toFinset.sort (· ≤ ·))
          (Finset.sort_sorted _ _) (Finset.sort_nodup _ _)
          ((Finset.mem_sort _).mpr (Multiset.mem_toFinset.mpr hd))
        rw [sort_filter_map_sum] at h1
        rw [lexRank]
        exact h1
      rw [unrankAux, hpick]
      dsimp only
      rw [hse, ih rest (by simpa using hw)]

/-- Round trip 1, packaged. -/
theorem unrank_lexRank (w : List ℕ) : unrank (↑w) (lexRank w) = w := by
  unfold unrank
  exact unrankAux_lexRank _ w (by simp)

/-- Round trip 2: unranking any rank below the arrangement count
yields a word of the same multiset with exactly that rank. -/
theorem lexRank_unrankAux : ∀ (fuel : ℕ) (s : Multiset ℕ) (r : ℕ),
    Multiset.card s ≤ fuel → r < numPerms s →
    (↑(unrankAux fuel s r) : Multiset ℕ) = s ∧ lexRank (unrankAux fuel s r) = r := by
  intro fuel
  induction fuel with
  | zero =>
    intro s r hcard hr
    obtain rfl : s = 0 := Multiset.card_eq_zero.mp (by omega)
    have : r = 0 := by
      have := numPerms_pos 0
      have h1 : numPerms (0 : Multiset ℕ) = 1 := by
        unfold numPerms
        simp
      omega
    subst this
    exact ⟨rfl, rfl⟩
  | succ fuel ih =>
    intro s r hcard hr
    by_cases hs : s = 0
    · subst hs
      have hr0 : r = 0 := by
        have h1 : numPerms (0 : Multiset ℕ) = 1 := by
          unfold numPerms
          simp
        omega
      subst hr0
      rw [unrankAux]
      have hsort : ((0 : Multiset ℕ)).toFinset.sort (· ≤ ·) = [] := by simp
      rw [hsort]
      exact ⟨rfl, rfl⟩
    · have htotal : r < (((s.toFinset.sort (· ≤ ·)).map fun e =>
          numPerms (s.erase e)).sum) := by
        rw [sort_map_sum, numPerms_sum_erase s hs]
        exact hr
      obtain ⟨d, r2, hpick, hdl, hr2, hreq⟩ := pickAux_total s
        (s.toFinset.sort (· ≤ ·)) (Finset.sort_sorted _ _) (Finset.sort_nodup _ _)
        r htotal
      have hds : d ∈ s := Multiset.mem_toFinset.mp ((Finset.mem_sort _).mp hdl)
      have hcard2 : Multiset.card (s.erase d) ≤ fuel := by
        have h3 : Multiset.card (s.erase d) = Multiset.card s - 1 := by
          rw [Multiset.card_erase_of_mem hds]
          rfl
        have h4 : 0 < Multiset.card s := Multiset.card_pos.mpr hs
        omega
      obtain ⟨hcoe, hrank⟩ := ih (s.erase d) r2 hcard2 hr2
      rw [unrankAux, hpick]
      have hcons : ((d :: unrankAux fuel (s.erase d) r2 : List ℕ) : Multiset ℕ) = s := by
        rw [← Multiset.cons_coe, hcoe]
        exact Multiset.cons_erase hds
      refine ⟨hcons, ?_⟩
      rw [lexRank, hrank]
      rw [hcons]
      rw [hreq, sort_filter_map_sum]

/-- Round trip 2, packaged. -/
theorem lexRank_unrank (s : Multiset ℕ) (r : ℕ) (hr : r < numPerms s) :
    (↑(unrank s r) : Multiset ℕ) = s ∧ lexRank (unrank s r) = r :=
  lexRank_unrankAux _ s r (le_refl _) hr

/-! ### Group words and pattern reassembly (claim C2, part 4) -/

theorem wordOf_nil (g : ℕ) (digits : List ℕ) : wordOf g [] digits = [] := rfl

theorem wordOf_nil_right (g : ℕ) (gids : List ℕ) : wordOf g gids [] = by
    exact [] := by
  unfold wordOf
  rw [List.zip_nil_right]
  rfl

theorem wordOf_cons (g g0 : ℕ) (gs : List ℕ) (a : ℕ) (ds : List ℕ) :
    wordOf g (g0 :: gs) (a :: ds) =
      if g0 = g then a :: wordOf g gs ds else wordOf g gs ds := by
  unfold wordOf
  rw [List.zip_cons_cons, List.filterMap_cons]
  by_cases h : g0 = g <;> simp [h]

/-- When the digit list spans the positions, the group word has the
group id's multiplicity as length. -/
theorem wordOf_length : ∀ (gids digits : List ℕ) (g : ℕ),
    digits.length = gids.length → (wordOf g gids digits).length = gids.count g := by
  intro gids
  induction gids with
  | nil =>
    intro digits g h
    rw [wordOf_nil]
    simp
  | cons g0 gs ih =>
    intro digits g h
    cases digits with
    | nil => simp at h
    | cons a ds =>
      rw [wordOf_cons]
      have hlen : ds.length = gs.length := by simpa using h
      by_cases hg : g0 = g
      · subst hg
        rw [if_pos rfl]
        simp [ih ds g0 hlen, List.count_cons]
      · rw [if_neg hg]
        have hne : g ≠ g0 := fun he => hg he.symm
        simp [ih ds g hlen, List.count_cons, hne]

/-- Patterns with the same group words coincide. -/
theorem eq_of_wordOf_eq : ∀ (gids Q1 Q2 : List ℕ),
    Q1.length = gids.length → Q2.length = gids.length →
    (∀ g, wordOf g gids Q1 = wordOf g gids Q2) → Q1 = Q2 := by
  intro gids
  induction gids with
  | nil =>
    intro Q1 Q2 h1 h2 _
    rw [List.length_eq_zero.mp h1, List.length_eq_zero.mp h2]
  | cons g0 gs ih =>
    intro Q1 Q2 h1 h2 hw
    cases Q1 with
    | nil => simp at h1
    | cons a d1 =>
      cases Q2 with
      | nil => simp at h2
      | cons b d2 =>
        have hg0 := hw g0
        rw [wordOf_cons, wordOf_cons, if_pos rfl, if_pos rfl] at hg0
        obtain ⟨rfl, htail0⟩ := List.cons.inj hg0
        have htails : ∀ g, wordOf g gs d1 = wordOf g gs d2 := by
          intro g
          by_cases hg : g0 = g
          · exact hg ▸ htail0
          · have := hw g
            rwa [wordOf_cons, wordOf_cons, if_neg hg, if_neg hg] at this
        rw [ih d1 d2 (by simpa using h1) (by simpa using h2) htails]

theorem placeWords_length : ∀ (gids : List ℕ) (f : ℕ → List ℕ),
    (placeWords gids f).length = gids.length := by
  intro gids
  induction gids with
  | nil => intro f; rfl
  | cons g0 gs ih => intro f; simp [placeWords, ih]

theorem placeWords_congr : ∀ (gids : List ℕ) (f1 f2 : ℕ → List ℕ),
    (∀ g, f1 g = f2 g) → placeWords gids f1 = placeWords gids f2 := by
  intro gids
  induction gids with
  | nil => intro _ _ _; rfl
  | cons g0 gs ih =>
    intro f1 f2 h
    rw [placeWords, placeWords, h g0]
    congr 1
    refine ih _ _ fun g => ?_
    by_cases hg : g = g0 <;> simp [hg, h g]

/-- Reading back the words of a reassembled pattern returns the placed
words, provided each word has its group's multiplicity as length. -/
theorem wordOf_placeWords : ∀ (gids : List ℕ) (f : ℕ → List ℕ),
    (∀ g, (f g).length = gids.count g) →
    ∀ g, wordOf g gids (placeWords gids f) = f g := by
  intro gids
  induction gids with
  | nil =>
    intro f hf g
    rw [wordOf_nil]
    have := hf g
    simp at this
    exact this.symm
  | cons g0 gs ih =>
    intro f hf g
    have hlen0 : (f g0).length = gs.count g0 + 1 := by
      have := hf g0
      simpa [List.count_cons] using this
    obtain ⟨a, t, hft⟩ : ∃ a t, f g0 = a :: t := by
      cases hc : f g0 with
      | nil => rw [hc] at hlen0; simp at hlen0
      | cons a t => exact ⟨a, t, rfl⟩
    have hf2 : ∀ x, ((fun x => if x = g0 then (f g0).tail else f x) x).length =
        gs.count x := by
      intro x
      by_cases hx : x = g0
      · subst hx
        simp only [if_pos rfl, hft]
        simpa [hft] using hlen0
      · simp only [if_neg hx]
        have := hf x
        simpa [List.count_cons, hx] using this
    rw [placeWords, wordOf_cons]
    by_cases hg : g0 = g
    · subst hg
      rw [if_pos rfl, ih _ hf2 g0]
      simp [hft]
    · rw [if_neg hg, ih _ hf2 g]
      have hne : g ≠ g0 := fun he => hg he.symm
      simp [hne]

/-! ### Mixed-radix folds over group ranks (claim C2, part 5) -/

theorem foldl_mixed_decompose (N R : ℕ → ℕ) :
    ∀ (l : List ℕ) (acc : ℕ),
      List.foldl (fun a g => a * N g + R g) acc l =
        acc * (l.map N).prod + List.foldl (fun a g => a * N g + R g) 0 l := by
  intro l
  induction l with
  | nil => intro acc; simp
  | cons g gs ih =>
    intro acc
    rw [List.foldl_cons, List.foldl_cons, ih (acc * N g + R g), ih (0 * N g + R g)]
    simp only [List.map_cons, List.prod_cons]
    ring

theorem foldl_mixed_lt (N R : ℕ → ℕ) :
    ∀ l : List ℕ, (∀ g ∈ l, R g < N g) →
      List.foldl (fun a g => a * N g + R g) 0 l < (l.map N).prod := by
  intro l
  induction l with
  | nil => intro _; simp
  | cons g gs ih =>
    intro h
    rw [List.foldl_cons, foldl_mixed_decompose]
    have hg := h g (List.mem_cons_self _ _)
    have htail := ih fun x hx => h x (List.mem_cons_of_mem _ hx)
    simp only [List.map_cons, List.prod_cons]
    calc (0 * N g + R g) * (gs.map N).prod +
          List.foldl (fun a g => a * N g + R g) 0 gs
        < (0 * N g + R g) * (gs.map N).prod + (gs.map N).prod := by omega
      _ = (R g + 1) * (gs.map N).prod := by ring
      _ ≤ N g * (gs.map N).prod := Nat.mul_le_mul_right _ (by omega)

theorem foldl_mixed_congr (N : ℕ → ℕ) (R1 R2 : ℕ → ℕ) :
    ∀ (l : List ℕ) (acc : ℕ), (∀ g ∈ l, R1 g = R2 g) →
      List.foldl (fun a g => a * N g + R1 g) acc l =
        List.foldl (fun a g => a * N g + R2 g) acc l := by
  intro l
  induction l with
  | nil => intro _ _; rfl
  | cons g gs ih =>
    intro acc h
    rw [List.foldl_cons, List.foldl_cons, h g (List.mem_cons_self _ _),
      ih _ fun x hx => h x (List.mem_cons_of_mem _ hx)]

theorem foldl_mixed_inj (N R1 R2 : ℕ → ℕ) :
    ∀ l : List ℕ, (∀ g ∈ l, R1 g < N g) → (∀ g ∈ l, R2 g < N g) →
      List.foldl (fun a g => a * N g + R1 g) 0 l =
        List.foldl (fun a g => a * N g + R2 g) 0 l →
      ∀ g ∈ l, R1 g = R2 g := by
  intro l
  induction l with
  | nil => intro _ _ _ g hg; simp at hg
  | cons g gs ih =>
    intro h1 h2 heq x hx
    rw [List.foldl_cons, List.foldl_cons, foldl_mixed_decompose,
      foldl_mixed_decompose N R2] at heq
    have hP : 0 < (gs.map N).prod := by
      refine List.prod_pos fun n hn => ?_
      obtain ⟨y, hy, rfl⟩ := List.mem_map.mp hn
      have := h1 y (List.mem_cons_of_mem _ hy)
      omega
    have hb1 := foldl_mixed_lt N R1 gs fun y hy => h1 y (List.mem_cons_of_mem _ hy)
    have hb2 := foldl_mixed_lt N R2 gs fun y hy => h2 y (List.mem_cons_of_mem _ hy)
    have hhead : R1 g = R2 g ∧
        List.foldl (fun a x => a * N x + R1 x) 0 gs =
          List.foldl (fun a x => a * N x + R2 x) 0 gs := by
      constructor
      · have e1 : (0 * N g + R1 g) * (gs.map N).prod +
            List.foldl (fun a x => a * N x + R1 x) 0 gs = R1 g * (gs.map N).prod +
            List.foldl (fun a x => a * N x + R1 x) 0 gs := by ring_nf
        have e2 : (0 * N g + R2 g) * (gs.map N).prod +
            List.foldl (fun a x => a * N x + R2 x) 0 gs = R2 g * (gs.map N).prod +
            List.foldl (fun a x => a * N x + R2 x) 0 gs := by ring_nf
        rw [e1, e2] at heq
        by_contra hne
        rcases Nat.lt_or_ge (R1 g) (R2 g) with hlt | hge
        · have : R1 g * (gs.map N).prod + (gs.map N).prod ≤
              R2 g * (gs.map N).prod := by
            calc R1 g * (gs.map N).prod + (gs.map N).prod
                = (R1 g + 1) * (gs.map N).prod := by ring
              _ ≤ R2 g * (gs.map N).prod := Nat.mul_le_mul_right _ (by omega)
          omega
        · have hgt : R2 g < R1 g := by omega
          have : R2 g * (gs.map N).prod + (gs.map N).prod ≤
              R1 g * (gs.map N).prod := by
            calc R2 g * (gs.map N).prod + (gs.map N).prod
                = (R2 g + 1) * (gs.map N).prod := by ring
              _ ≤ R1 g * (gs.map N).prod := Nat.mul_le_mul_right _ (by omega)
          omega
      · have hR : R1 g = R2 g := by
          -- re-derive, sharing the argument above is circular; do arithmetic once
          by_contra hne
          rcases Nat.lt_or_ge (R1 g) (R2 g) with hlt | hge
          · have : (0 * N g + R1 g) * (gs.map N).prod +
                List.foldl (fun a x => a * N x + R1 x) 0 gs <
                (0 * N g + R2 g) * (gs.map N).prod +
                List.foldl (fun a x => a * N x + R2 x) 0 gs := by
              have : (R1 g + 1) * (gs.map N).prod ≤ R2 g * (gs.map N).prod :=
                Nat.mul_le_mul_right _ (by omega)
              have e3 : (R1 g + 1) * (gs.map N).prod =
                  R1 g * (gs.map N).prod + (gs.map N).prod := by ring
              simp only [Nat.zero_mul, Nat.zero_add]
              omega
            omega
          · have hgt : R2 g < R1 g := by omega
            have : (0 * N g + R2 g) * (gs.map N).prod +
                List.foldl (fun a x => a * N x + R2 x) 0 gs <
                (0 * N g + R1 g) * (gs.map N).prod +
                List.foldl (fun a x => a * N x + R1 x) 0 gs := by
              have : (R2 g + 1) * (gs.map N).prod ≤ R1 g * (gs.map N).prod :=
                Nat.mul_le_mul_right _ (by omega)
              have e3 : (R2 g + 1) * (gs.map N).prod =
                  R2 g * (gs.map N).prod + (gs.map N).prod := by ring
              simp only [Nat.zero_mul, Nat.zero_add]
              omega
            omega
        rw [hR] at heq
        have hP2 : (0 * N g + R2 g) * (gs.map N).prod +
            List.foldl (fun a x => a * N x + R1 x) 0 gs =
            (0 * N g + R2 g) * (gs.map N).prod +
            List.foldl (fun a x => a * N x + R2 x) 0 gs := heq
        omega
    rcases List.mem_cons.mp hx with hx1 | hx1
    · exact hx1 ▸ hhead.1
    · exact ih (fun y hy => h1 y (List.mem_cons_of_mem _ hy))
        (fun y hy => h2 y (List.mem_cons_of_mem _ hy)) hhead.2 x hx1

theorem foldl_mixed_zero (N R : ℕ → ℕ) :
    ∀ l : List ℕ, (∀ g ∈ l, R g = 0) →
      List.foldl (fun a g => a * N g + R g) 0 l = 0 := by
  intro l
  induction l with
  | nil => intro _; rfl
  | cons g gs ih =>
    intro h
    rw [List.foldl_cons, h g (List.mem_cons_self _ _)]
    simpa using ih fun x hx => h x (List.mem_cons_of_mem _ hx)

/-! ### The repeated-group list and canonical patterns (claim C2, part 6) -/

theorem mem_repeatedGids (gids : List ℕ) (g : ℕ) :
    g ∈ repeatedGids gids ↔ g ∈ gids ∧ 1 < gids.count g := by
  unfold repeatedGids
  rw [(List.perm_insertionSort _ _).mem_iff]
  simp [List.mem_filter, List.mem_dedup]

theorem repeatedGids_nodup (gids : List ℕ) : (repeatedGids gids).Nodup :=
  (List.perm_insertionSort _ _).nodup_iff.mpr ((List.nodup_dedup gids).filter _)

theorem hasRepeats_iff (gids : List ℕ) :
    hasRepeats gids = true ↔ ∃ g ∈ gids, 1 < gids.count g := by
  simp [hasRepeats]

/-- The spec's canonicity condition: within every repeated group the
digits are monotonically non-decreasing in position order. -/
def canonicalPattern (gids digits : List ℕ) : Prop :=
  ∀ g, 1 < gids.count g → List.Sorted (· ≤ ·) (wordOf g gids digits)

/-- The equivalence class of a pattern under per-group permutation:
patterns of the same length whose group words carry the same digit
multisets. -/
def patternClass (gids P : List ℕ) : Set (List ℕ) :=
  {Q | Q.length = P.length ∧
    ∀ g, (↑(wordOf g gids Q) : Multiset ℕ) = ↑(wordOf g gids P)}

theorem list_eq_of_coe_eq_length_le_one (w1 w2 : List ℕ)
    (h : (↑w1 : Multiset ℕ) = ↑w2) (hl : w1.length ≤ 1) : w1 = w2 := by
  cases w1 with
  | nil =>
    have : (↑w2 : Multiset ℕ) = 0 := by simpa using h.symm
    simpa using (Multiset.coe_eq_zero _).mp this
  | cons a t =>
    have ht : t = [] := by
      cases t with
      | nil => rfl
      | cons b u => simp at hl
    subst ht
    have : (↑w2 : Multiset ℕ) = {a} := by simpa using h.symm
    exact (Multiset.coe_eq_singleton.mp this).symm

theorem permutationRank_eq_zero_of_canonical (gids P : List ℕ)
    (h : canonicalPattern gids P) : permutationRank gids P = 0 := by
  unfold permutationRank
  by_cases hrep : hasRepeats gids
  · rw [if_neg (by simpa using hrep)]
    refine foldl_mixed_zero (fun g => numPerms (↑(wordOf g gids P) : Multiset ℕ))
      (fun g => groupRank (wordOf g gids P)) _ fun g hg => ?_
    show groupRank (wordOf g gids P) = 0
    rw [groupRank_eq_lexRank]
    exact lexRank_eq_zero_of_sorted _ (h g ((mem_repeatedGids gids g).mp hg).2)
  · rw [if_pos (by simpa using hrep)]

theorem permutationRank_lt_countPermutations (gids P : List ℕ) :
    permutationRank gids P < countPermutations gids P := by
  unfold permutationRank countPermutations
  by_cases hrep : hasRepeats gids
  · rw [if_neg (by simpa using hrep), if_neg (by simpa using hrep)]
    refine foldl_mixed_lt (fun g => numPerms (↑(wordOf g gids P) : Multiset ℕ))
      (fun g => groupRank (wordOf g gids P)) _ fun g _ => ?_
    show groupRank (wordOf g gids P) < numPerms (↑(wordOf g gids P) : Multiset ℕ)
    rw [groupRank_eq_lexRank]
    exact lexRank_lt_numPerms _
  · rw [if_pos (by simpa using hrep), if_pos (by simpa using hrep)]
    exact Nat.zero_lt_one

theorem countPermutations_congr (gids Q P : List ℕ)
    (h : ∀ g, (↑(wordOf g gids Q) : Multiset ℕ) = ↑(wordOf g gids P)) :
    countPermutations gids Q = countPermutations gids P := by
  unfold countPermutations
  by_cases hrep : hasRepeats gids
  · rw [if_neg (by simpa using hrep), if_neg (by simpa using hrep)]
    simp only [h]
  · rw [if_pos (by simpa using hrep), if_pos (by simpa using hrep)]

/-- On an equivalence class of patterns, equal permutation ranks force
equal patterns. -/
theorem permutationRank_injOn (gids P : List ℕ) (hP : P.length = gids.length) :
    ∀ Q1 ∈ patternClass gids P, ∀ Q2 ∈ patternClass gids P,
      permutationRank gids Q1 = permutationRank gids Q2 → Q1 = Q2 := by
  intro Q1 hQ1 Q2 hQ2 hrank
  obtain ⟨hlen1, hw1⟩ := hQ1
  obtain ⟨hlen2, hw2⟩ := hQ2
  have hL1 : Q1.length = gids.length := hlen1.trans hP
  have hL2 : Q2.length = gids.length := hlen2.trans hP
  refine eq_of_wordOf_eq gids Q1 Q2 hL1 hL2 fun g => ?_
  have hmul : (↑(wordOf g gids Q1) : Multiset ℕ) = ↑(wordOf g gids Q2) :=
    (hw1 g).trans (hw2 g).symm
  by_cases hc : 1 < gids.count g
  · -- repeated group: compare per-group ranks through the mixed-radix fold
    have hmem : g ∈ repeatedGids gids :=
      (mem_repeatedGids gids g).mpr ⟨List.count_pos_iff.mp (by omega), hc⟩
    have hrep : hasRepeats gids = true :=
      (hasRepeats_iff gids).mpr ⟨g, List.count_pos_iff.mp (by omega), hc⟩
    rw [permutationRank, permutationRank, if_neg (by simpa using hrep),
      if_neg (by simpa using hrep)] at hrank
    simp only [hw1, hw2] at hrank
    have hinj := foldl_mixed_inj
      (fun x => numPerms (↑(wordOf x gids P) : Multiset ℕ))
      (fun x => groupRank (wordOf x gids Q1))
      (fun x => groupRank (wordOf x gids Q2))
      (repeatedGids gids)
      (fun x _ => by
        show groupRank (wordOf x gids Q1) < numPerms (↑(wordOf x gids P) : Multiset ℕ)
        rw [groupRank_eq_lexRank, ← hw1 x]
        exact lexRank_lt_numPerms _)
      (fun x _ => by
        show groupRank (wordOf x gids Q2) < numPerms (↑(wordOf x gids P) : Multiset ℕ)
        rw [groupRank_eq_lexRank, ← hw2 x]
        exact lexRank_lt_numPerms _)
      hrank g hmem
    have hlex : lexRank (wordOf g gids Q1) = lexRank (wordOf g gids Q2) := by
      rw [← groupRank_eq_lexRank, ← groupRank_eq_lexRank]
      exact hinj
    calc wordOf g gids Q1
        = unrank (↑(wordOf g gids Q1)) (lexRank (wordOf g gids Q1)) :=
          (unrank_lexRank _).symm
      _ = unrank (↑(wordOf g gids Q2)) (lexRank (wordOf g gids Q2)) := by
          rw [hmul, hlex]
      _ = wordOf g gids Q2 := unrank_lexRank _
  · -- a group seen at most once: its word has at most one digit
    refine list_eq_of_coe_eq_length_le_one _ _ hmul ?_
    rw [wordOf_length gids Q1 g hL1]
    omega

/-- Unranking construction: every value below the permutation-count
product is hit by some choice of per-group words with the given digit
multisets. -/
theorem surj_aux : ∀ l : List ℕ, l.Nodup → ∀ (base : ℕ → List ℕ) (r : ℕ),
    r < ((l.map fun g => numPerms (↑(base g) : Multiset ℕ))).prod →
    ∃ f : ℕ → List ℕ,
      (∀ g, g ∉ l → f g = base g) ∧
      (∀ g, (↑(f g) : Multiset ℕ) = ↑(base g)) ∧
      List.foldl
        (fun acc g => acc * numPerms (↑(base g) : Multiset ℕ) + lexRank (f g))
        0 l = r := by
  intro l
  induction l with
  | nil =>
    intro _ base r hr
    simp at hr
    exact ⟨base, fun _ _ => rfl, fun _ => rfl, by simpa using hr.symm⟩
  | cons g gs ih =>
    intro hnd base r hr
    have hgnotin : g ∉ gs := (List.nodup_cons.mp hnd).1
    have hndgs : gs.Nodup := (List.nodup_cons.mp hnd).2
    have hP : 0 < ((gs.map fun x => numPerms (↑(base x) : Multiset ℕ))).prod := by
      refine List.prod_pos fun n hn => ?_
      obtain ⟨y, _, rfl⟩ := List.mem_map.mp hn
      exact numPerms_pos _
    rw [List.map_cons, List.prod_cons] at hr
    have hq : r / ((gs.map fun x => numPerms (↑(base x) : Multiset ℕ))).prod <
        numPerms (↑(base g) : Multiset ℕ) :=
      (Nat.div_lt_iff_lt_mul hP).mpr hr
    have hrem : r % ((gs.map fun x => numPerms (↑(base x) : Multiset ℕ))).prod <
        ((gs.map fun x => numPerms (↑(base x) : Multiset ℕ))).prod :=
      Nat.mod_lt _ hP
    obtain ⟨f', hout', hmul', hfold'⟩ := ih hndgs base _ hrem
    obtain ⟨hcoe, hlex⟩ := lexRank_unrank (↑(base g)) _ hq
    refine ⟨fun x => if x = g then
        unrank (↑(base g)) (r / ((gs.map fun x => numPerms (↑(base x) : Multiset ℕ))).prod)
      else f' x, ?_, ?_, ?_⟩
    · intro x hx
      dsimp only
      rw [if_neg (fun he : x = g => hx (he ▸ List.mem_cons_self _ _))]
      exact hout' x fun hmem => hx (List.mem_cons_of_mem _ hmem)
    · intro x
      dsimp only
      by_cases hx : x = g
      · subst hx
        rw [if_pos rfl]
        exact hcoe
      · rw [if_neg hx]
        exact hmul' x
    · rw [List.foldl_cons]
      dsimp only
      rw [if_pos rfl, hlex]
      have hcongr := foldl_mixed_congr
        (fun x => numPerms (↑(base x) : Multiset ℕ))
        (fun x => lexRank (if x = g then
          unrank (↑(base g))
            (r / ((gs.map fun x => numPerms (↑(base x) : Multiset ℕ))).prod)
          else f' x))
        (fun x => lexRank (f' x)) gs
        (0 * numPerms (↑(base g) : Multiset ℕ) +
          r / ((gs.map fun x => numPerms (↑(base x) : Multiset ℕ))).prod)
        (fun x hx => by
          have hxg : x ≠ g := fun he => hgnotin (he ▸ hx)
          show lexRank (if x = g then _ else f' x) = lexRank (f' x)
          rw [if_neg hxg])
      rw [hcongr, foldl_mixed_decompose, hfold']
      simp only [Nat.zero_mul, Nat.zero_add]
      rw [Nat.mul_comm]
      exact Nat.div_add_mod r _

/-- C2: for every pattern-counter state of the right length: a canonical
pattern (digits monotonically non-decreasing within each repeated group)
has getPermutationRank 0; every pattern's permutationRank is below
countPermutations; and on each equivalence class of per-group
permutations of one pattern, permutationRank is a bijection onto
[0, countPermutations). -/
theorem claim_C2 (pm : PatternManager) (P : List ℕ)
    (hP : P.length = pm.group_ids.length) :
    (canonicalPattern pm.group_ids P → permutationRank pm.group_ids P = 0) ∧
    permutationRank pm.group_ids P < countPermutations pm.group_ids P ∧
    Set.BijOn (permutationRank pm.group_ids) (patternClass pm.group_ids P)
      (Set.Iio (countPermutations pm.group_ids P)) := by
  refine ⟨permutationRank_eq_zero_of_canonical _ _,
    permutationRank_lt_countPermutations _ _, ?_, ?_, ?_⟩
  · intro Q hQ
    rw [Set.mem_Iio, ← countPermutations_congr pm.group_ids Q P hQ.2]
    exact permutationRank_lt_countPermutations _ _
  · intro Q1 h1 Q2 h2 h
    exact permutationRank_injOn pm.group_ids P hP Q1 h1 Q2 h2 h
  · intro r hr
    by_cases hrep : hasRepeats pm.group_ids
    · have hr' : r < ((repeatedGids pm.group_ids).map fun g =>
          numPerms (↑(wordOf g pm.group_ids P) : Multiset ℕ)).prod := by
        have := hr
        rwa [Set.mem_Iio, countPermutations, if_neg (by simpa using hrep)] at this
      obtain ⟨f, hout, hmul, hfold⟩ := surj_aux (repeatedGids pm.group_ids)
        (repeatedGids_nodup _) (fun g => wordOf g pm.group_ids P) r hr'
      have hflen : ∀ g, (f g).length = pm.group_ids.count g := by
        intro g
        have h1 : (f g).length = (wordOf g pm.group_ids P).length := by
          have := congrArg Multiset.card (hmul g)
          simpa using this
        rw [h1, wordOf_length _ _ _ hP]
      have hword : ∀ g, wordOf g pm.group_ids (placeWords pm.group_ids f) = f g :=
        wordOf_placeWords _ _ hflen
      refine ⟨placeWords pm.group_ids f, ⟨?_, ?_⟩, ?_⟩
      · rw [placeWords_length, hP]
      · intro g
        rw [hword g]
        exact hmul g
      · rw [permutationRank, if_neg (by simpa using hrep)]
        simp only [hword, groupRank_eq_lexRank, hmul]
        exact hfold
    · have hr0 : r = 0 := by
        have := hr
        rw [Set.mem_Iio, countPermutations, if_pos (by simpa using hrep)] at this
        omega
      subst hr0
      refine ⟨P, ⟨rfl, fun g => rfl⟩, ?_⟩
      rw [permutationRank, if_pos (by simpa using hrep)]

theorem claim_C2_witness :
    (([2, 1] : List ℕ).length = (PatternManager.mk [] 1 [1, 1]).group_ids.length) ∧
    ((canonicalPattern (PatternManager.mk [] 1 [1, 1]).group_ids [2, 1] →
        permutationRank (PatternManager.mk [] 1 [1, 1]).group_ids [2, 1] = 0) ∧
      permutationRank (PatternManager.mk [] 1 [1, 1]).group_ids [2, 1] <
        countPermutations (PatternManager.mk [] 1 [1, 1]).group_ids [2, 1] ∧
      Set.BijOn (permutationRank (PatternManager.mk [] 1 [1, 1]).group_ids)
        (patternClass (PatternManager.mk [] 1 [1, 1]).group_ids [2, 1])
        (Set.Iio (countPermutations (PatternManager.mk [] 1 [1, 1]).group_ids [2, 1]))) :=
  ⟨by decide, claim_C2 (PatternManager.mk [] 1 [1, 1]) [2, 1] (by decide)⟩

/-! ### Mixed-radix values (claim C3, part 1)

The pattern counter enumerates digit vectors in lexicographic (MSB
first) order; the order is the numeric value of the digits in the mixed
radix of the bases.  `valLsb` is the value of an LSB-first `(digit,
base)` pair list (the reversed layout walked by the increment and skip
loops); `patVal` is the value of an MSB-first digit list against an
MSB-first base list, and `fromVal` its inverse. -/

def valLsb : List (ℕ × ℕ) → ℕ
  | [] => 0
  | (d, b) :: rest => d + b * valLsb rest

def patValPairs : List (ℕ × ℕ) → ℕ
  | [] => 0
  | (d, _) :: rest => d * (rest.map Prod.snd).prod + patValPairs rest

def patVal : List ℕ → List ℕ → ℕ
  | _ :: bs, d :: ds => d * bs.prod + patVal bs ds
  | _, _ => 0

def fromVal : List ℕ → ℕ → List ℕ
  | [], _ => []
  | _ :: bs, v => v / bs.prod :: fromVal bs (v % bs.prod)

theorem patVal_lt : ∀ (bs ds : List ℕ), List.Forall₂ (· < ·) ds bs →
    patVal bs ds < bs.prod := by
  intro bs ds h
  induction h with
  | nil => exact Nat.zero_lt_one
  | cons hdb htail ih =>
    rename_i d b ds bs
    show d * bs.prod + patVal bs ds < b * bs.prod
    calc d * bs.prod + patVal bs ds < d * bs.prod + bs.prod := by omega
      _ = (d + 1) * bs.prod := by ring
      _ ≤ b * bs.prod := Nat.mul_le_mul_right _ (by omega)

theorem fromVal_forall₂ : ∀ (bs : List ℕ) (v : ℕ), (∀ b ∈ bs, 0 < b) →
    v < bs.prod → List.Forall₂ (· < ·) (fromVal bs v) bs := by
  intro bs
  induction bs with
  | nil => intro v _ _; exact List.Forall₂.nil
  | cons b bs ih =>
    intro v hb hv
    have hP : 0 < bs.prod :=
      List.prod_pos fun x hx => hb x (List.mem_cons_of_mem _ hx)
    refine List.Forall₂.cons ?_ (ih _ (fun x hx => hb x (List.mem_cons_of_mem _ hx))
      (Nat.mod_lt _ hP))
    rw [List.prod_cons] at hv
    exact (Nat.div_lt_iff_lt_mul hP).mpr (by omega)

theorem patVal_fromVal : ∀ (bs : List ℕ) (v : ℕ), (∀ b ∈ bs, 0 < b) →
    v < bs.prod → patVal bs (fromVal bs v) = v := by
  intro bs
  induction bs with
  | nil =>
    intro v _ hv
    simp at hv
    simp [patVal, fromVal, hv]
  | cons b bs ih =>
    intro v hb hv
    have hP : 0 < bs.prod :=
      List.prod_pos fun x hx => hb x (List.mem_cons_of_mem _ hx)
    show v / bs.prod * bs.prod + patVal bs (fromVal bs (v % bs.prod)) = v
    rw [ih _ (fun x hx => hb x (List.mem_cons_of_mem _ hx)) (Nat.mod_lt _ hP),
      Nat.mul_comm]
    exact Nat.div_add_mod v _

theorem fromVal_patVal : ∀ (bs ds : List ℕ), List.Forall₂ (· < ·) ds bs →
    fromVal bs (patVal bs ds) = ds := by
  intro bs ds h
  induction h with
  | nil => rfl
  | cons hdb htail ih =>
    rename_i d b ds bs
    have hr : patVal bs ds < bs.prod := patVal_lt bs ds htail
    have hP : 0 < bs.prod := by omega
    show (d * bs.prod + patVal bs ds) / bs.prod ::
        fromVal bs ((d * bs.prod + patVal bs ds) % bs.prod) = d :: ds
    rw [Nat.mul_comm d bs.prod, Nat.mul_add_div hP, Nat.div_eq_of_lt hr,
      Nat.mul_add_mod, Nat.mod_eq_of_lt hr, ih]
    simp

theorem patVal_inj (bs ds1 ds2 : List ℕ) (h1 : List.Forall₂ (· < ·) ds1 bs)
    (h2 : List.Forall₂ (· < ·) ds2 bs) (he : patVal bs ds1 = patVal bs ds2) :
    ds1 = ds2 := by
  rw [← fromVal_patVal bs ds1 h1, ← fromVal_patVal bs ds2 h2, he]

theorem valLsb_append (xs : List (ℕ × ℕ)) (d b : ℕ) :
    valLsb (xs ++ [(d, b)]) = valLsb xs + (xs.map Prod.snd).prod * d := by
  induction xs with
  | nil => simp [valLsb]
  | cons p xs ih =>
    obtain ⟨d0, b0⟩ := p
    show d0 + b0 * valLsb (xs ++ [(d, b)]) = d0 + b0 * valLsb xs +
      (b0 * (xs.map Prod.snd).prod) * d
    rw [ih]
    ring

theorem valLsb_reverse (l : List (ℕ × ℕ)) : valLsb l.reverse = patValPairs l := by
  induction l with
  | nil => rfl
  | cons p rest ih =>
    obtain ⟨d, b⟩ := p
    rw [List.reverse_cons, valLsb_append, ih, List.map_reverse, List.prod_reverse]
    show patValPairs rest + (rest.map Prod.snd).prod * d =
      d * (rest.map Prod.snd).prod + patValPairs rest
    ring

theorem patValPairs_zip : ∀ (ds bs : List ℕ), ds.length = bs.length →
    patValPairs (ds.zip bs) = patVal bs ds := by
  intro ds
  induction ds with
  | nil =>
    intro bs h
    have : bs = [] := List.length_eq_zero.mp h.symm
    subst this
    rfl
  | cons d ds ih =>
    intro bs h
    cases bs with
    | nil => simp at h
    | cons b bs =>
      have hlen : ds.length = bs.length := by simpa using h
      show d * ((ds.zip bs).map Prod.snd).prod + patValPairs (ds.zip bs) =
        d * bs.prod + patVal bs ds
      rw [List.map_snd_zip ds bs (le_of_eq hlen.symm), ih bs hlen]

theorem zipReverse : ∀ (l1 l2 : List ℕ), l1.length = l2.length →
    (l1.zip l2).reverse = l1.reverse.zip l2.reverse := by
  intro l1
  induction l1 with
  | nil =>
    intro l2 h
    have : l2 = [] := List.length_eq_zero.mp h.symm
    subst this
    rfl
  | cons a l1 ih =>
    intro l2 h
    cases l2 with
    | nil => simp at h
    | cons b l2 =>
      have hlen : l1.length = l2.length := by simpa using h
      rw [List.zip_cons_cons, List.reverse_cons, ih l2 hlen,
        List.reverse_cons, List.reverse_cons,
        List.zip_append (by simpa using hlen)]
      rfl

theorem zip_map_fst_snd_self (l : List (ℕ × ℕ)) :
    (l.map Prod.fst).zip (l.map Prod.snd) = l := by
  rw [List.zip_map']
  simp

/-! ### Increment and skip against the value (claim C3, part 2) -/

theorem valLsb_inj : ∀ (bs u1 u2 : List ℕ), List.Forall₂ (· < ·) u1 bs →
    List.Forall₂ (· < ·) u2 bs →
    valLsb (u1.zip bs) = valLsb (u2.zip bs) → u1 = u2 := by
  intro bs
  induction bs with
  | nil =>
    intro u1 u2 h1 h2 _
    rw [List.forall₂_nil_right_iff.mp h1, List.forall₂_nil_right_iff.mp h2]
  | cons b bs ih =>
    intro u1 u2 h1 h2 he
    rcases List.forall₂_cons_right_iff.mp h1 with ⟨d1, t1, hd1, ht1, rfl⟩
    rcases List.forall₂_cons_right_iff.mp h2 with ⟨d2, t2, hd2, ht2, rfl⟩
    have he' : d1 + b * valLsb (t1.zip bs) = d2 + b * valLsb (t2.zip bs) := he
    have hd : d1 = d2 := by
      have m1 : (d1 + b * valLsb (t1.zip bs)) % b = d1 := by
        rw [Nat.add_mul_mod_self_left, Nat.mod_eq_of_lt hd1]
      have m2 : (d2 + b * valLsb (t2.zip bs)) % b = d2 := by
        rw [Nat.add_mul_mod_self_left, Nat.mod_eq_of_lt hd2]
      rw [← m1, ← m2, he']
    have hv : valLsb (t1.zip bs) = valLsb (t2.zip bs) := by
      have hb : 0 < b := by omega
      subst hd
      exact Nat.eq_of_mul_eq_mul_left hb (by omega)
    rw [hd, ih t1 t2 ht1 ht2 hv]

theorem incLsb_spec : ∀ l : List (ℕ × ℕ), (∀ p ∈ l, p.1 < p.2) →
    (MixedRadixNumber.incLsb l = none → valLsb l + 1 = (l.map Prod.snd).prod) ∧
    ∀ t, MixedRadixNumber.incLsb l = some t →
      List.Forall₂ (· < ·) t (l.map Prod.snd) ∧
      valLsb (t.zip (l.map Prod.snd)) = valLsb l + 1 := by
  intro l
  induction l with
  | nil =>
    refine fun _ => ⟨fun _ => rfl, fun t ht => ?_⟩
    simp [MixedRadixNumber.incLsb] at ht
  | cons p rest ih =>
    intro h
    obtain ⟨d, b⟩ := p
    have hd : d < b := h (d, b) (List.mem_cons_self _ _)
    obtain ⟨ihn, ihs⟩ := ih fun q hq => h q (List.mem_cons_of_mem _ hq)
    by_cases hmax : b - 1 ≤ d
    · have hdb : d = b - 1 := by omega
      constructor
      · intro hn
        rw [MixedRadixNumber.incLsb, if_pos hmax] at hn
        have hrn : MixedRadixNumber.incLsb rest = none := by
          cases hr : MixedRadixNumber.incLsb rest with
          | none => rfl
          | some t => rw [hr] at hn; simp at hn
        have := ihn hrn
        show d + b * valLsb rest + 1 = b * (rest.map Prod.snd).prod
        rw [← this, Nat.mul_succ]
        omega
      · intro t ht
        rw [MixedRadixNumber.incLsb, if_pos hmax] at ht
        cases hr : MixedRadixNumber.incLsb rest with
        | none => rw [hr] at ht; simp at ht
        | some t' =>
          rw [hr] at ht
          simp at ht
          obtain ⟨hf', hv'⟩ := ihs t' hr
          subst ht
          refine ⟨List.Forall₂.cons (by omega) hf', ?_⟩
          show 0 + b * valLsb (t'.zip (rest.map Prod.snd)) =
            d + b * valLsb rest + 1
          rw [hv']
          have hb : 0 < b := by omega
          calc 0 + b * (valLsb rest + 1) = b * valLsb rest + b := by ring
            _ = d + b * valLsb rest + 1 := by omega
    · constructor
      · intro hn
        rw [MixedRadixNumber.incLsb, if_neg hmax] at hn
        simp at hn
      · intro t ht
        rw [MixedRadixNumber.incLsb, if_neg hmax] at ht
        simp at ht
        subst ht
        constructor
        · refine List.Forall₂.cons (by omega) ?_
          rw [List.forall₂_map_left_iff, List.forall₂_map_right_iff,
            List.forall₂_same]
          exact fun q hq => h q (List.mem_cons_of_mem _ hq)
        · show d + 1 + b * valLsb ((rest.map Prod.fst).zip (rest.map Prod.snd)) =
            d + b * valLsb rest + 1
          rw [zip_map_fst_snd_self]
          omega

theorem skipLsb_spec : ∀ l : List (ℕ × ℕ), (∀ p ∈ l, p.1 < p.2) →
    List.Forall₂ (· < ·) (MixedRadixNumber.skipLsb l) (l.map Prod.snd) ∧
    valLsb l ≤ valLsb ((MixedRadixNumber.skipLsb l).zip (l.map Prod.snd)) := by
  intro l
  induction l with
  | nil => exact fun _ => ⟨List.Forall₂.nil, le_refl _⟩
  | cons p rest ih =>
    intro h
    obtain ⟨d, b⟩ := p
    have hd : d < b := h (d, b) (List.mem_cons_self _ _)
    obtain ⟨ihf, ihv⟩ := ih fun q hq => h q (List.mem_cons_of_mem _ hq)
    rw [MixedRadixNumber.skipLsb]
    by_cases hd0 : d ≠ 0
    · rw [if_pos hd0]
      constructor
      · refine List.Forall₂.cons (by omega) ?_
        rw [List.forall₂_map_left_iff, List.forall₂_map_right_iff,
          List.forall₂_same]
        exact fun q hq => h q (List.mem_cons_of_mem _ hq)
      · show d + b * valLsb rest ≤
          b - 1 + b * valLsb ((rest.map Prod.fst).zip (rest.map Prod.snd))
        rw [zip_map_fst_snd_self]
        omega
    · rw [if_neg hd0]
      refine ⟨List.Forall₂.cons (by omega) ihf, ?_⟩
      show d + b * valLsb rest ≤
        b - 1 + b * valLsb ((MixedRadixNumber.skipLsb rest).zip (rest.map Prod.snd))
      have hle := Nat.mul_le_mul_left b ihv
      omega

theorem skipLsb_dominate : ∀ (l : List (ℕ × ℕ)) (u : List ℕ),
    (∀ p ∈ l, p.1 < p.2) → List.Forall₂ (· < ·) u (l.map Prod.snd) →
    valLsb l ≤ valLsb (u.zip (l.map Prod.snd)) →
    valLsb (u.zip (l.map Prod.snd)) ≤
      valLsb ((MixedRadixNumber.skipLsb l).zip (l.map Prod.snd)) →
    List.Forall₂ (· ≤ ·) (l.map Prod.fst) u := by
  intro l
  induction l with
  | nil =>
    intro u _ hu _ _
    rw [List.forall₂_nil_right_iff.mp hu]
    exact List.Forall₂.nil
  | cons p rest ih =>
    intro u h hu hlow hhigh
    obtain ⟨d, b⟩ := p
    have hd : d < b := h (d, b) (List.mem_cons_self _ _)
    have hrest : ∀ q ∈ rest, q.1 < q.2 := fun q hq => h q (List.mem_cons_of_mem _ hq)
    rcases List.forall₂_cons_right_iff.mp hu with ⟨u0, urest, hu0, hurest, rfl⟩
    have hlow' : d + b * valLsb rest ≤
        u0 + b * valLsb (urest.zip (rest.map Prod.snd)) := hlow
    rw [MixedRadixNumber.skipLsb] at hhigh
    by_cases hd0 : d ≠ 0
    · rw [if_pos hd0] at hhigh
      have hhigh' : u0 + b * valLsb (urest.zip (rest.map Prod.snd)) ≤
          b - 1 + b * valLsb ((rest.map Prod.fst).zip (rest.map Prod.snd)) := hhigh
      rw [zip_map_fst_snd_self] at hhigh'
      -- the remaining digits are forced to coincide with the state's
      have hvle : valLsb (urest.zip (rest.map Prod.snd)) ≤ valLsb rest := by
        by_contra hgt
        push_neg at hgt
        have := Nat.mul_le_mul_left b hgt
        rw [Nat.mul_succ] at this
        omega
      have hveq : valLsb (urest.zip (rest.map Prod.snd)) = valLsb rest := by
        rcases Nat.lt_or_ge (valLsb (urest.zip (rest.map Prod.snd))) (valLsb rest)
          with hlt | hge
        · exfalso
          have := Nat.mul_le_mul_left b hlt
          rw [Nat.mul_succ] at this
          omega
        · omega
      have hfr : List.Forall₂ (· < ·) (rest.map Prod.fst) (rest.map Prod.snd) := by
        rw [List.forall₂_map_left_iff, List.forall₂_map_right_iff,
          List.forall₂_same]
        exact hrest
      have hueq : urest = rest.map Prod.fst := by
        refine valLsb_inj (rest.map Prod.snd) _ _ hurest hfr ?_
        rw [hveq, zip_map_fst_snd_self]
      rw [hveq] at hlow'
      refine List.Forall₂.cons (by omega) ?_
      rw [hueq]
      exact List.forall₂_same.mpr fun x _ => le_refl x
    · rw [if_neg hd0] at hhigh
      push_neg at hd0
      subst hd0
      have hhigh' : u0 + b * valLsb (urest.zip (rest.map Prod.snd)) ≤
          b - 1 + b * valLsb ((MixedRadixNumber.skipLsb rest).zip
            (rest.map Prod.snd)) := hhigh
      have hvlow : valLsb rest ≤ valLsb (urest.zip (rest.map Prod.snd)) := by
        by_contra hgt
        push_neg at hgt
        have := Nat.mul_le_mul_left b hgt
        rw [Nat.mul_succ] at this
        omega
      have hvhigh : valLsb (urest.zip (rest.map Prod.snd)) ≤
          valLsb ((MixedRadixNumber.skipLsb rest).zip (rest.map Prod.snd)) := by
        by_contra hgt
        push_neg at hgt
        have := Nat.mul_le_mul_left b hgt
        rw [Nat.mul_succ] at this
        omega
      exact List.Forall₂.cons (Nat.zero_le _) (ih urest hrest hurest hvlow hvhigh)

/-! ### Counter steps at the level of values (claim C3, part 3) -/

theorem lsbList_mem (ds bs : List ℕ) (h : List.Forall₂ (· < ·) ds bs) :
    ∀ p ∈ (ds.zip bs).reverse, p.1 < p.2 := by
  intro p hp
  rw [List.mem_reverse] at hp
  obtain ⟨a, b⟩ := p
  exact (List.forall₂_iff_zip.mp h).2 hp

theorem lsbList_map_snd (ds bs : List ℕ) (h : ds.length = bs.length) :
    ((ds.zip bs).reverse).map Prod.snd = bs.reverse := by
  rw [List.map_reverse, List.map_snd_zip ds bs (le_of_eq h.symm)]

theorem lsbList_map_fst (ds bs : List ℕ) (h : ds.length = bs.length) :
    ((ds.zip bs).reverse).map Prod.fst = ds.reverse := by
  rw [List.map_reverse, List.map_fst_zip ds bs (le_of_eq h)]

theorem lsbList_val (ds bs : List ℕ) (h : ds.length = bs.length) :
    valLsb ((ds.zip bs).reverse) = patVal bs ds := by
  rw [valLsb_reverse, patValPairs_zip ds bs h]

theorem valLsb_zip_reverse (t bs : List ℕ) (h : t.length = bs.length) :
    valLsb (t.zip bs.reverse) = patVal bs t.reverse := by
  have h2 : t.reverse.length = bs.length := by simpa using h
  have e : (t.reverse.zip bs).reverse = t.zip bs.reverse := by
    rw [zipReverse _ _ h2, List.reverse_reverse]
  rw [← e, lsbList_val t.reverse bs h2]

theorem forall₂_lt_of_rev (t bs : List ℕ)
    (h : List.Forall₂ (· < ·) t bs.reverse) :
    List.Forall₂ (· < ·) t.reverse bs := by
  have : List.Forall₂ (· < ·) t.reverse.reverse bs.reverse := by
    rw [List.reverse_reverse]
    exact h
  exact List.forall₂_reverse_iff.mp this

/-- `increment` is the value successor: `none` exactly at the last
state, otherwise the digits of value + 1. -/
theorem increment_spec (m : MixedRadixNumber)
    (h : List.Forall₂ (· < ·) m.digits m.bases) :
    (m.increment = none → patVal m.bases m.digits + 1 = m.bases.prod) ∧
    ∀ m', m.increment = some m' → m'.bases = m.bases ∧
      List.Forall₂ (· < ·) m'.digits m.bases ∧
      patVal m.bases m'.digits = patVal m.bases m.digits + 1 := by
  have hlen : m.digits.length = m.bases.length := h.length_eq
  obtain ⟨hn, hs⟩ := incLsb_spec ((m.digits.zip m.bases).reverse) (lsbList_mem _ _ h)
  have hsnd := lsbList_map_snd m.digits m.bases hlen
  have hval := lsbList_val m.digits m.bases hlen
  constructor
  · intro hnone
    rw [MixedRadixNumber.increment, Option.map_eq_none'] at hnone
    have h2 := hn hnone
    rwa [hval, hsnd, List.prod_reverse] at h2
  · intro m' hsome
    rw [MixedRadixNumber.increment, Option.map_eq_some'] at hsome
    obtain ⟨t, hti, htf⟩ := hsome
    obtain ⟨hf2, hv2⟩ := hs t hti
    rw [hsnd] at hf2 hv2
    have htlen : t.length = m.bases.length := by simpa using hf2.length_eq
    subst htf
    refine ⟨rfl, forall₂_lt_of_rev t m.bases hf2, ?_⟩
    rw [valLsb_zip_reverse t m.bases htlen, hval] at hv2
    exact hv2

/-- `intelligentSkip` against the value order: there is a skip target
value `w` at least the current value such that every state with value
in the closed interval dominates the current digits componentwise, the
call overflows exactly when `w` is the last value, and otherwise lands
on the digits of `w + 1`. -/
theorem intelligentSkip_spec (m : MixedRadixNumber)
    (h : List.Forall₂ (· < ·) m.digits m.bases) :
    ∃ w : ℕ, patVal m.bases m.digits ≤ w ∧ w < m.bases.prod ∧
      (∀ u : List ℕ, List.Forall₂ (· < ·) u m.bases →
        patVal m.bases m.digits ≤ patVal m.bases u → patVal m.bases u ≤ w →
        List.Forall₂ (· ≤ ·) m.digits u) ∧
      (m.intelligentSkip = none → w + 1 = m.bases.prod) ∧
      ∀ m', m.intelligentSkip = some m' → m'.bases = m.bases ∧
        List.Forall₂ (· < ·) m'.digits m.bases ∧
        patVal m.bases m'.digits = w + 1 := by
  have hlen : m.digits.length = m.bases.length := h.length_eq
  have hmem := lsbList_mem _ _ h
  obtain ⟨hsf, hsv⟩ := skipLsb_spec ((m.digits.zip m.bases).reverse) hmem
  have hsnd := lsbList_map_snd m.digits m.bases hlen
  have hfst := lsbList_map_fst m.digits m.bases hlen
  have hval := lsbList_val m.digits m.bases hlen
  rw [hsnd] at hsf hsv
  have htlen : (MixedRadixNumber.skipLsb ((m.digits.zip m.bases).reverse)).length =
      m.bases.length := by simpa using hsf.length_eq
  have hMf : List.Forall₂ (· < ·)
      (MixedRadixNumber.skipLsb ((m.digits.zip m.bases).reverse)).reverse m.bases :=
    forall₂_lt_of_rev _ m.bases hsf
  refine ⟨patVal m.bases
    (MixedRadixNumber.skipLsb ((m.digits.zip m.bases).reverse)).reverse,
    ?_, patVal_lt _ _ hMf, ?_, ?_, ?_⟩
  · rwa [hval, valLsb_zip_reverse _ m.bases htlen] at hsv
  · intro u huf hul huh
    have hulen : u.length = m.bases.length := huf.length_eq
    have hurevlen : u.reverse.length = m.bases.length := by simpa using hulen
    have hurf : List.Forall₂ (· < ·) u.reverse m.bases.reverse :=
      List.forall₂_reverse_iff.mpr huf
    have hdom := skipLsb_dominate ((m.digits.zip m.bases).reverse) u.reverse hmem
      (by rwa [hsnd]) ?_ ?_
    · rw [hfst] at hdom
      exact List.forall₂_reverse_iff.mp hdom
    · rw [hval, hsnd, valLsb_zip_reverse u.reverse m.bases hurevlen,
        List.reverse_reverse]
      exact hul
    · rw [hsnd, valLsb_zip_reverse u.reverse m.bases hurevlen,
        valLsb_zip_reverse _ m.bases htlen, List.reverse_reverse]
      exact huh
  · intro hnone
    obtain ⟨hin, _⟩ := increment_spec
      ⟨m.bases, (MixedRadixNumber.skipLsb ((m.digits.zip m.bases).reverse)).reverse⟩ hMf
    exact hin hnone
  · intro m' hsome
    obtain ⟨_, his⟩ := increment_spec
      ⟨m.bases, (MixedRadixNumber.skipLsb ((m.digits.zip m.bases).reverse)).reverse⟩ hMf
    exact his m' hsome

/-! ### Pattern enumeration (claim C3, part 4)

`Structure::generatePatterns` walks the pattern counter from the
all-zero state: a state below the cutoff is skipped over with
`intelligentSkip`, a state at or above it is printed when it is a first
permutation and stepped past with `increment`.  The loop is modelled
with fuel (one unit per loop iteration; the counter value grows by at
least one each iteration, so the number of states suffices). -/

/-- One output line of `generatePatterns`: probability, total count
(strings × permutations), first string. -/
def patternLine (pm : PatternManager) (ds : List ℕ) : ℚ × ℕ × BStr :=
  (pm.patternProbability ds,
   pm.countStrings ds * countPermutations pm.group_ids ds,
   pm.firstStringOfPattern ds)

/-- The `while (patterns_left)` loop of `Structure::generatePatterns`. -/
def genLoop (pm : PatternManager) (cutoff : ℚ) : ℕ → MixedRadixNumber →
    List (ℚ × ℕ × BStr)
  | 0, _ => []
  | fuel + 1, m =>
    if pm.patternProbability m.digits < cutoff then
      match m.intelligentSkip with
      | none => []
      | some m2 => genLoop pm cutoff fuel m2
    else
      (if isFirstPermutation pm.group_ids m.digits then [patternLine pm m.digits]
        else []) ++
      match m.increment with
      | none => []
      | some m2 => genLoop pm cutoff fuel m2

/-- `Structure::generatePatterns`: run the loop from the all-zero
counter over the bases `countTerminalGroups` per position. -/
def StructureM.generatePatterns (S : StructureM) (cutoff : ℚ) :
    List (ℚ × ℕ × BStr) :=
  genLoop S.patternManager cutoff
    ((S.nonterminals.map Nonterminal.countTerminalGroups).prod)
    ⟨S.nonterminals.map Nonterminal.countTerminalGroups,
      (S.nonterminals.map Nonterminal.countTerminalGroups).map fun _ => 0⟩

theorem bases_pos_of_forall₂ : ∀ (ds bs : List ℕ),
    List.Forall₂ (· < ·) ds bs → ∀ b ∈ bs, 0 < b := by
  intro ds bs h
  induction h with
  | nil => intro b hb; simp at hb
  | cons hdb _ ih =>
    intro x hx
    rcases List.mem_cons.mp hx with rfl | hx1
    · omega
    · exact ih x hx1

theorem patVal_zeros : ∀ bs : List ℕ, patVal bs (bs.map fun _ => 0) = 0 := by
  intro bs
  induction bs with
  | nil => rfl
  | cons b bs ih =>
    show 0 * bs.prod + patVal bs (bs.map fun _ => 0) = 0
    rw [ih]
    omega

theorem mem_range1 (s n x : ℕ) : x ∈ List.range' s n ↔ s ≤ x ∧ x < s + n := by
  rw [List.mem_range']
  constructor
  · rintro ⟨i, hi, rfl⟩
    omega
  · intro h
    exact ⟨x - s, by omega, by omega⟩

/-- The per-position probability product is non-negative and antitone
in the digits (terminal groups are ordered by descending probability). -/
theorem prodProb_anti : ∀ (nts : List Nonterminal) (ds1 ds2 : List ℕ),
    (∀ nt ∈ nts, ∀ i, 0 ≤ nt.getProbabilityOfGroup i) →
    (∀ nt ∈ nts, ∀ i j, i ≤ j →
      nt.getProbabilityOfGroup j ≤ nt.getProbabilityOfGroup i) →
    List.Forall₂ (· ≤ ·) ds1 ds2 →
    0 ≤ ((nts.zip ds2).map fun p => p.1.getProbabilityOfGroup p.2).prod ∧
    ((nts.zip ds2).map fun p => p.1.getProbabilityOfGroup p.2).prod ≤
      ((nts.zip ds1).map fun p => p.1.getProbabilityOfGroup p.2).prod := by
  intro nts
  induction nts with
  | nil => intro ds1 ds2 _ _ _; constructor <;> simp
  | cons nt nts ih =>
    intro ds1 ds2 hnn hmono h12
    cases h12 with
    | nil => constructor <;> simp
    | cons hd htail =>
      rename_i d1 d2 tl1 tl2
      obtain ⟨ht0, htle⟩ := ih tl1 tl2
        (fun x hx => hnn x (List.mem_cons_of_mem _ hx))
        (fun x hx => hmono x (List.mem_cons_of_mem _ hx)) htail
      have h2 : 0 ≤ nt.getProbabilityOfGroup d2 :=
        hnn nt (List.mem_cons_self _ _) d2
      have h1 : 0 ≤ nt.getProbabilityOfGroup d1 :=
        hnn nt (List.mem_cons_self _ _) d1
      have h21 : nt.getProbabilityOfGroup d2 ≤ nt.getProbabilityOfGroup d1 :=
        hmono nt (List.mem_cons_self _ _) d1 d2 hd
      rw [List.zip_cons_cons, List.zip_cons_cons, List.map_cons, List.map_cons,
        List.prod_cons, List.prod_cons]
      exact ⟨mul_nonneg h2 ht0, mul_le_mul h21 htle ht0 h1⟩

theorem patternProbability_anti (pm : PatternManager)
    (hbase : 0 ≤ pm.base_probability)
    (hnn : ∀ nt ∈ pm.nonterminals, ∀ i, 0 ≤ nt.getProbabilityOfGroup i)
    (hmono : ∀ nt ∈ pm.nonterminals, ∀ i j, i ≤ j →
      nt.getProbabilityOfGroup j ≤ nt.getProbabilityOfGroup i)
    (ds1 ds2 : List ℕ) (h12 : List.Forall₂ (· ≤ ·) ds1 ds2) :
    pm.patternProbability ds2 ≤ pm.patternProbability ds1 := by
  unfold PatternManager.patternProbability
  exact mul_le_mul_of_nonneg_left
    (prodProb_anti pm.nonterminals ds1 ds2 hnn hmono h12).2 hbase

/-- The enumeration loop emits exactly the filtered suffix of the state
space from the current counter value on. -/
theorem genLoop_spec (pm : PatternManager) (cutoff : ℚ) (bs : List ℕ)
    (hbase : 0 ≤ pm.base_probability)
    (hnn : ∀ nt ∈ pm.nonterminals, ∀ i, 0 ≤ nt.getProbabilityOfGroup i)
    (hmono : ∀ nt ∈ pm.nonterminals, ∀ i j, i ≤ j →
      nt.getProbabilityOfGroup j ≤ nt.getProbabilityOfGroup i) :
    ∀ (fuel : ℕ) (m : MixedRadixNumber), m.bases = bs →
      List.Forall₂ (· < ·) m.digits bs →
      bs.prod - patVal bs m.digits ≤ fuel →
      genLoop pm cutoff fuel m =
        (((List.range' (patVal bs m.digits) (bs.prod - patVal bs m.digits)).map
          (fromVal bs)).filter fun ds =>
            decide (cutoff ≤ pm.patternProbability ds) &&
              isFirstPermutation pm.group_ids ds).map (patternLine pm) := by
  intro fuel
  induction fuel with
  | zero =>
    intro m hmb hf hfuel
    exfalso
    have := patVal_lt bs m.digits hf
    omega
  | succ fuel ih =>
    intro m hmb hf hfuel
    subst hmb
    have hpos : ∀ b ∈ m.bases, 0 < b := bases_pos_of_forall₂ _ _ hf
    have hvlt : patVal m.bases m.digits < m.bases.prod := patVal_lt _ _ hf
    by_cases hcut : pm.patternProbability m.digits < cutoff
    · rw [genLoop, if_pos hcut]
      obtain ⟨w, hw1, hw2, hdom, hskipn, hskips⟩ := intelligentSkip_spec m hf
      have hsplit : List.range' (patVal m.bases m.digits)
          (m.bases.prod - patVal m.bases m.digits) =
          List.range' (patVal m.bases m.digits)
            (w + 1 - patVal m.bases m.digits) ++
          List.range' (w + 1) (m.bases.prod - (w + 1)) := by
        have h := List.range'_append_1 (patVal m.bases m.digits)
          (w + 1 - patVal m.bases m.digits) (m.bases.prod - (w + 1))
        rw [show patVal m.bases m.digits + (w + 1 - patVal m.bases m.digits) =
          w + 1 from by omega] at h
        rw [show m.bases.prod - (w + 1) + (w + 1 - patVal m.bases m.digits) =
          m.bases.prod - patVal m.bases m.digits from by omega] at h
        exact h.symm
      have hfilter1 : (((List.range' (patVal m.bases m.digits)
          (w + 1 - patVal m.bases m.digits)).map (fromVal m.bases)).filter
            fun ds => decide (cutoff ≤ pm.patternProbability ds) &&
              isFirstPermutation pm.group_ids ds) = [] := by
        rw [List.filter_eq_nil_iff]
        intro ds hds
        rw [List.mem_map] at hds
        obtain ⟨x, hx, rfl⟩ := hds
        rw [mem_range1] at hx
        have hxlt : x < m.bases.prod := by omega
        have hufa : List.Forall₂ (· < ·) (fromVal m.bases x) m.bases :=
          fromVal_forall₂ _ _ hpos hxlt
        have hxval : patVal m.bases (fromVal m.bases x) = x :=
          patVal_fromVal _ _ hpos hxlt
        have hdomx := hdom (fromVal m.bases x) hufa
          (by rw [hxval]; omega) (by rw [hxval]; omega)
        have hple := patternProbability_anti pm hbase hnn hmono
          m.digits (fromVal m.bases x) hdomx
        simp only [Bool.and_eq_true, decide_eq_true_eq, not_and]
        intro hc
        exact absurd (lt_of_le_of_lt hple hcut) (not_lt.mpr hc)
      rw [hsplit, List.map_append, List.filter_append, hfilter1, List.map_append]
      cases hskip : m.intelligentSkip with
      | none =>
        have hw3 := hskipn hskip
        rw [show m.bases.prod - (w + 1) = 0 from by omega]
        simp
      | some m2 =>
        obtain ⟨hb2, hf2, hv2⟩ := hskips m2 hskip
        have hlt2 : w + 1 < m.bases.prod := by
          have := patVal_lt m.bases m2.digits hf2
          omega
        dsimp only
        rw [ih m2 hb2 hf2 (by omega), hv2]
        simp
    · rw [genLoop, if_neg hcut]
      rw [show m.bases.prod - patVal m.bases m.digits =
        (m.bases.prod - (patVal m.bases m.digits + 1)) + 1 from by omega,
        List.range'_succ, List.map_cons, List.filter_cons]
      rw [fromVal_patVal m.bases m.digits hf]
      rw [decide_eq_true (not_lt.mp hcut), Bool.true_and]
      obtain ⟨hincn, hincs⟩ := increment_spec m hf
      cases hinc : m.increment with
      | none =>
        have hT := hincn hinc
        rw [show m.bases.prod - (patVal m.bases m.digits + 1) = 0 from by omega]
        cases hfp : isFirstPermutation pm.group_ids m.digits <;> simp [genLoop]
      | some m2 =>
        obtain ⟨hb2, hf2, hv2⟩ := hincs m2 hinc
        have hlt2 : patVal m.bases m2.digits ≤ m.bases.prod :=
          le_of_lt (patVal_lt m.bases m2.digits hf2)
        dsimp only
        rw [ih m2 hb2 hf2 (by omega), hv2]
        cases hfp : isFirstPermutation pm.group_ids m.digits <;> simp [patternLine]

/-- C3: for a structure whose nonterminals each have at least one
terminal group, groups ordered by descending non-negative probability
and a non-negative structure probability, generatePatterns(cutoff)
emits exactly one line — probability, stringsInPattern ×
permutationCount, first string — for each canonical (first-permutation)
pattern with probability ≥ cutoff, in counter order, and no line for
non-canonical or below-cutoff patterns: the output equals the
enumeration of all pattern states filtered to canonical above-cutoff
ones, where the enumeration lists each pattern state exactly once. -/
theorem claim_C3 (S : StructureM) (cutoff : ℚ)
    (hpos : ∀ nt ∈ S.nonterminals, 0 < nt.countTerminalGroups)
    (hbase : 0 ≤ S.probability)
    (hnn : ∀ nt ∈ S.nonterminals, ∀ i, 0 ≤ nt.getProbabilityOfGroup i)
    (hmono : ∀ nt ∈ S.nonterminals, ∀ i j, i ≤ j →
      nt.getProbabilityOfGroup j ≤ nt.getProbabilityOfGroup i) :
    S.generatePatterns cutoff =
      (((List.range ((S.nonterminals.map Nonterminal.countTerminalGroups).prod)).map
        (fromVal (S.nonterminals.map Nonterminal.countTerminalGroups))).filter
          fun ds => decide (cutoff ≤ S.patternManager.patternProbability ds) &&
            isFirstPermutation S.patternManager.group_ids ds).map
        (patternLine S.patternManager) ∧
    (∀ ds, (ds ∈ (List.range
        ((S.nonterminals.map Nonterminal.countTerminalGroups).prod)).map
        (fromVal (S.nonterminals.map Nonterminal.countTerminalGroups)) ↔
      List.Forall₂ (· < ·) ds
        (S.nonterminals.map Nonterminal.countTerminalGroups))) ∧
    ((List.range ((S.nonterminals.map Nonterminal.countTerminalGroups).prod)).map
      (fromVal (S.nonterminals.map Nonterminal.countTerminalGroups))).Nodup := by
  have hbpos : ∀ b ∈ S.nonterminals.map Nonterminal.countTerminalGroups, 0 < b := by
    intro b hb
    rw [List.mem_map] at hb
    obtain ⟨nt, hnt, rfl⟩ := hb
    exact hpos nt hnt
  refine ⟨?_, ?_, ?_⟩
  · have hzf : List.Forall₂ (· < ·)
        ((S.nonterminals.map Nonterminal.countTerminalGroups).map fun _ => 0)
        (S.nonterminals.map Nonterminal.countTerminalGroups) := by
      rw [List.forall₂_map_left_iff]
      exact List.forall₂_same.mpr fun b hb => hbpos b hb
    have h := genLoop_spec S.patternManager cutoff
      (S.nonterminals.map Nonterminal.countTerminalGroups) hbase hnn hmono
      ((S.nonterminals.map Nonterminal.countTerminalGroups).prod)
      ⟨S.nonterminals.map Nonterminal.countTerminalGroups,
        (S.nonterminals.map Nonterminal.countTerminalGroups).map fun _ => 0⟩
      rfl hzf (by rw [patVal_zeros]; omega)
    rw [patVal_zeros, Nat.sub_zero, ← List.range_eq_range'] at h
    exact h
  · intro ds
    constructor
    · intro hds
      rw [List.mem_map] at hds
      obtain ⟨x, hx, rfl⟩ := hds
      exact fromVal_forall₂ _ _ hbpos (List.mem_range.mp hx)
    · intro hds
      rw [List.mem_map]
      exact ⟨patVal (S.nonterminals.map Nonterminal.countTerminalGroups) ds,
        List.mem_range.mpr (patVal_lt _ _ hds), fromVal_patVal _ _ hds⟩
  · refine List.Nodup.map_on ?_ (List.nodup_range _)
    intro x hx y hy hxy
    rw [← patVal_fromVal (S.nonterminals.map Nonterminal.countTerminalGroups) x
        hbpos (List.mem_range.mp hx),
      ← patVal_fromVal (S.nonterminals.map Nonterminal.countTerminalGroups) y
        hbpos (List.mem_range.mp hy), hxy]

theorem claim_C3_witness :
    ((∀ nt ∈ (StructureM.mk 1 [] [Nonterminal.mk [76] [TGroup.seen [[97]] 1]]).nonterminals,
      0 < nt.countTerminalGroups) ∧
     (0 : ℚ) ≤ (StructureM.mk 1 [] [Nonterminal.mk [76] [TGroup.seen [[97]] 1]]).probability ∧
     (∀ nt ∈ (StructureM.mk 1 [] [Nonterminal.mk [76] [TGroup.seen [[97]] 1]]).nonterminals,
      ∀ i, 0 ≤ nt.getProbabilityOfGroup i) ∧
     (∀ nt ∈ (StructureM.mk 1 [] [Nonterminal.mk [76] [TGroup.seen [[97]] 1]]).nonterminals,
      ∀ i j, i ≤ j → nt.getProbabilityOfGroup j ≤ nt.getProbabilityOfGroup i)) ∧
    ((StructureM.mk 1 [] [Nonterminal.mk [76] [TGroup.seen [[97]] 1]]).generatePatterns 0 =
      (((List.range (((StructureM.mk 1 [] [Nonterminal.mk [76] [TGroup.seen [[97]] 1]]).nonterminals.map
          Nonterminal.countTerminalGroups).prod)).map
        (fromVal ((StructureM.mk 1 [] [Nonterminal.mk [76] [TGroup.seen [[97]] 1]]).nonterminals.map
          Nonterminal.countTerminalGroups))).filter
          fun ds => decide ((0 : ℚ) ≤
              (StructureM.mk 1 [] [Nonterminal.mk [76] [TGroup.seen [[97]] 1]]).patternManager.patternProbability ds) &&
            isFirstPermutation
              (StructureM.mk 1 [] [Nonterminal.mk [76] [TGroup.seen [[97]] 1]]).patternManager.group_ids ds).map
        (patternLine (StructureM.mk 1 [] [Nonterminal.mk [76] [TGroup.seen [[97]] 1]]).patternManager) ∧
    (∀ ds, (ds ∈ (List.range
        (((StructureM.mk 1 [] [Nonterminal.mk [76] [TGroup.seen [[97]] 1]]).nonterminals.map
          Nonterminal.countTerminalGroups).prod)).map
        (fromVal ((StructureM.mk 1 [] [Nonterminal.mk [76] [TGroup.seen [[97]] 1]]).nonterminals.map
          Nonterminal.countTerminalGroups)) ↔
      List.Forall₂ (· < ·) ds
        ((StructureM.mk 1 [] [Nonterminal.mk [76] [TGroup.seen [[97]] 1]]).nonterminals.map
          Nonterminal.countTerminalGroups))) ∧
    ((List.range (((StructureM.mk 1 [] [Nonterminal.mk [76] [TGroup.seen [[97]] 1]]).nonterminals.map
        Nonterminal.countTerminalGroups).prod)).map
      (fromVal ((StructureM.mk 1 [] [Nonterminal.mk [76] [TGroup.seen [[97]] 1]]).nonterminals.map
        Nonterminal.countTerminalGroups))).Nodup) := by
  have h1 : ∀ nt ∈ (StructureM.mk 1 [] [Nonterminal.mk [76]
      [TGroup.seen [[97]] 1]]).nonterminals, 0 < nt.countTerminalGroups := by
    decide
  have h2 : (0 : ℚ) ≤ (StructureM.mk 1 [] [Nonterminal.mk [76]
      [TGroup.seen [[97]] 1]]).probability := by
    norm_num
  have h3 : ∀ nt ∈ (StructureM.mk 1 [] [Nonterminal.mk [76]
      [TGroup.seen [[97]] 1]]).nonterminals, ∀ i,
      0 ≤ nt.getProbabilityOfGroup i := by
    intro nt hnt i
    have hnt' : nt = Nonterminal.mk [76] [TGroup.seen [[97]] 1] := by
      simpa using hnt
    subst hnt'
    cases i with
    | zero => norm_num [Nonterminal.getProbabilityOfGroup, TGroup.probability]
    | succ n =>
      simp [Nonterminal.getProbabilityOfGroup, TGroup.probability, List.getD]
  have h4 : ∀ nt ∈ (StructureM.mk 1 [] [Nonterminal.mk [76]
      [TGroup.seen [[97]] 1]]).nonterminals, ∀ i j, i ≤ j →
      nt.getProbabilityOfGroup j ≤ nt.getProbabilityOfGroup i := by
    intro nt hnt i j hij
    have hnt' : nt = Nonterminal.mk [76] [TGroup.seen [[97]] 1] := by
      simpa using hnt
    subst hnt'
    cases j with
    | zero =>
      have : i = 0 := by omega
      subst this
      exact le_refl _
    | succ n =>
      cases i with
      | zero =>
        norm_num [Nonterminal.getProbabilityOfGroup, TGroup.probability,
          List.getD]
      | succ k =>
        simp [Nonterminal.getProbabilityOfGroup, TGroup.probability, List.getD]
  exact ⟨⟨h1, h2, h3, h4⟩,
    claim_C3 (StructureM.mk 1 [] [Nonterminal.mk [76] [TGroup.seen [[97]] 1]]) 0
      h1 h2 h3 h4⟩

/-! ### The first-permutation test as sortedness (claim C7, part 1) -/

/-- The group word read off a pair list (the zipped form walked by
`checkFirstPermutation`). -/
def wordOfPairs (g : ℕ) (pairs : List (ℕ × ℕ)) : List ℕ :=
  pairs.filterMap fun p => if p.1 = g then some p.2 else none

/-- Prepend the last-seen digit, when there is one. -/
def consOpt (o : Option ℕ) (l : List ℕ) : List ℕ :=
  match o with
  | some prev => prev :: l
  | none => l

theorem wordOfPairs_cons (g g0 d : ℕ) (rest : List (ℕ × ℕ)) :
    wordOfPairs g ((g0, d) :: rest) =
      if g0 = g then d :: wordOfPairs g rest else wordOfPairs g rest := by
  unfold wordOfPairs
  rw [List.filterMap_cons]
  by_cases h : g0 = g <;> simp [h]

theorem checkFPAux_iff (gids : List ℕ) :
    ∀ (pairs : List (ℕ × ℕ)) (lastMap : ℕ → Option ℕ),
    checkFPAux gids pairs lastMap = true ↔
    ∀ g, 1 < gids.count g →
      List.Chain' (· ≤ ·) (consOpt (lastMap g) (wordOfPairs g pairs)) := by
  intro pairs
  induction pairs with
  | nil =>
    intro lastMap
    constructor
    · intro _ g _
      cases h : lastMap g <;> simp [consOpt, wordOfPairs]
    · intro _
      rfl
  | cons p rest ih =>
    intro lastMap
    obtain ⟨g0, d⟩ := p
    rw [checkFPAux]
    by_cases hrep : 1 < gids.count g0
    · rw [if_pos hrep]
      cases hml : lastMap g0 with
      | some prev =>
        dsimp only
        by_cases hlt : d < prev
        · rw [if_pos hlt]
          constructor
          · intro h
            simp at h
          · intro h
            exfalso
            have := h g0 hrep
            rw [hml, wordOfPairs_cons, if_pos rfl] at this
            have := (List.chain'_cons.mp this).1
            omega
        · rw [if_neg hlt]
          rw [ih]
          constructor
          · intro h g hg
            by_cases hgg : g = g0
            · subst hgg
              have := h g hg
              rw [if_pos rfl] at this
              rw [hml, wordOfPairs_cons, if_pos rfl]
              exact List.chain'_cons.mpr ⟨by omega, this⟩
            · have := h g hg
              rw [if_neg hgg] at this
              rw [wordOfPairs_cons, if_neg (fun he => hgg he.symm)]
              exact this
          · intro h g hg
            by_cases hgg : g = g0
            · subst hgg
              have := h g hg
              rw [hml, wordOfPairs_cons, if_pos rfl] at this
              rw [if_pos rfl]
              exact (List.chain'_cons.mp this).2
            · have := h g hg
              rw [wordOfPairs_cons, if_neg (fun he => hgg he.symm)] at this
              rw [if_neg hgg]
              exact this
      | none =>
        dsimp only
        rw [ih]
        constructor
        · intro h g hg
          by_cases hgg : g = g0
          · subst hgg
            have := h g hg
            rw [if_pos rfl] at this
            rw [hml, wordOfPairs_cons, if_pos rfl]
            exact this
          · have := h g hg
            rw [if_neg hgg] at this
            rw [wordOfPairs_cons, if_neg (fun he => hgg he.symm)]
            exact this
        · intro h g hg
          by_cases hgg : g = g0
          · subst hgg
            have := h g hg
            rw [hml, wordOfPairs_cons, if_pos rfl] at this
            rw [if_pos rfl]
            exact this
          · have := h g hg
            rw [wordOfPairs_cons, if_neg (fun he => hgg he.symm)] at this
            rw [if_neg hgg]
            exact this
    · rw [if_neg hrep]
      rw [ih]
      constructor
      · intro h g hg
        have hgg : ¬ (g0 = g) := fun he => hrep (he ▸ hg)
        rw [wordOfPairs_cons, if_neg hgg]
        exact h g hg
      · intro h g hg
        have hgg : ¬ (g0 = g) := fun he => hrep (he ▸ hg)
        have := h g hg
        rwa [wordOfPairs_cons, if_neg hgg] at this

/-- `isFirstPermutation` decides exactly the spec's canonicity
condition: non-decreasing digits within every repeated group. -/
theorem isFirstPermutation_iff (gids digits : List ℕ) :
    isFirstPermutation gids digits = true ↔ canonicalPattern gids digits := by
  unfold isFirstPermutation
  by_cases hrep : hasRepeats gids
  · rw [if_neg (by simpa using hrep)]
    unfold checkFirstPermutation
    rw [checkFPAux_iff]
    unfold canonicalPattern
    constructor
    · intro h g hg
      have := h g hg
      rw [List.chain'_iff_pairwise] at this
      exact this
    · intro h g hg
      rw [List.chain'_iff_pairwise]
      exact h g hg
  · rw [if_pos (by simpa using hrep)]
    constructor
    · intro _ g hg
      exfalso
      have hmem : g ∈ gids := List.count_pos_iff.mp (by omega)
      exact hrep ((hasRepeats_iff gids).mpr ⟨g, hmem, hg⟩)
    · intro _
      rfl

/-! ### Canonicalisation and class representatives (claim C7, part 2) -/

theorem permutationRank_surj (gids P : List ℕ) (hP : P.length = gids.length)
    (r : ℕ) (hr : r < countPermutations gids P) :
    ∃ Q, Q ∈ patternClass gids P ∧ permutationRank gids Q = r := by
  by_cases hrep : hasRepeats gids
  · have hr' : r < ((repeatedGids gids).map fun g =>
        numPerms (↑(wordOf g gids P) : Multiset ℕ)).prod := by
      rwa [countPermutations, if_neg (by simpa using hrep)] at hr
    obtain ⟨f, hout, hmul, hfold⟩ := surj_aux (repeatedGids gids)
      (repeatedGids_nodup _) (fun g => wordOf g gids P) r hr'
    have hflen : ∀ g, (f g).length = gids.count g := by
      intro g
      have h1 : (f g).length = (wordOf g gids P).length := by
        have := congrArg Multiset.card (hmul g)
        simpa using this
      rw [h1, wordOf_length _ _ _ hP]
    have hword : ∀ g, wordOf g gids (placeWords gids f) = f g :=
      wordOf_placeWords _ _ hflen
    refine ⟨placeWords gids f, ⟨?_, ?_⟩, ?_⟩
    · rw [placeWords_length, hP]
    · intro g
      rw [hword g]
      exact hmul g
    · rw [permutationRank, if_neg (by simpa using hrep)]
      simp only [hword, groupRank_eq_lexRank, hmul]
      exact hfold
  · have hr0 : r = 0 := by
      rw [countPermutations, if_pos (by simpa using hrep)] at hr
      omega
    subst hr0
    refine ⟨P, ⟨rfl, fun g => rfl⟩, ?_⟩
    rw [permutationRank, if_pos (by simpa using hrep)]

theorem canonicalizePattern_mem_class (gids digits : List ℕ)
    (hlen : digits.length = gids.length) :
    canonicalizePattern gids digits ∈ patternClass gids digits := by
  unfold canonicalizePattern
  by_cases hfp : isFirstPermutation gids digits
  · rw [if_pos hfp]
    exact ⟨rfl, fun g => rfl⟩
  · rw [if_neg hfp]
    have hf : ∀ g,
        (List.insertionSort (· ≤ ·) (wordOf g gids digits)).length = gids.count g := by
      intro g
      rw [List.length_insertionSort, wordOf_length gids digits g hlen]
    refine ⟨?_, ?_⟩
    · rw [placeWords_length, hlen]
    · intro g
      rw [wordOf_placeWords _ _ hf g]
      exact Multiset.coe_eq_coe.mpr (List.perm_insertionSort _ _)

theorem canonicalPattern_canonicalizePattern (gids digits : List ℕ)
    (hlen : digits.length = gids.length) :
    canonicalPattern gids (canonicalizePattern gids digits) := by
  unfold canonicalizePattern
  by_cases hfp : isFirstPermutation gids digits
  · rw [if_pos hfp]
    exact (isFirstPermutation_iff gids digits).mp hfp
  · rw [if_neg hfp]
    have hf : ∀ g,
        (List.insertionSort (· ≤ ·) (wordOf g gids digits)).length = gids.count g := by
      intro g
      rw [List.length_insertionSort, wordOf_length gids digits g hlen]
    intro g _
    rw [wordOf_placeWords _ _ hf g]
    exact List.sorted_insertionSort _ _

/-- A class has at most one canonical member. -/
theorem canonical_unique (gids P Q : List ℕ) (hP : P.length = gids.length)
    (hQ : Q ∈ patternClass gids P) (hcP : canonicalPattern gids P)
    (hcQ : canonicalPattern gids Q) : Q = P := by
  have h0Q : permutationRank gids Q = 0 :=
    permutationRank_eq_zero_of_canonical _ _ hcQ
  have h0P : permutationRank gids P = 0 :=
    permutationRank_eq_zero_of_canonical _ _ hcP
  exact permutationRank_injOn gids P hP Q hQ P ⟨rfl, fun g => rfl⟩
    (by rw [h0Q, h0P])

/-! ### Group ids determine the token (claim C7, part 3)

`InitGroupIDsAndCounts` assigns ids through a token-to-id hash map, so
equal ids can only come from equal tokens.  `finalMap` is the map after
the whole walk. -/

def finalMap : List BStr → List (BStr × ℕ) → ℕ → List (BStr × ℕ)
  | [], seenMap, _ => seenMap
  | t :: ts, seenMap, next =>
    match amLookup t seenMap with
    | some _ => finalMap ts seenMap next
    | none => finalMap ts ((t, next) :: seenMap) (next + 1)

theorem subset_finalMap : ∀ (toks : List BStr) (seenMap : List (BStr × ℕ))
    (next : ℕ), ∀ p ∈ seenMap, p ∈ finalMap toks seenMap next := by
  intro toks
  induction toks with
  | nil => intro seenMap next p hp; exact hp
  | cons t ts ih =>
    intro seenMap next p hp
    rw [finalMap]
    cases h : amLookup t seenMap with
    | some g => exact ih seenMap next p hp
    | none => exact ih _ _ p (List.mem_cons_of_mem _ hp)

theorem amLookup_mem : ∀ (t : BStr) (M : List (BStr × ℕ)) (g : ℕ),
    amLookup t M = some g → (t, g) ∈ M := by
  intro t M
  induction M with
  | nil => intro g h; simp [amLookup] at h
  | cons p rest ih =>
    intro g h
    obtain ⟨s, g0⟩ := p
    rw [amLookup] at h
    by_cases hs : s = t
    · rw [if_pos hs] at h
      obtain rfl := Option.some.inj h
      subst hs
      exact List.mem_cons_self _ _
    · rw [if_neg hs] at h
      exact List.mem_cons_of_mem _ (ih g h)

theorem zip_assignGidsAux_mem_finalMap : ∀ (toks : List BStr)
    (seenMap : List (BStr × ℕ)) (next : ℕ),
    ∀ p ∈ toks.zip (assignGidsAux toks seenMap next),
      p ∈ finalMap toks seenMap next := by
  intro toks
  induction toks with
  | nil => intro seenMap next p hp; simp at hp
  | cons t ts ih =>
    intro seenMap next p hp
    rw [assignGidsAux] at hp
    rw [finalMap]
    cases h : amLookup t seenMap with
    | some g =>
      rw [h] at hp
      rcases List.mem_cons.mp hp with rfl | hp1
      · exact subset_finalMap ts seenMap next _ (amLookup_mem t seenMap g h)
      · exact ih seenMap next p hp1
    | none =>
      rw [h] at hp
      rcases List.mem_cons.mp hp with rfl | hp1
      · exact subset_finalMap ts _ _ _ (List.mem_cons_self _ _)
      · exact ih _ _ p hp1

theorem finalMap_functional : ∀ (toks : List BStr) (seenMap : List (BStr × ℕ))
    (next : ℕ),
    (∀ p ∈ seenMap, p.2 < next) →
    (∀ p ∈ seenMap, ∀ q ∈ seenMap, p.2 = q.2 → p.1 = q.1) →
    ∀ p ∈ finalMap toks seenMap next, ∀ q ∈ finalMap toks seenMap next,
      p.2 = q.2 → p.1 = q.1 := by
  intro toks
  induction toks with
  | nil => intro seenMap next _ h2; exact h2
  | cons t ts ih =>
    intro seenMap next h1 h2
    rw [finalMap]
    cases h : amLookup t seenMap with
    | some g => exact ih seenMap next h1 h2
    | none =>
      refine ih _ _ ?_ ?_
      · intro p hp
        rcases List.mem_cons.mp hp with rfl | hp1
        · omega
        · have := h1 p hp1
          omega
      · intro p hp q hq he
        rcases List.mem_cons.mp hp with rfl | hp1 <;>
          rcases List.mem_cons.mp hq with h' | hq1
        · rw [h']
        · exfalso
          have hlt := h1 q hq1
          have hq2 : q.2 = next := by rw [← he]
          omega
        · exfalso
          have hlt := h1 p hp1
          have hp2 : p.2 = next := by rw [he, h']
          omega
        · exact h2 p hp1 q hq1 he

theorem assignGids_functional (toks : List BStr) :
    ∀ p ∈ toks.zip (assignGids toks), ∀ q ∈ toks.zip (assignGids toks),
      p.2 = q.2 → p.1 = q.1 := by
  intro p hp q hq he
  refine finalMap_functional toks [] 1 (by intro p hp; simp at hp)
    (by intro p hp; simp at hp) p ?_ q ?_ he
  · exact zip_assignGidsAux_mem_finalMap toks [] 1 p hp
  · exact zip_assignGidsAux_mem_finalMap toks [] 1 q hq

theorem assignGidsAux_length : ∀ (toks : List BStr) (seenMap : List (BStr × ℕ))
    (next : ℕ), (assignGidsAux toks seenMap next).length = toks.length := by
  intro toks
  induction toks with
  | nil => intro _ _; rfl
  | cons t ts ih =>
    intro seenMap next
    rw [assignGidsAux]
    cases h : amLookup t seenMap with
    | some g => simp [ih]
    | none => simp [ih]

theorem assignGids_length (toks : List BStr) :
    (assignGids toks).length = toks.length :=
  assignGidsAux_length toks [] 1

/-- In a structure whose equal-representation positions carry the same
nonterminal (the collection invariant), the assigned group id
determines the nonterminal. -/
theorem gids_functional (S : StructureM)
    (hdedup : ∀ nt1 ∈ S.nonterminals, ∀ nt2 ∈ S.nonterminals,
      nt1.representation = nt2.representation → nt1 = nt2) :
    ∀ p ∈ S.nonterminals.zip S.patternManager.group_ids,
    ∀ q ∈ S.nonterminals.zip S.patternManager.group_ids,
      p.2 = q.2 → p.1 = q.1 := by
  intro p hp q hq he
  have hmap : ∀ x ∈ S.nonterminals.zip S.patternManager.group_ids,
      (x.1.representation, x.2) ∈
        (S.nonterminals.map fun nt => nt.representation).zip
          S.patternManager.group_ids := by
    intro x hx
    rw [List.zip_map_left]
    exact List.mem_map_of_mem _ hx
  have hrep : p.1.representation = q.1.representation :=
    assignGids_functional (S.nonterminals.map fun nt => nt.representation)
      (p.1.representation, p.2) (hmap p hp) (q.1.representation, q.2)
      (hmap q hq) he
  exact hdedup p.1 (List.of_mem_zip hp).1 q.1 (List.of_mem_zip hq).1 hrep

/-! ### Classes stay in range (claim C7, part 4) -/

theorem mem_wordOf_iff (g d : ℕ) (gids Q : List ℕ) :
    d ∈ wordOf g gids Q ↔ (g, d) ∈ gids.zip Q := by
  unfold wordOf
  rw [List.mem_filterMap]
  constructor
  · rintro ⟨⟨a, b⟩, hp, hpd⟩
    dsimp only at hpd
    by_cases h : a = g
    · rw [if_pos h] at hpd
      obtain rfl := Option.some.inj hpd
      subst h
      exact hp
    · rw [if_neg h] at hpd
      cases hpd
  · intro h
    exact ⟨(g, d), h, by rw [if_pos rfl]⟩

/-- A pattern whose group words are per-group permutations of an
in-range pattern is itself in range: repeated positions of a group id
carry the same nonterminal, hence the same group-count base. -/
theorem class_forall₂ (nts : List Nonterminal) (gids P Q : List ℕ)
    (hgl : gids.length = nts.length)
    (hfun : ∀ p ∈ nts.zip gids, ∀ q ∈ nts.zip gids, p.2 = q.2 → p.1 = q.1)
    (hP : List.Forall₂ (· < ·) P (nts.map Nonterminal.countTerminalGroups))
    (hQlen : Q.length = P.length)
    (hword : ∀ g, (↑(wordOf g gids Q) : Multiset ℕ) = ↑(wordOf g gids P)) :
    List.Forall₂ (· < ·) Q (nts.map Nonterminal.countTerminalGroups) := by
  have hPlen : P.length = nts.length := by simpa using hP.length_eq
  rw [List.forall₂_iff_get]
  refine ⟨by simp [hQlen, hPlen], ?_⟩
  intro i h₁ h₂
  have hin : i < nts.length := by simpa using h₂
  have hig : i < gids.length := by omega
  have hiP : i < P.length := by omega
  have hpair : (gids.get ⟨i, hig⟩, Q.get ⟨i, h₁⟩) ∈ gids.zip Q := by
    refine List.get?_mem (n := i) ?_
    rw [List.get?_zip_eq_some]
    exact ⟨List.get?_eq_get hig, List.get?_eq_get h₁⟩
  have hd : Q.get ⟨i, h₁⟩ ∈ wordOf (gids.get ⟨i, hig⟩) gids Q :=
    (mem_wordOf_iff _ _ _ _).mpr hpair
  have hd' : Q.get ⟨i, h₁⟩ ∈ wordOf (gids.get ⟨i, hig⟩) gids P := by
    have hm : Q.get ⟨i, h₁⟩ ∈
        (↑(wordOf (gids.get ⟨i, hig⟩) gids Q) : Multiset ℕ) :=
      Multiset.mem_coe.mpr hd
    rw [hword] at hm
    exact Multiset.mem_coe.mp hm
  have hpairP : (gids.get ⟨i, hig⟩, Q.get ⟨i, h₁⟩) ∈ gids.zip P :=
    (mem_wordOf_iff _ _ _ _).mp hd'
  obtain ⟨⟨j, hj⟩, hget⟩ := List.get_of_mem hpairP
  have hjg : j < gids.length := by
    have := hj
    rw [List.length_zip] at this
    omega
  have hjP : j < P.length := by
    have := hj
    rw [List.length_zip] at this
    omega
  have hjn : j < nts.length := by omega
  have hgj : gids.get ⟨j, hjg⟩ = gids.get ⟨i, hig⟩ := by
    have := hget
    rw [List.get_zip] at this
    exact (Prod.ext_iff.mp this).1
  have hPj : P.get ⟨j, hjP⟩ = Q.get ⟨i, h₁⟩ := by
    have := hget
    rw [List.get_zip] at this
    exact (Prod.ext_iff.mp this).2
  have hnt : nts.get ⟨i, hin⟩ = nts.get ⟨j, hjn⟩ := by
    have hpi : (nts.get ⟨i, hin⟩, gids.get ⟨i, hig⟩) ∈ nts.zip gids := by
      refine List.get?_mem (n := i) ?_
      rw [List.get?_zip_eq_some]
      exact ⟨List.get?_eq_get hin, List.get?_eq_get hig⟩
    have hpj : (nts.get ⟨j, hjn⟩, gids.get ⟨j, hjg⟩) ∈ nts.zip gids := by
      refine List.get?_mem (n := j) ?_
      rw [List.get?_zip_eq_some]
      exact ⟨List.get?_eq_get hjn, List.get?_eq_get hjg⟩
    exact hfun _ hpi _ hpj (by rw [hgj])
  have hbound := (List.forall₂_iff_get.mp hP).2 j hjP (by simpa using hjn)
  rw [hPj] at hbound
  have hmapi : (nts.map Nonterminal.countTerminalGroups).get ⟨i, h₂⟩ =
      (nts.get ⟨i, hin⟩).countTerminalGroups := by
    simp
  have hmapj : (nts.map Nonterminal.countTerminalGroups).get
      ⟨j, by simpa using hjn⟩ = (nts.get ⟨j, hjn⟩).countTerminalGroups := by
    simp
  rw [hmapi, hnt, ← hmapj]
  exact hbound

/-! ### Position factors depend only on the group words (claim C7, part 5) -/

/-- First nonterminal stored under a group id. -/
def lookupGid (g : ℕ) : List (ℕ × Nonterminal) → Option Nonterminal
  | [] => none
  | (g0, nt) :: rest => if g0 = g then some nt else lookupGid g rest

theorem lookupGid_mem : ∀ (l : List (ℕ × Nonterminal)) (g : ℕ) (nt : Nonterminal),
    lookupGid g l = some nt → (g, nt) ∈ l := by
  intro l
  induction l with
  | nil => intro g nt h; simp [lookupGid] at h
  | cons p rest ih =>
    intro g nt h
    obtain ⟨g0, nt0⟩ := p
    rw [lookupGid] at h
    by_cases hg : g0 = g
    · rw [if_pos hg] at h
      obtain rfl := Option.some.inj h
      subst hg
      exact List.mem_cons_self _ _
    · rw [if_neg hg] at h
      exact List.mem_cons_of_mem _ (ih g nt h)

theorem lookupGid_isSome : ∀ (l : List (ℕ × Nonterminal)) (g : ℕ)
    (nt : Nonterminal), (g, nt) ∈ l → ∃ nt2, lookupGid g l = some nt2 := by
  intro l
  induction l with
  | nil => intro g nt h; simp at h
  | cons p rest ih =>
    intro g nt h
    obtain ⟨g0, nt0⟩ := p
    rw [lookupGid]
    by_cases hg : g0 = g
    · rw [if_pos hg]
      exact ⟨nt0, rfl⟩
    · rw [if_neg hg]
      rcases List.mem_cons.mp h with he | h1
      · exfalso
        exact hg (Prod.ext_iff.mp he).1.symm
      · exact ih g nt h1

/-- Positions decompose as nonterminal = φ (group id) for the
first-occurrence map φ. -/
theorem nts_eq_map_phi (nts : List Nonterminal) (gids : List ℕ)
    (hgl : gids.length = nts.length)
    (hfun : ∀ p ∈ nts.zip gids, ∀ q ∈ nts.zip gids, p.2 = q.2 → p.1 = q.1) :
    nts = gids.map fun g =>
      (lookupGid g (gids.zip nts)).getD (Nonterminal.mk [] []) := by
  refine List.ext_get (by simp [hgl]) ?_
  intro i hi hig
  have hig' : i < gids.length := by simpa using hig
  have hpairs : (gids.get ⟨i, hig'⟩, nts.get ⟨i, hi⟩) ∈ gids.zip nts := by
    refine List.get?_mem (n := i) ?_
    rw [List.get?_zip_eq_some]
    exact ⟨List.get?_eq_get hig', List.get?_eq_get hi⟩
  obtain ⟨nt2, hnt2⟩ := lookupGid_isSome _ _ _ hpairs
  have hmem2 : (gids.get ⟨i, hig'⟩, nt2) ∈ gids.zip nts := lookupGid_mem _ _ _ hnt2
  have hswap : ∀ (a : ℕ) (b : Nonterminal), (a, b) ∈ gids.zip nts →
      (b, a) ∈ nts.zip gids := by
    intro a b hab
    have := List.mem_map_of_mem Prod.swap hab
    rwa [List.zip_swap] at this
  have heq : nt2 = nts.get ⟨i, hi⟩ :=
    hfun (nt2, gids.get ⟨i, hig'⟩) (hswap _ _ hmem2)
      (nts.get ⟨i, hi⟩, gids.get ⟨i, hig'⟩) (hswap _ _ hpairs) rfl
  rw [List.get_map]
  rw [hnt2]
  simp [heq]

theorem count_zip_word : ∀ (gids Q : List ℕ) (g d : ℕ),
    Multiset.count (g, d) (↑(gids.zip Q) : Multiset (ℕ × ℕ)) =
      Multiset.count d (↑(wordOf g gids Q) : Multiset ℕ) := by
  intro gids
  induction gids with
  | nil => intro Q g d; simp [wordOf]
  | cons g0 gs ih =>
    intro Q g d
    cases Q with
    | nil => simp [wordOf]
    | cons q Qs =>
      rw [List.zip_cons_cons, wordOf_cons]
      by_cases hg : g0 = g
      · subst hg
        rw [if_pos rfl, ← Multiset.cons_coe, ← Multiset.cons_coe,
          Multiset.count_cons, Multiset.count_cons, ih]
        by_cases hq : d = q
        · subst hq
          simp
        · have h1 : ¬ ((g0, d) = (g0, q)) := by simp [Prod.ext_iff, hq]
          rw [if_neg h1, if_neg hq]
      · rw [if_neg hg, ← Multiset.cons_coe, Multiset.count_cons, ih]
        have h1 : ¬ ((g, d) = (g0, q)) :=
          fun h => hg ((Prod.ext_iff.mp h).1.symm)
        rw [if_neg h1]
        omega

/-- The per-position pair multisets of two class members coincide. -/
theorem zip_class_multiset_eq (gids P Q : List ℕ)
    (hword : ∀ g, (↑(wordOf g gids Q) : Multiset ℕ) = ↑(wordOf g gids P)) :
    (↑(gids.zip Q) : Multiset (ℕ × ℕ)) = ↑(gids.zip P) := by
  rw [Multiset.ext]
  rintro ⟨g, d⟩
  rw [count_zip_word, count_zip_word]
  have h := hword g
  rw [Multiset.ext] at h
  exact h d

/-- `PatternManager::countStrings` is constant on a per-group
permutation class. -/
theorem countStrings_class_const (nts : List Nonterminal) (gids P Q : List ℕ)
    (hgl : gids.length = nts.length)
    (hfun : ∀ p ∈ nts.zip gids, ∀ q ∈ nts.zip gids, p.2 = q.2 → p.1 = q.1)
    (hword : ∀ g, (↑(wordOf g gids Q) : Multiset ℕ) = ↑(wordOf g gids P)) :
    ((nts.zip Q).map fun p => p.1.countStringsOfGroup p.2).prod =
      ((nts.zip P).map fun p => p.1.countStringsOfGroup p.2).prod := by
  have hphi := nts_eq_map_phi nts gids hgl hfun
  have hQ : (nts.zip Q).map (fun p => p.1.countStringsOfGroup p.2) =
      (gids.zip Q).map fun p =>
        (((lookupGid p.1 (gids.zip nts)).getD
          (Nonterminal.mk [] [])).countStringsOfGroup p.2) := by
    conv_lhs => rw [hphi]
    rw [List.zip_map_left, List.map_map]
    rfl
  have hP : (nts.zip P).map (fun p => p.1.countStringsOfGroup p.2) =
      (gids.zip P).map fun p =>
        (((lookupGid p.1 (gids.zip nts)).getD
          (Nonterminal.mk [] [])).countStringsOfGroup p.2) := by
    conv_lhs => rw [hphi]
    rw [List.zip_map_left, List.map_map]
    rfl
  rw [hQ, hP]
  have hM := zip_class_multiset_eq gids P Q hword
  have hcoe : (↑((gids.zip Q).map fun p =>
      (((lookupGid p.1 (gids.zip nts)).getD
        (Nonterminal.mk [] [])).countStringsOfGroup p.2)) : Multiset ℕ) =
      ↑((gids.zip P).map fun p =>
        (((lookupGid p.1 (gids.zip nts)).getD
          (Nonterminal.mk [] [])).countStringsOfGroup p.2)) := by
    rw [← Multiset.map_coe, ← Multiset.map_coe, hM]
  calc ((gids.zip Q).map fun p =>
        (((lookupGid p.1 (gids.zip nts)).getD
          (Nonterminal.mk [] [])).countStringsOfGroup p.2)).prod
      = (↑((gids.zip Q).map fun p =>
          (((lookupGid p.1 (gids.zip nts)).getD
            (Nonterminal.mk [] [])).countStringsOfGroup p.2)) : Multiset ℕ).prod := by
        rw [Multiset.prod_coe]
    _ = (↑((gids.zip P).map fun p =>
          (((lookupGid p.1 (gids.zip nts)).getD
            (Nonterminal.mk [] [])).countStringsOfGroup p.2)) : Multiset ℕ).prod := by
        rw [hcoe]
    _ = ((gids.zip P).map fun p =>
          (((lookupGid p.1 (gids.zip nts)).getD
            (Nonterminal.mk [] [])).countStringsOfGroup p.2)).prod := by
        rw [Multiset.prod_coe]

/-! ### The count of strings distributes over the state space
(claim C7, part 6) -/

theorem sum_range_getD : ∀ (L : List TGroup),
    ((List.range L.length).map
      fun i => ((L.getD i (TGroup.seen [] 0)).countStrings)).sum =
    (L.map TGroup.countStrings).sum := by
  intro L
  induction L with
  | nil => simp
  | cons gr L ih =>
    rw [List.length_cons, List.range_succ_eq_map, List.map_cons, List.sum_cons,
      List.map_map, List.map_cons, List.sum_cons]
    have hcomp : ((List.range L.length).map
        ((fun i => (((gr :: L).getD i (TGroup.seen [] 0)).countStrings)) ∘
          Nat.succ)).sum =
        ((List.range L.length).map
          fun i => ((L.getD i (TGroup.seen [] 0)).countStrings)).sum := by
      refine congrArg List.sum (List.map_congr_left ?_)
      intro i _
      rfl
    rw [hcomp, ih]
    rfl

theorem countStrings_eq_sum_groups (nt : Nonterminal) :
    ((List.range nt.countTerminalGroups).map
      fun i => nt.countStringsOfGroup i).sum = nt.countStrings := by
  unfold Nonterminal.countTerminalGroups Nonterminal.countStringsOfGroup
    Nonterminal.countStrings
  exact sum_range_getD nt.groups

theorem range_split (m n : ℕ) :
    List.range (m + n) = List.range m ++ List.range' m n := by
  have h := List.range'_append_1 0 m n
  rw [Nat.zero_add] at h
  rw [List.range_eq_range', List.range_eq_range', Nat.add_comm m n, ← h]

theorem range_mul_split (b P : ℕ) (f : ℕ → ℕ) :
    ((List.range (b * P)).map f).sum =
      ((List.range b).map
        fun d => ((List.range P).map fun r => f (d * P + r)).sum).sum := by
  induction b with
  | zero => simp
  | succ b ih =>
    rw [show (b + 1) * P = b * P + P from by ring, range_split, List.map_append,
      List.sum_append, ih, List.range_succ, List.map_append, List.sum_append]
    congr 1
    rw [List.range'_eq_map_range, List.map_map]
    simp only [List.map_cons, List.map_nil, List.sum_cons, List.sum_nil,
      Nat.add_zero]
    refine congrArg List.sum (List.map_congr_left ?_)
    intro r _
    rfl

theorem sum_over_states : ∀ nts : List Nonterminal,
    (((List.range ((nts.map Nonterminal.countTerminalGroups).prod)).map
      (fromVal (nts.map Nonterminal.countTerminalGroups))).map
        fun ds => ((nts.zip ds).map fun p => p.1.countStringsOfGroup p.2).prod).sum
      = (nts.map Nonterminal.countStrings).prod := by
  intro nts
  induction nts with
  | nil => simp [List.range_succ, fromVal]
  | cons nt nts ih =>
    rw [List.map_map] at ih ⊢
    rw [List.map_cons, List.prod_cons, List.map_cons, List.prod_cons]
    rw [range_mul_split nt.countTerminalGroups
      ((nts.map Nonterminal.countTerminalGroups).prod)]
    have hstep : ∀ d ∈ List.range nt.countTerminalGroups,
        ((List.range ((nts.map Nonterminal.countTerminalGroups).prod)).map
          fun r => ((fun ds => (((nt :: nts).zip ds).map
              fun p => p.1.countStringsOfGroup p.2).prod) ∘
            fromVal (nt.countTerminalGroups ::
              nts.map Nonterminal.countTerminalGroups))
            (d * (nts.map Nonterminal.countTerminalGroups).prod + r)).sum =
        nt.countStringsOfGroup d * (nts.map Nonterminal.countStrings).prod := by
      intro d _
      have hcongr : ∀ r ∈ List.range
          ((nts.map Nonterminal.countTerminalGroups).prod),
          ((fun ds => (((nt :: nts).zip ds).map
              fun p => p.1.countStringsOfGroup p.2).prod) ∘
            fromVal (nt.countTerminalGroups ::
              nts.map Nonterminal.countTerminalGroups))
            (d * (nts.map Nonterminal.countTerminalGroups).prod + r) =
          nt.countStringsOfGroup d *
            ((nts.zip (fromVal (nts.map Nonterminal.countTerminalGroups) r)).map
              fun p => p.1.countStringsOfGroup p.2).prod := by
        intro r hr
        have hr' := List.mem_range.mp hr
        have hP : 0 < (nts.map Nonterminal.countTerminalGroups).prod := by omega
        have hdiv : (d * (nts.map Nonterminal.countTerminalGroups).prod + r) /
            (nts.map Nonterminal.countTerminalGroups).prod = d := by
          rw [Nat.mul_comm d ((nts.map Nonterminal.countTerminalGroups).prod),
            Nat.mul_add_div hP, Nat.div_eq_of_lt hr']
          omega
        have hmod : (d * (nts.map Nonterminal.countTerminalGroups).prod + r) %
            (nts.map Nonterminal.countTerminalGroups).prod = r := by
          rw [Nat.mul_comm d ((nts.map Nonterminal.countTerminalGroups).prod),
            Nat.mul_add_mod]
          exact Nat.mod_eq_of_lt hr'
        simp only [Function.comp_apply, fromVal]
        rw [hdiv, hmod, List.zip_cons_cons, List.map_cons, List.prod_cons]
      rw [List.map_congr_left hcongr, List.sum_map_mul_left]
      exact congrArg (fun x => nt.countStringsOfGroup d * x) ih
    rw [List.map_congr_left hstep, List.sum_map_mul_right,
      countStrings_eq_sum_groups]

/-! ### Claim C7: countStrings equals the compacted pattern sum -/

theorem mem_patternClass_symm (gids A B : List ℕ)
    (h : A ∈ patternClass gids B) : B ∈ patternClass gids A :=
  ⟨h.1.symm, fun g => (h.2 g).symm⟩

theorem mem_patternClass_trans (gids A B C : List ℕ)
    (h1 : A ∈ patternClass gids B) (h2 : B ∈ patternClass gids C) :
    A ∈ patternClass gids C :=
  ⟨h1.1.trans h2.1, fun g => (h1.2 g).trans (h2.2 g)⟩

theorem states_nodup (bs : List ℕ) (hb : ∀ b ∈ bs, 0 < b) :
    ((List.range bs.prod).map (fromVal bs)).Nodup := by
  refine List.Nodup.map_on ?_ (List.nodup_range _)
  intro x hx y hy hxy
  rw [← patVal_fromVal bs x hb (List.mem_range.mp hx),
    ← patVal_fromVal bs y hb (List.mem_range.mp hy), hxy]

theorem mem_states_iff (bs : List ℕ) (hb : ∀ b ∈ bs, 0 < b) (ds : List ℕ) :
    ds ∈ (List.range bs.prod).map (fromVal bs) ↔
      List.Forall₂ (· < ·) ds bs := by
  constructor
  · intro hds
    rw [List.mem_map] at hds
    obtain ⟨x, hx, rfl⟩ := hds
    exact fromVal_forall₂ _ _ hb (List.mem_range.mp hx)
  · intro hds
    rw [List.mem_map]
    exact ⟨patVal bs ds, List.mem_range.mpr (patVal_lt _ _ hds),
      fromVal_patVal _ _ hds⟩

theorem generatePatterns_eq (S : StructureM) (cutoff : ℚ)
    (hpos : ∀ nt ∈ S.nonterminals, 0 < nt.countTerminalGroups)
    (hbase : 0 ≤ S.probability)
    (hnn : ∀ nt ∈ S.nonterminals, ∀ i, 0 ≤ nt.getProbabilityOfGroup i)
    (hmono : ∀ nt ∈ S.nonterminals, ∀ i j, i ≤ j →
      nt.getProbabilityOfGroup j ≤ nt.getProbabilityOfGroup i) :
    S.generatePatterns cutoff =
      (((List.range
        ((S.nonterminals.map Nonterminal.countTerminalGroups).prod)).map
        (fromVal (S.nonterminals.map Nonterminal.countTerminalGroups))).filter
          fun ds => decide (cutoff ≤ S.patternManager.patternProbability ds) &&
            isFirstPermutation S.patternManager.group_ids ds).map
        (patternLine S.patternManager) := by
  have hbpos : ∀ b ∈ S.nonterminals.map Nonterminal.countTerminalGroups,
      0 < b := by
    intro b hb
    rw [List.mem_map] at hb
    obtain ⟨nt, hnt, rfl⟩ := hb
    exact hpos nt hnt
  have hzf : List.Forall₂ (· < ·)
      ((S.nonterminals.map Nonterminal.countTerminalGroups).map fun _ => 0)
      (S.nonterminals.map Nonterminal.countTerminalGroups) := by
    rw [List.forall₂_map_left_iff]
    exact List.forall₂_same.mpr fun b hb => hbpos b hb
  have h := genLoop_spec S.patternManager cutoff
    (S.nonterminals.map Nonterminal.countTerminalGroups) hbase hnn hmono
    ((S.nonterminals.map Nonterminal.countTerminalGroups).prod)
    ⟨S.nonterminals.map Nonterminal.countTerminalGroups,
      (S.nonterminals.map Nonterminal.countTerminalGroups).map fun _ => 0⟩
    rfl hzf (by rw [patVal_zeros]; omega)
  rw [patVal_zeros, Nat.sub_zero, ← List.range_eq_range'] at h
  exact h

/-- C7: for every structure satisfying the documented grammar
invariants, the total string count (the product of the per-position
nonterminal string counts) equals the sum over all canonical patterns
visited by pattern enumeration with cutoff 0 of
stringsInPattern × permutationCount — the sum of the count field over
the generatePatterns(0) output lines. -/
theorem claim_C7 (S : StructureM)
    (hdedup : ∀ nt1 ∈ S.nonterminals, ∀ nt2 ∈ S.nonterminals,
      nt1.representation = nt2.representation → nt1 = nt2)
    (hpos : ∀ nt ∈ S.nonterminals, 0 < nt.countTerminalGroups)
    (hbase : 0 ≤ S.probability)
    (hnn : ∀ nt ∈ S.nonterminals, ∀ i, 0 ≤ nt.getProbabilityOfGroup i)
    (hmono : ∀ nt ∈ S.nonterminals, ∀ i j, i ≤ j →
      nt.getProbabilityOfGroup j ≤ nt.getProbabilityOfGroup i) :
    ((S.generatePatterns 0).map fun line => line.2.1).sum = S.countStrings := by
  have hbpos : ∀ b ∈ S.nonterminals.map Nonterminal.countTerminalGroups,
      0 < b := by
    intro b hb
    rw [List.mem_map] at hb
    obtain ⟨nt, hnt, rfl⟩ := hb
    exact hpos nt hnt
  have hgl : S.patternManager.group_ids.length = S.nonterminals.length := by
    show (assignGids (S.nonterminals.map fun nt => nt.representation)).length = _
    rw [assignGids_length, List.length_map]
  have hfun := gids_functional S hdedup
  rw [generatePatterns_eq S 0 hpos hbase hnn hmono]
  have hprob : ∀ ds, (0 : ℚ) ≤ S.patternManager.patternProbability ds := by
    intro ds
    have h0 := (prodProb_anti S.patternManager.nonterminals ds ds hnn hmono
      (List.forall₂_same.mpr fun _ _ => le_refl _)).1
    exact mul_nonneg hbase h0
  have hfilter : (((List.range
      ((S.nonterminals.map Nonterminal.countTerminalGroups).prod)).map
      (fromVal (S.nonterminals.map Nonterminal.countTerminalGroups))).filter
        fun ds => decide ((0 : ℚ) ≤ S.patternManager.patternProbability ds) &&
          isFirstPermutation S.patternManager.group_ids ds) =
      (((List.range
        ((S.nonterminals.map Nonterminal.countTerminalGroups).prod)).map
        (fromVal (S.nonterminals.map Nonterminal.countTerminalGroups))).filter
          fun ds => isFirstPermutation S.patternManager.group_ids ds) := by
    refine List.filter_congr ?_
    intro ds _
    rw [decide_eq_true (hprob ds), Bool.true_and]
  rw [hfilter, List.map_map]
  have hnodupAll : (((List.range
      ((S.nonterminals.map Nonterminal.countTerminalGroups).prod)).map
      (fromVal (S.nonterminals.map Nonterminal.countTerminalGroups)))).Nodup :=
    states_nodup _ hbpos
  have hnodupFil := List.Nodup.filter
    (fun ds => isFirstPermutation S.patternManager.group_ids ds) hnodupAll
  have hmemAll := mem_states_iff
    (S.nonterminals.map Nonterminal.countTerminalGroups) hbpos
  have hlen_of : ∀ Q : List ℕ, Q ∈ ((List.range
      ((S.nonterminals.map Nonterminal.countTerminalGroups).prod)).map
      (fromVal (S.nonterminals.map Nonterminal.countTerminalGroups))) →
      Q.length = S.patternManager.group_ids.length := by
    intro Q hQ
    have h1 := ((hmemAll Q).mp hQ).length_eq
    rw [List.length_map] at h1
    rw [h1, hgl]
  have hmapsto : ∀ Q ∈ (((List.range
      ((S.nonterminals.map Nonterminal.countTerminalGroups).prod)).map
      (fromVal (S.nonterminals.map Nonterminal.countTerminalGroups)))).toFinset,
      canonicalizePattern S.patternManager.group_ids Q ∈
        ((((List.range
          ((S.nonterminals.map Nonterminal.countTerminalGroups).prod)).map
          (fromVal (S.nonterminals.map Nonterminal.countTerminalGroups))).filter
            fun ds => isFirstPermutation S.patternManager.group_ids ds)).toFinset := by
    intro Q hQ
    rw [List.mem_toFinset] at hQ ⊢
    have hQr := (hmemAll Q).mp hQ
    have hQlen := hlen_of Q hQ
    have hclass := canonicalizePattern_mem_class S.patternManager.group_ids Q hQlen
    have hcanon := canonicalPattern_canonicalizePattern
      S.patternManager.group_ids Q hQlen
    have hcr : List.Forall₂ (· < ·)
        (canonicalizePattern S.patternManager.group_ids Q)
        (S.nonterminals.map Nonterminal.countTerminalGroups) :=
      class_forall₂ S.nonterminals S.patternManager.group_ids Q _ hgl hfun
        hQr hclass.1 hclass.2
    rw [List.mem_filter]
    exact ⟨(hmemAll _).mpr hcr, (isFirstPermutation_iff _ _).mpr hcanon⟩
  have hQclass : ∀ P : List ℕ, ∀ Q ∈ (((List.range
      ((S.nonterminals.map Nonterminal.countTerminalGroups).prod)).map
      (fromVal (S.nonterminals.map Nonterminal.countTerminalGroups)))).toFinset.filter
        (fun Q => canonicalizePattern S.patternManager.group_ids Q = P),
      Q ∈ patternClass S.patternManager.group_ids P := by
    intro P Q hQ
    rw [Finset.mem_filter, List.mem_toFinset] at hQ
    obtain ⟨hQall, hQc⟩ := hQ
    have hQlen := hlen_of Q hQall
    have hclass := canonicalizePattern_mem_class S.patternManager.group_ids Q hQlen
    rw [hQc] at hclass
    exact mem_patternClass_symm _ _ _ hclass
  have hper : ∀ P ∈ ((((List.range
      ((S.nonterminals.map Nonterminal.countTerminalGroups).prod)).map
      (fromVal (S.nonterminals.map Nonterminal.countTerminalGroups))).filter
        fun ds => isFirstPermutation S.patternManager.group_ids ds)).toFinset,
      (∑ Q in (((List.range
        ((S.nonterminals.map Nonterminal.countTerminalGroups).prod)).map
        (fromVal (S.nonterminals.map Nonterminal.countTerminalGroups)))).toFinset.filter
          (fun Q => canonicalizePattern S.patternManager.group_ids Q = P),
        S.patternManager.countStrings Q) =
      S.patternManager.countStrings P *
        countPermutations S.patternManager.group_ids P := by
    intro P hP
    rw [List.mem_toFinset, List.mem_filter] at hP
    obtain ⟨hPall, hPfirst⟩ := hP
    have hPr := (hmemAll P).mp hPall
    have hPlen := hlen_of P hPall
    have hPcanon : canonicalPattern S.patternManager.group_ids P :=
      (isFirstPermutation_iff _ _).mp hPfirst
    have hconst : ∀ Q ∈ (((List.range
        ((S.nonterminals.map Nonterminal.countTerminalGroups).prod)).map
        (fromVal (S.nonterminals.map Nonterminal.countTerminalGroups)))).toFinset.filter
          (fun Q => canonicalizePattern S.patternManager.group_ids Q = P),
        S.patternManager.countStrings Q = S.patternManager.countStrings P := by
      intro Q hQ
      exact countStrings_class_const S.nonterminals S.patternManager.group_ids
        P Q hgl hfun (hQclass P Q hQ).2
    rw [Finset.sum_congr rfl hconst, Finset.sum_const, smul_eq_mul]
    have hcard : ((((List.range
        ((S.nonterminals.map Nonterminal.countTerminalGroups).prod)).map
        (fromVal (S.nonterminals.map Nonterminal.countTerminalGroups)))).toFinset.filter
          (fun Q => canonicalizePattern S.patternManager.group_ids Q = P)).card =
        countPermutations S.patternManager.group_ids P := by
      rw [← Finset.card_range (countPermutations S.patternManager.group_ids P)]
      refine Finset.card_bij
        (fun Q _ => permutationRank S.patternManager.group_ids Q) ?_ ?_ ?_
      · intro Q hQ
        rw [Finset.mem_range]
        have hcls := hQclass P Q hQ
        have hlt := permutationRank_lt_countPermutations
          S.patternManager.group_ids Q
        rwa [countPermutations_congr S.patternManager.group_ids Q P hcls.2] at hlt
      · intro Q1 h1 Q2 h2 he
        exact permutationRank_injOn S.patternManager.group_ids P hPlen Q1
          (hQclass P Q1 h1) Q2 (hQclass P Q2 h2) he
      · intro r hr
        rw [Finset.mem_range] at hr
        obtain ⟨Q, hQcls, hQrank⟩ := permutationRank_surj
          S.patternManager.group_ids P hPlen r hr
        have hQr : List.Forall₂ (· < ·) Q
            (S.nonterminals.map Nonterminal.countTerminalGroups) :=
          class_forall₂ S.nonterminals S.patternManager.group_ids P Q hgl hfun
            hPr hQcls.1 hQcls.2
        have hQall := (hmemAll Q).mpr hQr
        have hQlen : Q.length = S.patternManager.group_ids.length :=
          hQcls.1.trans hPlen
        have hc1 := canonicalizePattern_mem_class S.patternManager.group_ids Q hQlen
        have hc2 := canonicalPattern_canonicalizePattern
          S.patternManager.group_ids Q hQlen
        have hcp := mem_patternClass_trans S.patternManager.group_ids _ _ _ hc1 hQcls
        have hcQP : canonicalizePattern S.patternManager.group_ids Q = P :=
          canonical_unique S.patternManager.group_ids P _ hPlen hcp hPcanon hc2
        refine ⟨Q, ?_, hQrank⟩
        rw [Finset.mem_filter, List.mem_toFinset]
        exact ⟨hQall, hcQP⟩
    rw [hcard, Nat.mul_comm]
  calc (((((List.range
        ((S.nonterminals.map Nonterminal.countTerminalGroups).prod)).map
        (fromVal (S.nonterminals.map Nonterminal.countTerminalGroups))).filter
          fun ds => isFirstPermutation S.patternManager.group_ids ds)).map
        ((fun line : ℚ × ℕ × BStr => line.2.1) ∘
          patternLine S.patternManager)).sum
      = ∑ P in ((((List.range
          ((S.nonterminals.map Nonterminal.countTerminalGroups).prod)).map
          (fromVal (S.nonterminals.map Nonterminal.countTerminalGroups))).filter
            fun ds => isFirstPermutation S.patternManager.group_ids ds)).toFinset,
          S.patternManager.countStrings P *
            countPermutations S.patternManager.group_ids P :=
        (List.sum_toFinset _ hnodupFil).symm
    _ = ∑ P in ((((List.range
          ((S.nonterminals.map Nonterminal.countTerminalGroups).prod)).map
          (fromVal (S.nonterminals.map Nonterminal.countTerminalGroups))).filter
            fun ds => isFirstPermutation S.patternManager.group_ids ds)).toFinset,
          ∑ Q in (((List.range
            ((S.nonterminals.map Nonterminal.countTerminalGroups).prod)).map
            (fromVal (S.nonterminals.map
              Nonterminal.countTerminalGroups)))).toFinset.filter
              (fun Q => canonicalizePattern S.patternManager.group_ids Q = P),
            S.patternManager.countStrings Q :=
        Finset.sum_congr rfl fun P hP => (hper P hP).symm
    _ = ∑ Q in (((List.range
          ((S.nonterminals.map Nonterminal.countTerminalGroups).prod)).map
          (fromVal (S.nonterminals.map
            Nonterminal.countTerminalGroups)))).toFinset,
          S.patternManager.countStrings Q :=
        Finset.sum_fiberwise_of_maps_to hmapsto _
    _ = (((List.range
          ((S.nonterminals.map Nonterminal.countTerminalGroups).prod)).map
          (fromVal (S.nonterminals.map Nonterminal.countTerminalGroups))).map
            fun ds => S.patternManager.countStrings ds).sum :=
        List.sum_toFinset _ hnodupAll
    _ = S.countStrings := sum_over_states S.nonterminals

theorem claim_C7_witness :
    ((∀ nt1 ∈ (StructureM.mk 1 []
        [Nonterminal.mk [76] [TGroup.seen [[97]] 1]]).nonterminals,
      ∀ nt2 ∈ (StructureM.mk 1 []
        [Nonterminal.mk [76] [TGroup.seen [[97]] 1]]).nonterminals,
      nt1.representation = nt2.representation → nt1 = nt2) ∧
     (∀ nt ∈ (StructureM.mk 1 []
        [Nonterminal.mk [76] [TGroup.seen [[97]] 1]]).nonterminals,
      0 < nt.countTerminalGroups) ∧
     (0 : ℚ) ≤ (StructureM.mk 1 []
       [Nonterminal.mk [76] [TGroup.seen [[97]] 1]]).probability ∧
     (∀ nt ∈ (StructureM.mk 1 []
        [Nonterminal.mk [76] [TGroup.seen [[97]] 1]]).nonterminals,
      ∀ i, 0 ≤ nt.getProbabilityOfGroup i) ∧
     (∀ nt ∈ (StructureM.mk 1 []
        [Nonterminal.mk [76] [TGroup.seen [[97]] 1]]).nonterminals,
      ∀ i j, i ≤ j →
        nt.getProbabilityOfGroup j ≤ nt.getProbabilityOfGroup i)) ∧
    (((StructureM.mk 1 []
        [Nonterminal.mk [76] [TGroup.seen [[97]] 1]]).generatePatterns 0).map
      fun line => line.2.1).sum =
      (StructureM.mk 1 []
        [Nonterminal.mk [76] [TGroup.seen [[97]] 1]]).countStrings := by
  have h0 : ∀ nt1 ∈ (StructureM.mk 1 []
      [Nonterminal.mk [76] [TGroup.seen [[97]] 1]]).nonterminals,
      ∀ nt2 ∈ (StructureM.mk 1 []
        [Nonterminal.mk [76] [TGroup.seen [[97]] 1]]).nonterminals,
      nt1.representation = nt2.representation → nt1 = nt2 := by
    decide
  have h1 : ∀ nt ∈ (StructureM.mk 1 []
      [Nonterminal.mk [76] [TGroup.seen [[97]] 1]]).nonterminals,
      0 < nt.countTerminalGroups := by
    decide
  have h2 : (0 : ℚ) ≤ (StructureM.mk 1 []
      [Nonterminal.mk [76] [TGroup.seen [[97]] 1]]).probability := by
    norm_num
  have h3 : ∀ nt ∈ (StructureM.mk 1 []
      [Nonterminal.mk [76] [TGroup.seen [[97]] 1]]).nonterminals, ∀ i,
      0 ≤ nt.getProbabilityOfGroup i := by
    intro nt hnt i
    have hnt' : nt = Nonterminal.mk [76] [TGroup.seen [[97]] 1] := by
      simpa using hnt
    subst hnt'
    cases i with
    | zero => norm_num [Nonterminal.getProbabilityOfGroup, TGroup.probability]
    | succ n =>
      simp [Nonterminal.getProbabilityOfGroup, TGroup.probability, List.getD]
  have h4 : ∀ nt ∈ (StructureM.mk 1 []
      [Nonterminal.mk [76] [TGroup.seen [[97]] 1]]).nonterminals, ∀ i j,
      i ≤ j → nt.getProbabilityOfGroup j ≤ nt.getProbabilityOfGroup i := by
    intro nt hnt i j hij
    have hnt' : nt = Nonterminal.mk [76] [TGroup.seen [[97]] 1] := by
      simpa using hnt
    subst hnt'
    cases j with
    | zero =>
      have : i = 0 := by omega
      subst this
      exact le_refl _
    | succ n =>
      cases i with
      | zero =>
        norm_num [Nonterminal.getProbabilityOfGroup, TGroup.probability,
          List.getD]
      | succ k =>
        simp [Nonterminal.getProbabilityOfGroup, TGroup.probability, List.getD]
  exact ⟨⟨h0, h1, h2, h3, h4⟩,
    claim_C7 (StructureM.mk 1 [] [Nonterminal.mk [76] [TGroup.seen [[97]] 1]])
      h0 h1 h2 h3 h4⟩

end GuessCalc
